import Mathlib

/-!
# OrderBook: a limit-order matching engine

A shallow embedding of `Order`, `PriceLevel` and `OrderBook`
(`src/include/*.h`, `src/src/*.cpp`) together with theorems about them.

Modelling conventions.

* `Quantity` is the C++ `int`, modelled as an unbounded `Int` (signed overflow is
  undefined behaviour in the source and is outside the model).
* `Price` is the C++ `double`.  It is modelled as an exact integer number of
  thousandths (the integer `1` is the price `0.001`), so that the tolerance
  `0.001` of `PriceLevel::addOrder` is the integer `1`.  NaN, infinities and
  rounding are outside the model.
* `std::shared_ptr<Order>` is a non-null reference into an object store
  (`Heap`): the registry, the price levels and the matching loops all alias the
  same mutable `Order` objects, exactly as in the source.
* A member function that can throw returns the state reached when it returned
  or threw, paired with `Except Error _`: an exception does not roll back the
  mutations made before it.
* `std::map<Price, _>` is an association list kept in ascending key order;
  `std::unordered_map<OrderId, _>` is an association list; `std::queue` is a
  list whose head is the front of the queue.
-/

namespace OrderBookModel

abbrev OrderId := String
abbrev Price := Int
abbrev Quantity := Int

/-- The enum `Side` of `Types.h`. -/
inductive Side where
  | BUY
  | SELL
  deriving DecidableEq, Repr

/-- One constructor per `throw` site of the source; `outOfFuel` is the only
one that is not an exception of the source: it marks a loop of the model that
was cut off by its iteration bound. -/
inductive Error where
  | orderPriceNotPositive
  | orderQuantityNotPositive
  | orderIdEmpty
  | overfill
  | levelPriceNotPositive
  | levelPriceMismatch
  | removeFromEmptyLevel
  | symbolEmpty
  | orderAlreadyFilled
  | duplicateOrder
  | outOfFuel
  deriving DecidableEq, Repr

/-- The data members of `class Order` (the timestamp is not modelled). -/
structure Order where
  m_orderId : OrderId
  m_side : Side
  m_price : Price
  m_quantity : Quantity
  m_remainingQuantity : Quantity
  deriving DecidableEq, Repr

instance : Inhabited Order := ⟨⟨"", Side.BUY, 0, 0, 0⟩⟩

/-- The constructor `Order::Order`: the members are initialised, then the three
validations run in the order price, quantity, identifier. -/
def Order.new (orderId : OrderId) (side : Side) (price : Price) (quantity : Quantity) :
    Except Error Order :=
  if price ≤ 0 then .error .orderPriceNotPositive
  else if quantity ≤ 0 then .error .orderQuantityNotPositive
  else if orderId.isEmpty then .error .orderIdEmpty
  else .ok ⟨orderId, side, price, quantity, quantity⟩

/-- The method `Order::isFilled`. -/
def Order.isFilled (o : Order) : Bool := o.m_remainingQuantity == 0

/-- The method `Order::fill`: the object after the call and whether it threw. -/
def Order.fill (o : Order) (quantity : Quantity) : Order × Except Error Unit :=
  if quantity > o.m_remainingQuantity then (o, .error .overfill)
  else ({ o with m_remainingQuantity := o.m_remainingQuantity - quantity }, .ok ())

/-- A `std::shared_ptr<Order>`: the address of an `Order` object. -/
abbrev OrderPtr := Nat

/-- The object store holding every `Order` object. -/
abbrev Heap := OrderPtr → Order

/-- The data members of `class PriceLevel`; the head of `m_orders` is the front
of the queue. -/
structure PriceLevel where
  m_price : Price
  m_orders : List OrderPtr
  m_totalQuantity : Quantity
  deriving DecidableEq, Repr

/-- The constructor `PriceLevel::PriceLevel`. -/
def PriceLevel.new (price : Price) : Except Error PriceLevel :=
  if price ≤ 0 then .error .levelPriceNotPositive
  else .ok ⟨price, [], 0⟩

/-- The method `PriceLevel::addOrder` (the pointer is non-null in the model).
The tolerance `0.001` is `1` in thousandths. -/
def PriceLevel.addOrder (l : PriceLevel) (heap : Heap) (order : OrderPtr) :
    PriceLevel × Except Error Unit :=
  if |(heap order).m_price - l.m_price| > 1 then (l, .error .levelPriceMismatch)
  else ({ l with m_orders := l.m_orders ++ [order],
                 m_totalQuantity := l.m_totalQuantity + (heap order).m_remainingQuantity },
        .ok ())

/-- The method `PriceLevel::getNextOrder`; `none` is `nullptr`. -/
def PriceLevel.getNextOrder (l : PriceLevel) : Option OrderPtr := l.m_orders.head?

/-- The method `PriceLevel::isEmpty`. -/
def PriceLevel.isEmpty (l : PriceLevel) : Bool := l.m_orders.isEmpty

/-- The method `PriceLevel::getOrderCount`. -/
def PriceLevel.getOrderCount (l : PriceLevel) : Nat := l.m_orders.length

/-- The method `PriceLevel::removeOrder`. -/
def PriceLevel.removeOrder (l : PriceLevel) (heap : Heap) : PriceLevel × Except Error Unit :=
  match l.m_orders with
  | [] => (l, .error .removeFromEmptyLevel)
  | order :: rest =>
    ({ l with m_totalQuantity := l.m_totalQuantity - (heap order).m_remainingQuantity,
              m_orders := rest }, .ok ())

/-- The variables live in the loop of `PriceLevel::match`: the object store, the
level (`this`), the local `totalMatched` and the out-parameter `filledOrders`. -/
structure MatchState where
  heap : Heap
  level : PriceLevel
  totalMatched : Quantity
  filledOrders : List OrderPtr

/-- The `while` loop of `PriceLevel::match`; each unit of fuel pays for one
evaluation of the loop condition. -/
def PriceLevel.matchLoop (requestedQuantity : Quantity) :
    Nat → MatchState → MatchState × Except Error Unit
  | 0, st => (st, .error .outOfFuel)
  | fuel + 1, st =>
    match st.level.m_orders with
    | [] => (st, .ok ())
    | currentOrder :: rest =>
      if st.totalMatched < requestedQuantity then
        let availableInOrder := (st.heap currentOrder).m_remainingQuantity
        let neededQuantity := requestedQuantity - st.totalMatched
        let quantityToFill := min availableInOrder neededQuantity
        match (st.heap currentOrder).fill quantityToFill with
        | (_, .error e) => (st, .error e)
        | (filled, .ok _) =>
          let st1 : MatchState :=
            { heap := Function.update st.heap currentOrder filled
              level := { st.level with
                m_totalQuantity := st.level.m_totalQuantity - quantityToFill }
              totalMatched := st.totalMatched + quantityToFill
              filledOrders := st.filledOrders ++ [currentOrder] }
          if (st1.heap currentOrder).isFilled then
            PriceLevel.matchLoop requestedQuantity fuel
              { st1 with level := { st1.level with m_orders := rest } }
          else
            PriceLevel.matchLoop requestedQuantity fuel st1
      else (st, .ok ())

/-- The method `PriceLevel::match`.  An iteration that does not pop the head
has filled exactly the needed quantity, so `m_orders.size() + 1` evaluations of
the loop condition always suffice (`matchLoop_post` below). -/
def PriceLevel.match_ (l : PriceLevel) (heap : Heap) (requestedQuantity : Quantity)
    (filledOrders : List OrderPtr) : MatchState × Except Error Quantity :=
  let r := PriceLevel.matchLoop requestedQuantity (l.m_orders.length + 1)
    ⟨heap, l, 0, filledOrders⟩
  (r.1, r.2.map (fun _ => r.1.totalMatched))

/-- The struct `Trade` (the timestamp is not modelled). -/
structure Trade where
  buyOrderId : OrderId
  sellOrderId : OrderId
  price : Price
  quantity : Quantity
  deriving DecidableEq, Repr

/-- A `std::map<Price, std::shared_ptr<PriceLevel>>`, in ascending key order.
Each level is owned by its map entry alone. -/
abbrev Levels := List (Price × PriceLevel)

/-- The call `std::map::find`; `none` is `end()`. -/
def Levels.find : Levels → Price → Option PriceLevel
  | [], _ => none
  | (k, l) :: rest, price => if k = price then some l else Levels.find rest price

/-- The assignment `m[price] = level`: replaces the value of an existing key,
inserts in key order otherwise. -/
def Levels.set : Levels → Price → PriceLevel → Levels
  | [], price, level => [(price, level)]
  | (k, l) :: rest, price, level =>
    if price < k then (price, level) :: (k, l) :: rest
    else if k = price then (k, level) :: rest
    else (k, l) :: Levels.set rest price level

/-- A `std::unordered_map<OrderId, OrderPtr>`. -/
abbrev Registry := List (OrderId × OrderPtr)

/-- The call `std::unordered_map::find`; `none` is `end()`. -/
def Registry.find : Registry → OrderId → Option OrderPtr
  | [], _ => none
  | (k, p) :: rest, orderId => if k = orderId then some p else Registry.find rest orderId

/-- The assignment `m[orderId] = order`. -/
def Registry.set : Registry → OrderId → OrderPtr → Registry
  | [], orderId, order => [(orderId, order)]
  | (k, p) :: rest, orderId, order =>
    if k = orderId then (k, order) :: rest else (k, p) :: Registry.set rest orderId order

/-- The call `std::unordered_map::erase` on the entry found for `orderId`. -/
def Registry.erase : Registry → OrderId → Registry
  | [], _ => []
  | (k, p) :: rest, orderId =>
    if k = orderId then rest else (k, p) :: Registry.erase rest orderId

/-- The data members of `class OrderBook`, together with the object store of
the `Order` objects they point to and the next unused address. -/
structure OrderBook where
  heap : Heap
  nextPtr : OrderPtr
  m_bidLevels : Levels
  m_askLevels : Levels
  m_orders : Registry
  m_trades : List Trade
  m_symbol : String

/-- The constructor `OrderBook::OrderBook`. -/
def OrderBook.new (symbol : String) : Except Error OrderBook :=
  if symbol.isEmpty then .error .symbolEmpty
  else .ok ⟨fun _ => default, 0, [], [], [], [], symbol⟩

/-- The method `OrderBook::validateOrder` (the pointer is non-null in the model). -/
def OrderBook.validateOrder (b : OrderBook) (order : OrderPtr) : Except Error Unit :=
  if (b.heap order).isFilled then .error .orderAlreadyFilled else .ok ()

/-- The method `OrderBook::recordTrade`, on the trade log alone. -/
def recordTrade (heap : Heap) (trades : List Trade) (buyOrder sellOrder : OrderPtr)
    (price : Price) (quantity : Quantity) : List Trade :=
  trades ++ [⟨(heap buyOrder).m_orderId, (heap sellOrder).m_orderId, price, quantity⟩]

/-- The statement `order->fill(quantity)` on an object of the store. -/
def Heap.fill (heap : Heap) (order : OrderPtr) (quantity : Quantity) :
    Heap × Except Error Unit :=
  (Function.update heap order ((heap order).fill quantity).1, ((heap order).fill quantity).2)

/-- The `for` loop over `filledOrders` in `matchBuyOrder`. -/
def recordBuyTrades (heap : Heap) (trades : List Trade) (buyOrder : OrderPtr)
    (askPrice : Price) (quantityMatched : Quantity) : List OrderPtr → List Trade
  | [] => trades
  | sellOrder :: rest =>
    recordBuyTrades heap
      (recordTrade heap trades buyOrder sellOrder askPrice
        (min quantityMatched (heap sellOrder).m_quantity))
      buyOrder askPrice quantityMatched rest

/-- The `for` loop over `filledOrders` in `matchSellOrder`. -/
def recordSellTrades (heap : Heap) (trades : List Trade) (sellOrder : OrderPtr)
    (bidPrice : Price) (quantityMatched : Quantity) : List OrderPtr → List Trade
  | [] => trades
  | buyOrder :: rest =>
    recordSellTrades heap
      (recordTrade heap trades buyOrder sellOrder bidPrice
        (min quantityMatched (heap buyOrder).m_quantity))
      sellOrder bidPrice quantityMatched rest

/-- The `while` loop of `OrderBook::matchBuyOrder`.  During the loop the ask
index is held as two lists: `visited`, the levels before `askIt`, and the levels
from `askIt` on; `b` carries the object store and the trade log, and its
`m_askLevels` is written back when the loop is left. -/
def OrderBook.matchBuyLoop (buyOrder : OrderPtr) :
    OrderBook → Levels → Levels → OrderBook × Except Error Unit
  | b, visited, [] => ({ b with m_askLevels := visited }, .ok ())
  | b, visited, (askPrice, askLevel) :: rest =>
    if (b.heap buyOrder).isFilled then
      ({ b with m_askLevels := visited ++ (askPrice, askLevel) :: rest }, .ok ())
    else if (b.heap buyOrder).m_price < askPrice then
      ({ b with m_askLevels := visited ++ (askPrice, askLevel) :: rest }, .ok ())
    else
      match askLevel.match_ b.heap (b.heap buyOrder).m_remainingQuantity [] with
      | (ms, .error e) =>
        ({ b with heap := ms.heap,
                  m_askLevels := visited ++ (askPrice, ms.level) :: rest }, .error e)
      | (ms, .ok quantityMatched) =>
        let trades := recordBuyTrades ms.heap b.m_trades buyOrder askPrice quantityMatched
          ms.filledOrders
        match Heap.fill ms.heap buyOrder quantityMatched with
        | (heap, .error e) =>
          ({ b with heap := heap, m_trades := trades,
                    m_askLevels := visited ++ (askPrice, ms.level) :: rest }, .error e)
        | (heap, .ok _) =>
          if ms.level.isEmpty then
            OrderBook.matchBuyLoop buyOrder { b with heap := heap, m_trades := trades }
              visited rest
          else
            OrderBook.matchBuyLoop buyOrder { b with heap := heap, m_trades := trades }
              (visited ++ [(askPrice, ms.level)]) rest

/-- The method `OrderBook::matchBuyOrder`: `askIt` starts at `begin()`. -/
def OrderBook.matchBuyOrder (b : OrderBook) (buyOrder : OrderPtr) :
    OrderBook × Except Error Unit :=
  OrderBook.matchBuyLoop buyOrder b [] b.m_askLevels

/-- The `while` loop of `OrderBook::matchSellOrder`.  During the loop the bid
index is held as two lists: `fromIt`, the levels from the reverse iterator
`bidIt` on, highest price first, and `passed`, the levels `bidIt` has moved
past, in ascending order; the index itself is `fromIt.reverse ++ passed`.
After an erase the source restarts at `rbegin()`.  Each unit of fuel pays for
one evaluation of the loop condition. -/
def OrderBook.matchSellLoop (sellOrder : OrderPtr) :
    Nat → OrderBook → Levels → Levels → OrderBook × Except Error Unit
  | 0, b, fromIt, passed => ({ b with m_bidLevels := fromIt.reverse ++ passed }, .error .outOfFuel)
  | _ + 1, b, [], passed => ({ b with m_bidLevels := passed }, .ok ())
  | fuel + 1, b, (bidPrice, bidLevel) :: lower, passed =>
    if (b.heap sellOrder).isFilled then
      ({ b with m_bidLevels := ((bidPrice, bidLevel) :: lower).reverse ++ passed }, .ok ())
    else if (b.heap sellOrder).m_price > bidPrice then
      ({ b with m_bidLevels := ((bidPrice, bidLevel) :: lower).reverse ++ passed }, .ok ())
    else
      match bidLevel.match_ b.heap (b.heap sellOrder).m_remainingQuantity [] with
      | (ms, .error e) =>
        ({ b with heap := ms.heap,
                  m_bidLevels := ((bidPrice, ms.level) :: lower).reverse ++ passed }, .error e)
      | (ms, .ok quantityMatched) =>
        let trades := recordSellTrades ms.heap b.m_trades sellOrder bidPrice quantityMatched
          ms.filledOrders
        match Heap.fill ms.heap sellOrder quantityMatched with
        | (heap, .error e) =>
          ({ b with heap := heap, m_trades := trades,
                    m_bidLevels := ((bidPrice, ms.level) :: lower).reverse ++ passed },
           .error e)
        | (heap, .ok _) =>
          if ms.level.isEmpty then
            OrderBook.matchSellLoop sellOrder fuel { b with heap := heap, m_trades := trades }
              (passed.reverse ++ lower) []
          else
            OrderBook.matchSellLoop sellOrder fuel { b with heap := heap, m_trades := trades }
              lower ((bidPrice, ms.level) :: passed)

/-- The method `OrderBook::matchSellOrder`: `bidIt` starts at `rbegin()`.  With
`n` bid levels the loop condition is evaluated at most `n * n + n + 1` times:
an iteration either erases a level or moves `bidIt` one level on
(`matchSellLoop_fuel` below). -/
def OrderBook.matchSellOrder (b : OrderBook) (sellOrder : OrderPtr) :
    OrderBook × Except Error Unit :=
  OrderBook.matchSellLoop sellOrder
    (b.m_bidLevels.length * b.m_bidLevels.length + b.m_bidLevels.length + 1)
    b b.m_bidLevels.reverse []

/-- The method `OrderBook::matchOrder`. -/
def OrderBook.matchOrder (b : OrderBook) (order : OrderPtr) : OrderBook × Except Error Unit :=
  if (b.heap order).m_side = Side.BUY then b.matchBuyOrder order else b.matchSellOrder order

/-- One branch of `OrderBook::addToAppropriateLevel` on the index of the
order's side: create the level when `find` fails, then `addOrder` on the level
stored under the price.  In `m[price] = std::make_shared<PriceLevel>(price)` the
right-hand side is evaluated first, so a throwing constructor leaves the index
as it was; a throwing `addOrder` leaves the new, empty level in the index. -/
def Levels.addOrder (levels : Levels) (heap : Heap) (order : OrderPtr) :
    Levels × Except Error Unit :=
  match levels.find (heap order).m_price with
  | none =>
    match PriceLevel.new (heap order).m_price with
    | .error e => (levels, .error e)
    | .ok level =>
      (levels.set (heap order).m_price (level.addOrder heap order).1,
       (level.addOrder heap order).2)
  | some level =>
    (levels.set (heap order).m_price (level.addOrder heap order).1,
     (level.addOrder heap order).2)

/-- The method `OrderBook::addToAppropriateLevel`. -/
def OrderBook.addToAppropriateLevel (b : OrderBook) (order : OrderPtr) :
    OrderBook × Except Error Unit :=
  if (b.heap order).m_side = Side.BUY then
    ({ b with m_bidLevels := (b.m_bidLevels.addOrder b.heap order).1 },
     (b.m_bidLevels.addOrder b.heap order).2)
  else
    ({ b with m_askLevels := (b.m_askLevels.addOrder b.heap order).1 },
     (b.m_askLevels.addOrder b.heap order).2)

/-- The method `OrderBook::addOrder`, on a pointer to an existing `Order`. -/
def OrderBook.addOrder (b : OrderBook) (order : OrderPtr) : OrderBook × Except Error Unit :=
  match b.validateOrder order with
  | .error e => (b, .error e)
  | .ok _ =>
    if (b.m_orders.find (b.heap order).m_orderId).isSome then (b, .error .duplicateOrder)
    else
      match OrderBook.matchOrder
          { b with m_orders := b.m_orders.set (b.heap order).m_orderId order } order with
      | (b1, .error e) => (b1, .error e)
      | (b1, .ok _) =>
        if !(b1.heap order).isFilled then b1.addToAppropriateLevel order else (b1, .ok ())

/-- The method `OrderBook::cancelOrder`. -/
def OrderBook.cancelOrder (b : OrderBook) (orderId : OrderId) : OrderBook × Except Error Bool :=
  match b.m_orders.find orderId with
  | none => (b, .ok false)
  | some order =>
    match Heap.fill b.heap order (b.heap order).m_remainingQuantity with
    | (heap, .error e) => ({ b with heap := heap }, .error e)
    | (heap, .ok _) =>
      ({ b with heap := heap, m_orders := b.m_orders.erase orderId }, .ok true)

/-- The method `OrderBook::getBestBidPrice`: `rbegin()->first`, or `0.0`. -/
def OrderBook.getBestBidPrice (b : OrderBook) : Price :=
  match b.m_bidLevels.getLast? with
  | none => 0
  | some (price, _) => price

/-- The method `OrderBook::getBestAskPrice`: `begin()->first`, or `0.0`. -/
def OrderBook.getBestAskPrice (b : OrderBook) : Price :=
  match b.m_askLevels.head? with
  | none => 0
  | some (price, _) => price

/-- The method `OrderBook::getSpread`. -/
def OrderBook.getSpread (b : OrderBook) : Price :=
  if b.getBestBidPrice = 0 ∨ b.getBestAskPrice = 0 then 0
  else b.getBestAskPrice - b.getBestBidPrice

/-- The method `OrderBook::getTotalOrders`. -/
def OrderBook.getTotalOrders (b : OrderBook) : Nat := b.m_orders.length

/-- The method `OrderBook::getTotalTrades`. -/
def OrderBook.getTotalTrades (b : OrderBook) : Nat := b.m_trades.length

/-- The expression `std::make_shared<Order>(...)` for an order object in state
`o`: a new object at a fresh address. -/
def OrderBook.alloc (b : OrderBook) (o : Order) : OrderBook × OrderPtr :=
  ({ b with heap := Function.update b.heap b.nextPtr o, nextPtr := b.nextPtr + 1 }, b.nextPtr)

/-- A caller's `book.addOrder(order)` on a newly made `Order` object in state
`o`, as in `main.cpp`. -/
def OrderBook.submit (b : OrderBook) (o : Order) : OrderBook × Except Error Unit :=
  (b.alloc o).1.addOrder (b.alloc o).2

deriving instance DecidableEq for Except

/-- The members of an `Order` that no member function writes are equal in the
two object stores, at every address. -/
def Heap.SameIdentity (h1 h2 : Heap) : Prop :=
  ∀ p, (h2 p).m_orderId = (h1 p).m_orderId ∧ (h2 p).m_side = (h1 p).m_side ∧
    (h2 p).m_price = (h1 p).m_price ∧ (h2 p).m_quantity = (h1 p).m_quantity

/-- What one run of the loop of `PriceLevel::match` does, from loop state `st`
to loop state `r`: `m` orders were popped from the front of the queue and the
first `m'` orders of the queue were touched. -/
structure MatchPost (req : Quantity) (st r : MatchState) (m m' : Nat) : Prop where
  level_price : r.level.m_price = st.level.m_price
  orders : r.level.m_orders = st.level.m_orders.drop m
  total : r.level.m_totalQuantity =
    st.level.m_totalQuantity - (r.totalMatched - st.totalMatched)
  filled : r.filledOrders = st.filledOrders ++ st.level.m_orders.take m'
  le_touched : m ≤ m'
  touched_le : m' ≤ m + 1
  touched_len : m' ≤ st.level.m_orders.length
  identity : Heap.SameIdentity st.heap r.heap
  untouched : ∀ p, p ∉ st.level.m_orders.take m' → r.heap p = st.heap p
  popped_zero : ∀ p ∈ st.level.m_orders.take m, (r.heap p).m_remainingQuantity = 0
  zero_stable : ∀ p, (st.heap p).m_remainingQuantity = 0 → (r.heap p).m_remainingQuantity = 0
  exit : r.level.m_orders = [] ∨ req ≤ r.totalMatched
  bound : st.totalMatched ≤ req → r.totalMatched ≤ req

/-- The class invariant of `Order`: what the constructor establishes and every
successful `fill` keeps (a `fill` never leaves a negative remainder). -/
def Order.WellFormed (o : Order) : Prop :=
  0 < o.m_price ∧ 0 < o.m_quantity ∧ o.m_orderId.isEmpty = false ∧ 0 ≤ o.m_remainingQuantity

instance (o : Order) : Decidable o.WellFormed := by
  unfold Order.WellFormed; infer_instance

/-- The books a caller can reach: construct a book, then call `addOrder` on
newly made orders and `cancelOrder`, in any order, whether the calls succeed or
throw. -/
inductive Reachable : OrderBook → Prop where
  | init (symbol : String) (b : OrderBook) : OrderBook.new symbol = .ok b → Reachable b
  | submit (b : OrderBook) (o : Order) : Reachable b → o.WellFormed → Reachable (b.submit o).1
  | cancel (b : OrderBook) (orderId : OrderId) :
      Reachable b → Reachable (b.cancelOrder orderId).1

/-- The book is not crossed: one side is empty, or the best bid is strictly
below the best ask. -/
def OrderBook.NotCrossed (b : OrderBook) : Prop :=
  b.m_bidLevels = [] ∨ b.m_askLevels = [] ∨ b.getBestBidPrice < b.getBestAskPrice

/-- Representation invariant of one side's index: keys strictly ascending, every
level stored under its own price, every queued order allocated, of the level's
price and of the index's side. -/
structure LevelsOk (heap : Heap) (next : OrderPtr) (side : Side) (ls : Levels) : Prop where
  sorted : ls.Pairwise (fun x y => x.1 < y.1)
  level_price : ∀ y ∈ ls, y.2.m_price = y.1
  ptr_lt : ∀ y ∈ ls, ∀ p ∈ y.2.m_orders, p < next
  order_price : ∀ y ∈ ls, ∀ p ∈ y.2.m_orders, (heap p).m_price = y.1
  order_side : ∀ y ∈ ls, ∀ p ∈ y.2.m_orders, (heap p).m_side = side

/-- Every level of `ls` is a level of `ls0` under the same key, holding only
orders that level held. -/
def Levels.Within (ls ls0 : Levels) : Prop :=
  ∀ y ∈ ls, ∃ l0, (y.1, l0) ∈ ls0 ∧ ∀ p ∈ y.2.m_orders, p ∈ l0.m_orders

/-- The invariant of reachable books used below. -/
structure Inv (b : OrderBook) : Prop where
  bids : LevelsOk b.heap b.nextPtr Side.BUY b.m_bidLevels
  asks : LevelsOk b.heap b.nextPtr Side.SELL b.m_askLevels
  uncrossed : ∀ x ∈ b.m_bidLevels, ∀ y ∈ b.m_askLevels, x.1 < y.1
  reg_nodup : (b.m_orders.map Prod.fst).Nodup
  reg_ptr : ∀ e ∈ b.m_orders, e.2 < b.nextPtr ∧ (b.heap e.2).m_orderId = e.1

/-- Loop invariant of `OrderBook::matchBuyOrder`, relating the book `b0` at loop
entry to the loop state: book `b` and the ask index `visited ++ rest`. -/
structure BuyInv (b0 : OrderBook) (buy : OrderPtr) (b : OrderBook) (visited rest : Levels) :
    Prop where
  nextPtr : b.nextPtr = b0.nextPtr
  orders : b.m_orders = b0.m_orders
  symbol : b.m_symbol = b0.m_symbol
  bids : b.m_bidLevels = b0.m_bidLevels
  identity : Heap.SameIdentity b0.heap b.heap
  levels : LevelsOk b.heap b.nextPtr Side.SELL (visited ++ rest)
  within : Levels.Within (visited ++ rest) b0.m_askLevels
  filled : visited ≠ [] → (b.heap buy).isFilled = true
  trades : ∃ new, b.m_trades = b0.m_trades ++ new ∧
    ∀ t ∈ new, ∃ y ∈ b0.m_askLevels, ∃ p ∈ y.2.m_orders, t.price = y.1 ∧
      t.buyOrderId = (b0.heap buy).m_orderId ∧ t.sellOrderId = (b0.heap p).m_orderId

/-- What `OrderBook::matchBuyOrder` guarantees when it returns or throws, from
book `b0` to book `r` with outcome `res`. -/
structure BuyPost (b0 : OrderBook) (buy : OrderPtr) (r : OrderBook) (res : Except Error Unit) :
    Prop where
  nextPtr : r.nextPtr = b0.nextPtr
  orders : r.m_orders = b0.m_orders
  symbol : r.m_symbol = b0.m_symbol
  bids : r.m_bidLevels = b0.m_bidLevels
  identity : Heap.SameIdentity b0.heap r.heap
  levels : LevelsOk r.heap r.nextPtr Side.SELL r.m_askLevels
  within : Levels.Within r.m_askLevels b0.m_askLevels
  trades : ∃ new, r.m_trades = b0.m_trades ++ new ∧
    ∀ t ∈ new, ∃ y ∈ b0.m_askLevels, ∃ p ∈ y.2.m_orders, t.price = y.1 ∧
      t.buyOrderId = (b0.heap buy).m_orderId ∧ t.sellOrderId = (b0.heap p).m_orderId
  done : res = .ok () →
    (r.heap buy).isFilled = true ∨ ∀ y ∈ r.m_askLevels, (r.heap buy).m_price < y.1

/-- Loop invariant of `OrderBook::matchSellOrder`, relating the book `b0` at loop
entry to the loop state: book `b` and the bid index `fromIt.reverse ++ passed`. -/
structure SellInv (b0 : OrderBook) (sell : OrderPtr) (b : OrderBook) (fromIt passed : Levels) :
    Prop where
  nextPtr : b.nextPtr = b0.nextPtr
  orders : b.m_orders = b0.m_orders
  symbol : b.m_symbol = b0.m_symbol
  asks : b.m_askLevels = b0.m_askLevels
  identity : Heap.SameIdentity b0.heap b.heap
  levels : LevelsOk b.heap b.nextPtr Side.BUY (fromIt.reverse ++ passed)
  within : Levels.Within (fromIt.reverse ++ passed) b0.m_bidLevels
  filled : passed ≠ [] → (b.heap sell).isFilled = true
  trades : ∃ new, b.m_trades = b0.m_trades ++ new ∧
    ∀ t ∈ new, ∃ y ∈ b0.m_bidLevels, ∃ p ∈ y.2.m_orders, t.price = y.1 ∧
      t.sellOrderId = (b0.heap sell).m_orderId ∧ t.buyOrderId = (b0.heap p).m_orderId

/-- What `OrderBook::matchSellOrder` guarantees when it returns or throws, from
book `b0` to book `r` with outcome `res`. -/
structure SellPost (b0 : OrderBook) (sell : OrderPtr) (r : OrderBook)
    (res : Except Error Unit) : Prop where
  nextPtr : r.nextPtr = b0.nextPtr
  orders : r.m_orders = b0.m_orders
  symbol : r.m_symbol = b0.m_symbol
  asks : r.m_askLevels = b0.m_askLevels
  identity : Heap.SameIdentity b0.heap r.heap
  levels : LevelsOk r.heap r.nextPtr Side.BUY r.m_bidLevels
  within : Levels.Within r.m_bidLevels b0.m_bidLevels
  trades : ∃ new, r.m_trades = b0.m_trades ++ new ∧
    ∀ t ∈ new, ∃ y ∈ b0.m_bidLevels, ∃ p ∈ y.2.m_orders, t.price = y.1 ∧
      t.sellOrderId = (b0.heap sell).m_orderId ∧ t.buyOrderId = (b0.heap p).m_orderId
  done : res = .ok () →
    (r.heap sell).isFilled = true ∨ ∀ y ∈ r.m_bidLevels, y.1 < (r.heap sell).m_price

/-- The index an incoming order of side `side` is matched against. -/
def OrderBook.opposite (b : OrderBook) (side : Side) : Levels :=
  match side with
  | Side.BUY => b.m_askLevels
  | Side.SELL => b.m_bidLevels

/-- The index an order of side `side` rests in. -/
def OrderBook.own (b : OrderBook) (side : Side) : Levels :=
  match side with
  | Side.BUY => b.m_bidLevels
  | Side.SELL => b.m_askLevels

/-- The identifier a trade records for the incoming order, of side `side`. -/
def Trade.incomingId (t : Trade) (side : Side) : OrderId :=
  match side with
  | Side.BUY => t.buyOrderId
  | Side.SELL => t.sellOrderId

/-- The identifier a trade records for the resting order, when the incoming
order is of side `side`. -/
def Trade.restingId (t : Trade) (side : Side) : OrderId :=
  match side with
  | Side.BUY => t.sellOrderId
  | Side.SELL => t.buyOrderId

/-- What `OrderBook::matchOrder` guarantees when it returns or throws, from
book `b0` to book `r` with outcome `res`. -/
structure MatchOrderPost (b0 : OrderBook) (order : OrderPtr) (r : OrderBook)
    (res : Except Error Unit) : Prop where
  nextPtr : r.nextPtr = b0.nextPtr
  orders : r.m_orders = b0.m_orders
  symbol : r.m_symbol = b0.m_symbol
  identity : Heap.SameIdentity b0.heap r.heap
  bids : LevelsOk r.heap r.nextPtr Side.BUY r.m_bidLevels
  asks : LevelsOk r.heap r.nextPtr Side.SELL r.m_askLevels
  bids_within : Levels.Within r.m_bidLevels b0.m_bidLevels
  asks_within : Levels.Within r.m_askLevels b0.m_askLevels
  trades : ∃ new, r.m_trades = b0.m_trades ++ new ∧
    ∀ t ∈ new, ∃ y ∈ b0.opposite (b0.heap order).m_side, ∃ p ∈ y.2.m_orders, t.price = y.1 ∧
      t.incomingId (b0.heap order).m_side = (b0.heap order).m_orderId ∧
      t.restingId (b0.heap order).m_side = (b0.heap p).m_orderId
  done : res = .ok () → (r.heap order).isFilled = false →
    ∀ y ∈ r.opposite (b0.heap order).m_side,
      match (b0.heap order).m_side with
      | Side.BUY => (r.heap order).m_price < y.1
      | Side.SELL => y.1 < (r.heap order).m_price

/-- The aggregate quantity an index shows at `price`: the total quantity of the
level stored under `price`, and `0` when there is no such level. -/
def Levels.totalQuantityAt (ls : Levels) (price : Price) : Quantity :=
  match ls.find price with
  | some level => level.m_totalQuantity
  | none => 0

/-- The book `OrderBook("TSLA")` of `demonstrateOrderMatching`, just constructed. -/
def tslaBook : OrderBook := ⟨fun _ => default, 0, [], [], [], [], "TSLA"⟩

/-- The book of `demonstrateOrderMatching` after its four resting orders
(prices in thousandths: `200000` is `200.00`). -/
def restingBook : OrderBook :=
  ((((tslaBook.submit ⟨"B1", Side.BUY, 200000, 1000, 1000⟩).1.submit
    ⟨"B2", Side.BUY, 199500, 500, 500⟩).1.submit
    ⟨"S1", Side.SELL, 201000, 800, 800⟩).1.submit
    ⟨"S2", Side.SELL, 201500, 600, 600⟩).1

/-- The aggressive buy order of `demonstrateOrderMatching`. -/
def aggressiveBuy : Order := ⟨"B3", Side.BUY, 201500, 1000, 1000⟩

/-- A book with two sell orders of 100 resting at the same price `10.000`. -/
def sweepBook : OrderBook :=
  ((tslaBook.submit ⟨"S1", Side.SELL, 10000, 100, 100⟩).1.submit
    ⟨"S2", Side.SELL, 10000, 100, 100⟩).1

/-- A buy order of 150 at `10.000`: it takes all of `S1` and half of `S2`. -/
def sweepOrder : Order := ⟨"B", Side.BUY, 10000, 150, 150⟩

/-- A book with the single order `C1` (`BUY 100.00 x 500`) resting, the
cancellation scenario of `demonstrateEdgeCases`. -/
def cancelBook : OrderBook := (tslaBook.submit ⟨"C1", Side.BUY, 100000, 500, 500⟩).1

/-- A book in which `S1` and `B1` have matched each other in full. -/
def filledBook : OrderBook :=
  ((tslaBook.submit ⟨"S1", Side.SELL, 10000, 100, 100⟩).1.submit
    ⟨"B1", Side.BUY, 10000, 100, 100⟩).1

/-- The sum of the quantities of the trades of a log that name `orderId`, as
buyer or as seller. -/
def tradedQuantity (trades : List Trade) (orderId : OrderId) : Quantity :=
  ((trades.filter (fun t => t.buyOrderId == orderId || t.sellOrderId == orderId)).map
    Trade.quantity).sum

/-- The trades that take book `b` to book `b'` when order `o` is submitted are
appended to the log, and each of them names `o` as the incoming order and has
the identifier and the price of an order resting in the opposite index of `b`. -/
def TradesAtRestingPrice (b : OrderBook) (o : Order) (b' : OrderBook) : Prop :=
  ∃ new, b'.m_trades = b.m_trades ++ new ∧
    ∀ t ∈ new, ∃ y ∈ b.opposite o.m_side, ∃ p ∈ y.2.m_orders,
      t.incomingId o.m_side = o.m_orderId ∧
      t.restingId o.m_side = (b.heap p).m_orderId ∧
      t.price = (b.heap p).m_price

/-- Two orders of 100 at one price, at addresses 0 and 1. -/
def twoOrderHeap : Heap := fun p =>
  if p = 0 then ⟨"S1", Side.SELL, 10000, 100, 100⟩ else ⟨"S2", Side.SELL, 10000, 100, 100⟩

/-- The level at `10.000` holding the two orders of `twoOrderHeap`, in arrival
order. -/
def twoOrderLevel : PriceLevel := ⟨10000, [0, 1], 200⟩

/-- The order `BUY_001` of `demonstrateBasicOrders` as its constructor leaves it
(`BUY 50.00 x 1000`). -/
def basicOrder : Order := ⟨"BUY_001", Side.BUY, 50000, 1000, 1000⟩

/-- The aggressive sell order of `demonstrateOrderMatching` (`SELL 199.00 x 800`). -/
def aggressiveSell : Order := ⟨"S3", Side.SELL, 199000, 800, 800⟩

/-- The book of `demonstrateOrderMatching` after the aggressive buy. -/
def boughtBook : OrderBook := (restingBook.submit aggressiveBuy).1

/-- The book of `demonstrateOrderMatching` after the aggressive sell. -/
def soldBook : OrderBook := (boughtBook.submit aggressiveSell).1

/-- The sum of the remaining quantities of the orders of a queue. -/
def remSum (heap : Heap) (q : List OrderPtr) : Quantity :=
  (q.map (fun p => (heap p).m_remainingQuantity)).sum

/-- The quantitative effect of one run of the loop of `PriceLevel::match`, from
loop state `st` to loop state `r`; `popped` are the orders removed from the
front of the queue. -/
structure MatchQuant (req : Quantity) (st r : MatchState) (popped : List OrderPtr) : Prop where
  queue : popped ++ r.level.m_orders = st.level.m_orders
  touched : r.filledOrders = st.filledOrders ++ popped ∨
    ∃ x rest, r.level.m_orders = x :: rest ∧
      r.filledOrders = st.filledOrders ++ popped ++ [x] ∧
      (r.heap x).m_remainingQuantity ≠ 0
  popped_zero : ∀ p ∈ popped, (r.heap p).m_remainingQuantity = 0
  frame : ∀ x, x ∉ st.level.m_orders → r.heap x = st.heap x
  zero_stable : ∀ x, (st.heap x).m_remainingQuantity = 0 → (r.heap x).m_remainingQuantity = 0
  nonneg : ∀ x, 0 ≤ (st.heap x).m_remainingQuantity → 0 ≤ (r.heap x).m_remainingQuantity
  mono : (∀ p ∈ st.level.m_orders, 0 ≤ (st.heap p).m_remainingQuantity) →
    (∀ x, (r.heap x).m_remainingQuantity ≤ (st.heap x).m_remainingQuantity) ∧
      st.totalMatched ≤ r.totalMatched
  conserve : st.level.m_orders.Nodup →
    remSum st.heap st.level.m_orders - remSum r.heap st.level.m_orders =
      r.totalMatched - st.totalMatched
  total : r.level.m_totalQuantity =
    st.level.m_totalQuantity - (r.totalMatched - st.totalMatched)
  exact : st.level.m_orders.Nodup →
    (∀ p ∈ st.level.m_orders, 0 ≤ (st.heap p).m_remainingQuantity) →
    st.totalMatched ≤ req →
    r.totalMatched = min req (st.totalMatched + remSum st.heap st.level.m_orders) ∧
    ∀ pre p post, st.level.m_orders = pre ++ p :: post →
      (r.heap p).m_remainingQuantity =
        (st.heap p).m_remainingQuantity -
          min (st.heap p).m_remainingQuantity
            (max 0 (req - st.totalMatched - remSum st.heap pre))

/-- The orders queued in the levels of an index, level by level in key order. -/
def Levels.ptrs : Levels → List OrderPtr
  | [] => []
  | y :: rest => y.2.m_orders ++ Levels.ptrs rest

/-- How the object store `h` reached during `matchOrder` relates to the store
`h0` at its start, for the incoming order `x` and the orders `ptrs0` queued in
the opposite index at the start: nothing else is written, no remaining quantity
grows or turns negative, and what `x` lost is what the queued orders lost. -/
structure HeapRel (h0 : Heap) (x : OrderPtr) (ptrs0 : List OrderPtr) (h : Heap) : Prop where
  frame : ∀ p, p ≠ x → p ∉ ptrs0 → h p = h0 p
  mono : ∀ p, (h p).m_remainingQuantity ≤ (h0 p).m_remainingQuantity
  nonneg : ∀ p, 0 ≤ (h0 p).m_remainingQuantity → 0 ≤ (h p).m_remainingQuantity
  conserve : (h0 x).m_remainingQuantity - (h x).m_remainingQuantity =
    (ptrs0.map (fun p => (h0 p).m_remainingQuantity - (h p).m_remainingQuantity)).sum

/-- Loop invariant of `OrderBook::matchBuyOrder` with quantities: `BuyInv`, the
relation of the object store to the store at loop entry, the queued orders as a
sublist of those at loop entry, and the appended trades in non-decreasing price
order, none above the incoming price nor above a level still to visit. -/
structure BuyX (b0 : OrderBook) (buy : OrderPtr) (b : OrderBook) (visited rest : Levels) :
    Prop where
  base : BuyInv b0 buy b visited rest
  rel : HeapRel b0.heap buy (Levels.ptrs b0.m_askLevels) b.heap
  sub : (Levels.ptrs (visited ++ rest)).Sublist (Levels.ptrs b0.m_askLevels)
  order : ∃ new, b.m_trades = b0.m_trades ++ new ∧
    new.Pairwise (fun s t => s.price ≤ t.price) ∧
    (∀ t ∈ new, t.price ≤ (b0.heap buy).m_price) ∧
    ∀ t ∈ new, ∀ y ∈ rest, t.price ≤ y.1

/-- What `OrderBook::matchBuyOrder` guarantees in addition to `BuyPost` when no
remaining quantity is negative and no order is queued twice. -/
structure BuyXPost (b0 : OrderBook) (buy : OrderPtr) (r : OrderBook)
    (res : Except Error Unit) : Prop where
  base : BuyPost b0 buy r res
  rel : HeapRel b0.heap buy (Levels.ptrs b0.m_askLevels) r.heap
  sub : (Levels.ptrs r.m_askLevels).Sublist (Levels.ptrs b0.m_askLevels)
  order : ∃ new, r.m_trades = b0.m_trades ++ new ∧
    new.Pairwise (fun s t => s.price ≤ t.price) ∧
    ∀ t ∈ new, t.price ≤ (b0.heap buy).m_price
  ok : res = .ok ()

/-- Loop invariant of `OrderBook::matchSellOrder` with quantities, the mirror
image of `BuyX`. -/
structure SellX (b0 : OrderBook) (sell : OrderPtr) (b : OrderBook) (fromIt passed : Levels) :
    Prop where
  base : SellInv b0 sell b fromIt passed
  rel : HeapRel b0.heap sell (Levels.ptrs b0.m_bidLevels) b.heap
  sub : (Levels.ptrs (fromIt.reverse ++ passed)).Sublist (Levels.ptrs b0.m_bidLevels)
  order : ∃ new, b.m_trades = b0.m_trades ++ new ∧
    new.Pairwise (fun s t => t.price ≤ s.price) ∧
    (∀ t ∈ new, (b0.heap sell).m_price ≤ t.price) ∧
    ∀ t ∈ new, ∀ y ∈ fromIt, y.1 ≤ t.price

/-- What `OrderBook::matchSellOrder` guarantees in addition to `SellPost` when no
remaining quantity is negative and no order is queued twice. -/
structure SellXPost (b0 : OrderBook) (sell : OrderPtr) (r : OrderBook)
    (res : Except Error Unit) : Prop where
  base : SellPost b0 sell r res
  rel : HeapRel b0.heap sell (Levels.ptrs b0.m_bidLevels) r.heap
  sub : (Levels.ptrs r.m_bidLevels).Sublist (Levels.ptrs b0.m_bidLevels)
  order : ∃ new, r.m_trades = b0.m_trades ++ new ∧
    new.Pairwise (fun s t => t.price ≤ s.price) ∧
    ∀ t ∈ new, (b0.heap sell).m_price ≤ t.price
  ok : res = .ok () ∨ res = .error .outOfFuel

/-- What `OrderBook::matchOrder` guarantees in addition to `MatchOrderPost` when
no remaining quantity is negative and no order is queued twice: it does not
throw, the index of the incoming order's side is untouched, the opposite index
loses orders only, the object store changes as `HeapRel` says, and the appended
trades are in price order from the best opposite price, none beyond the
incoming price. -/
structure MatchOrderX (b0 : OrderBook) (order : OrderPtr) (r : OrderBook)
    (res : Except Error Unit) : Prop where
  rel : HeapRel b0.heap order (Levels.ptrs (b0.opposite (b0.heap order).m_side)) r.heap
  sub : (Levels.ptrs (r.opposite (b0.heap order).m_side)).Sublist
    (Levels.ptrs (b0.opposite (b0.heap order).m_side))
  own : r.own (b0.heap order).m_side = b0.own (b0.heap order).m_side
  order : ∃ new, r.m_trades = b0.m_trades ++ new ∧
    match (b0.heap order).m_side with
    | Side.BUY => new.Pairwise (fun s t => s.price ≤ t.price) ∧
        ∀ t ∈ new, t.price ≤ (b0.heap order).m_price
    | Side.SELL => new.Pairwise (fun s t => t.price ≤ s.price) ∧
        ∀ t ∈ new, (b0.heap order).m_price ≤ t.price
  ok : res = .ok ()

/-- The second invariant of reachable books: level keys are positive, no order
is queued twice in an index, and no allocated order has a negative remaining
quantity. -/
structure Inv2 (b : OrderBook) : Prop where
  bid_pos : ∀ y ∈ b.m_bidLevels, 0 < y.1
  ask_pos : ∀ y ∈ b.m_askLevels, 0 < y.1
  bid_nodup : (Levels.ptrs b.m_bidLevels).Nodup
  ask_nodup : (Levels.ptrs b.m_askLevels).Nodup
  nonneg : ∀ p, p < b.nextPtr → 0 ≤ (b.heap p).m_remainingQuantity

/-- What `OrderBook::addOrder` guarantees on quantities and on the trade log,
from book `b` to book `r`, whether it returns or throws. -/
structure AddOrderX (b : OrderBook) (order : OrderPtr) (r : OrderBook) : Prop where
  inv2 : Inv2 r
  nextPtr : r.nextPtr = b.nextPtr
  identity : Heap.SameIdentity b.heap r.heap
  rel : HeapRel b.heap order (Levels.ptrs (b.opposite (b.heap order).m_side)) r.heap
  order : ∃ new, r.m_trades = b.m_trades ++ new ∧
    match (b.heap order).m_side with
    | Side.BUY => new.Pairwise (fun s t => s.price ≤ t.price) ∧
        ∀ t ∈ new, t.price ≤ (b.heap order).m_price
    | Side.SELL => new.Pairwise (fun s t => t.price ≤ s.price) ∧
        ∀ t ∈ new, (b.heap order).m_price ≤ t.price

/-- The books a caller can reach when every order it submits has
`0 < remaining ≤ original quantity` at submission. -/
inductive ReachableBounded : OrderBook → Prop where
  | init (symbol : String) (b : OrderBook) : OrderBook.new symbol = .ok b → ReachableBounded b
  | submit (b : OrderBook) (o : Order) : ReachableBounded b → 0 < o.m_remainingQuantity →
      o.m_remainingQuantity ≤ o.m_quantity → ReachableBounded (b.submit o).1
  | cancel (b : OrderBook) (orderId : OrderId) :
      ReachableBounded b → ReachableBounded (b.cancelOrder orderId).1

/-- Every allocated order has `remaining ≤ original quantity`. -/
def OrderBook.Bounded (b : OrderBook) : Prop :=
  ∀ p, p < b.nextPtr → (b.heap p).m_remainingQuantity ≤ (b.heap p).m_quantity

/-- The third invariant of reachable books: every registered order with a
positive remaining quantity is queued in the index of its side. -/
def Inv3 (b : OrderBook) : Prop :=
  ∀ e ∈ b.m_orders, 0 < (b.heap e.2).m_remainingQuantity →
    e.2 ∈ Levels.ptrs (b.own (b.heap e.2).m_side)

/-- A book with two buy orders resting at `100.00`: `C1` (500), at address 0,
ahead of `B2` (300), at address 1. -/
def ghostBook : OrderBook :=
  ((tslaBook.submit ⟨"C1", Side.BUY, 100000, 500, 500⟩).1.submit
    ⟨"B2", Side.BUY, 100000, 300, 300⟩).1

/-- The book `ghostBook` after `cancelOrder("C1")`. -/
def ghostCancelled : OrderBook := (ghostBook.cancelOrder "C1").1

/-- A sell order of 200 at `100.00`. -/
def ghostSell : Order := ⟨"S1", Side.SELL, 100000, 200, 200⟩

/-- A level at `10.000` built by the constructor's empty level and two calls of
`PriceLevel::addOrder` on the same order, the one at address 0 of
`twoOrderHeap`: the queue holds that order twice. -/
def twiceLevel : PriceLevel :=
  ((PriceLevel.addOrder ⟨10000, [], 0⟩ twoOrderHeap 0).1.addOrder twoOrderHeap 0).1

theorem Order.fill_le (o : Order) (q : Quantity) (h : q ≤ o.m_remainingQuantity) :
    o.fill q = ({ o with m_remainingQuantity := o.m_remainingQuantity - q }, .ok ()) := by
  unfold Order.fill
  rw [if_neg (not_lt.mpr h)]

theorem matchLoop_nil (req : Quantity) (fuel : Nat) (st : MatchState)
    (h : st.level.m_orders = []) :
    PriceLevel.matchLoop req (fuel + 1) st = (st, .ok ()) := by
  unfold PriceLevel.matchLoop
  split
  · rfl
  · simp_all

theorem matchLoop_done (req : Quantity) (fuel : Nat) (st : MatchState)
    (h : ¬ st.totalMatched < req) :
    PriceLevel.matchLoop req (fuel + 1) st = (st, .ok ()) := by
  unfold PriceLevel.matchLoop
  split
  · rfl
  · simp [h]

theorem matchLoop_pop (req : Quantity) (fuel : Nat) (heap : Heap) (price : Price)
    (p : OrderPtr) (rest : List OrderPtr) (total tm : Quantity) (fo : List OrderPtr)
    (h : tm < req) (hle : (heap p).m_remainingQuantity ≤ req - tm) :
    PriceLevel.matchLoop req (fuel + 1) ⟨heap, ⟨price, p :: rest, total⟩, tm, fo⟩ =
      PriceLevel.matchLoop req fuel
        ⟨Function.update heap p { heap p with m_remainingQuantity := 0 },
         ⟨price, rest, total - (heap p).m_remainingQuantity⟩,
         tm + (heap p).m_remainingQuantity, fo ++ [p]⟩ := by
  rw [PriceLevel.matchLoop]
  simp only [h, if_true, min_eq_left hle, Order.fill_le _ _ (le_refl _), Function.update_same,
    Order.isFilled, sub_self, beq_self_eq_true]

theorem matchLoop_stay (req : Quantity) (fuel : Nat) (heap : Heap) (price : Price)
    (p : OrderPtr) (rest : List OrderPtr) (total tm : Quantity) (fo : List OrderPtr)
    (h : tm < req) (hlt : req - tm < (heap p).m_remainingQuantity) :
    PriceLevel.matchLoop req (fuel + 2) ⟨heap, ⟨price, p :: rest, total⟩, tm, fo⟩ =
      (⟨Function.update heap p
          { heap p with m_remainingQuantity := (heap p).m_remainingQuantity - (req - tm) },
         ⟨price, p :: rest, total - (req - tm)⟩, req, fo ++ [p]⟩, .ok ()) := by
  rw [PriceLevel.matchLoop]
  have hne : ((heap p).m_remainingQuantity - (req - tm) == 0) = false := by
    rw [beq_eq_false_iff_ne]; intro h0; linarith
  simp only [h, if_true, min_eq_right (le_of_lt hlt), Order.fill_le _ _ (le_of_lt hlt),
    Function.update_same, Order.isFilled, hne]
  rw [if_neg (by simp), matchLoop_done]
  · simp
  · simp

theorem Heap.SameIdentity.same_refl (h : Heap) : Heap.SameIdentity h h :=
  fun _ => ⟨rfl, rfl, rfl, rfl⟩

theorem Heap.SameIdentity.trans {h1 h2 h3 : Heap} (a : Heap.SameIdentity h1 h2)
    (b : Heap.SameIdentity h2 h3) : Heap.SameIdentity h1 h3 := fun p =>
  ⟨(b p).1.trans (a p).1, (b p).2.1.trans (a p).2.1, (b p).2.2.1.trans (a p).2.2.1,
    (b p).2.2.2.trans (a p).2.2.2⟩

theorem Heap.SameIdentity.update (h : Heap) (p : OrderPtr) (q : Quantity) :
    Heap.SameIdentity h (Function.update h p { h p with m_remainingQuantity := q }) := by
  intro x
  by_cases hx : x = p
  · subst hx; simp
  · simp [Function.update_noteq hx]

/-- The loop of `PriceLevel::match` never throws and never runs out of fuel when
given more fuel than the queue is long; `MatchPost` describes its effect. -/
theorem matchLoop_post (req : Quantity) (q : List OrderPtr) :
    ∀ (fuel : Nat) (heap : Heap) (price : Price) (total tm : Quantity) (fo : List OrderPtr),
      q.length < fuel →
      ∃ r m m', PriceLevel.matchLoop req fuel ⟨heap, ⟨price, q, total⟩, tm, fo⟩ = (r, .ok ()) ∧
        MatchPost req ⟨heap, ⟨price, q, total⟩, tm, fo⟩ r m m' := by
  induction q with
  | nil =>
    intro fuel heap price total tm fo hf
    obtain ⟨n, rfl⟩ : ∃ n, fuel = n + 1 := ⟨fuel - 1, by omega⟩
    refine ⟨_, 0, 0, matchLoop_nil _ _ _ rfl, ?_⟩
    constructor <;> simp [Heap.SameIdentity.same_refl]
  | cons p rest ih =>
    intro fuel heap price total tm fo hf
    simp only [List.length_cons] at hf
    by_cases h : tm < req
    · by_cases hle : (heap p).m_remainingQuantity ≤ req - tm
      · obtain ⟨n, rfl⟩ : ∃ n, fuel = n + 1 := ⟨fuel - 1, by omega⟩
        obtain ⟨r, m, m', hr, hp⟩ := ih n
          (Function.update heap p { heap p with m_remainingQuantity := 0 }) price
          (total - (heap p).m_remainingQuantity) (tm + (heap p).m_remainingQuantity)
          (fo ++ [p]) (by omega)
        refine ⟨r, m + 1, m' + 1, by rw [matchLoop_pop _ _ _ _ _ _ _ _ _ h hle]; exact hr, ?_⟩
        have hid := Heap.SameIdentity.update heap p 0
        constructor
        · exact hp.level_price
        · simpa using hp.orders
        · have := hp.total; simp only at this ⊢; linarith
        · simpa using hp.filled
        · exact Nat.succ_le_succ hp.le_touched
        · exact Nat.succ_le_succ hp.touched_le
        · simpa using hp.touched_len
        · exact hid.trans hp.identity
        · intro x hx
          simp only [List.take_succ_cons, List.mem_cons, not_or] at hx
          rw [hp.untouched x hx.2]
          exact Function.update_noteq hx.1 _ _
        · intro x hx
          simp only [List.take_succ_cons, List.mem_cons] at hx
          rcases hx with rfl | hx
          · exact hp.zero_stable x (by simp)
          · exact hp.popped_zero x hx
        · intro x hx
          apply hp.zero_stable
          by_cases hxp : x = p
          · subst hxp; simp
          · simpa [Function.update_noteq hxp] using hx
        · exact hp.exit
        · intro hb
          apply hp.bound
          simp only; linarith
      · have hlt : req - tm < (heap p).m_remainingQuantity := not_le.mp hle
        obtain ⟨n, rfl⟩ : ∃ n, fuel = n + 2 := ⟨fuel - 2, by omega⟩
        refine ⟨_, 0, 1, matchLoop_stay _ _ _ _ _ _ _ _ _ h hlt, ?_⟩
        constructor
        · rfl
        · rfl
        · simp
        · simp
        · omega
        · omega
        · simp
        · exact Heap.SameIdentity.update heap p _
        · intro x hx
          have hxp : x ≠ p := by simpa using hx
          exact Function.update_noteq hxp _ _
        · intro x hx; simp at hx
        · intro x hx
          have hxp : x ≠ p := by
            rintro rfl
            simp only at hx; linarith
          simpa [Function.update_noteq hxp] using hx
        · right; exact le_refl _
        · intro _; exact le_refl _
    · obtain ⟨n, rfl⟩ : ∃ n, fuel = n + 1 := ⟨fuel - 1, by omega⟩
      refine ⟨_, 0, 0, matchLoop_done _ _ _ h, ?_⟩
      constructor <;> simp [Heap.SameIdentity.same_refl]
      · exact not_lt.mp h

theorem match_post (l : PriceLevel) (heap : Heap) (req : Quantity) (fo : List OrderPtr) :
    ∃ r m m', l.match_ heap req fo = (r, .ok r.totalMatched) ∧
      MatchPost req ⟨heap, l, 0, fo⟩ r m m' := by
  obtain ⟨r, m, m', hr, hp⟩ := matchLoop_post req l.m_orders (l.m_orders.length + 1) heap
    l.m_price l.m_totalQuantity 0 fo (Nat.lt_succ_self _)
  refine ⟨r, m, m', ?_, hp⟩
  unfold PriceLevel.match_
  simp only []
  rw [show (⟨heap, l, 0, fo⟩ : MatchState) = ⟨heap, ⟨l.m_price, l.m_orders, l.m_totalQuantity⟩, 0, fo⟩
    from rfl, hr]
  rfl

/-- A loop-invariant rule for the loop of `OrderBook::matchBuyOrder`. -/
theorem matchBuyLoop_rule (buy : OrderPtr)
    (I : OrderBook → Levels → Levels → Prop) (Q : OrderBook → Except Error Unit → Prop)
    (h_end : ∀ b visited, I b visited [] → Q { b with m_askLevels := visited } (.ok ()))
    (h_stop : ∀ b visited k l rest, I b visited ((k, l) :: rest) →
      ((b.heap buy).isFilled = true ∨ (b.heap buy).m_price < k) →
      Q { b with m_askLevels := visited ++ (k, l) :: rest } (.ok ()))
    (h_throw : ∀ b visited k l rest ms m m' heap e, I b visited ((k, l) :: rest) →
      (b.heap buy).isFilled = false → ¬ (b.heap buy).m_price < k →
      MatchPost (b.heap buy).m_remainingQuantity ⟨b.heap, l, 0, []⟩ ms m m' →
      Heap.fill ms.heap buy ms.totalMatched = (heap, .error e) →
      Q { b with heap := heap,
                 m_trades := recordBuyTrades ms.heap b.m_trades buy k ms.totalMatched
                   ms.filledOrders,
                 m_askLevels := visited ++ (k, ms.level) :: rest } (.error e))
    (h_erase : ∀ b visited k l rest ms m m' heap, I b visited ((k, l) :: rest) →
      (b.heap buy).isFilled = false → ¬ (b.heap buy).m_price < k →
      MatchPost (b.heap buy).m_remainingQuantity ⟨b.heap, l, 0, []⟩ ms m m' →
      Heap.fill ms.heap buy ms.totalMatched = (heap, .ok ()) →
      ms.level.m_orders = [] →
      I { b with heap := heap,
                 m_trades := recordBuyTrades ms.heap b.m_trades buy k ms.totalMatched
                   ms.filledOrders } visited rest)
    (h_keep : ∀ b visited k l rest ms m m' heap, I b visited ((k, l) :: rest) →
      (b.heap buy).isFilled = false → ¬ (b.heap buy).m_price < k →
      MatchPost (b.heap buy).m_remainingQuantity ⟨b.heap, l, 0, []⟩ ms m m' →
      Heap.fill ms.heap buy ms.totalMatched = (heap, .ok ()) →
      ms.level.m_orders ≠ [] →
      I { b with heap := heap,
                 m_trades := recordBuyTrades ms.heap b.m_trades buy k ms.totalMatched
                   ms.filledOrders } (visited ++ [(k, ms.level)]) rest) :
    ∀ rest b visited, I b visited rest →
      Q (OrderBook.matchBuyLoop buy b visited rest).1
        (OrderBook.matchBuyLoop buy b visited rest).2 := by
  intro rest
  induction rest with
  | nil =>
    intro b visited hI
    simp only [OrderBook.matchBuyLoop]
    exact h_end b visited hI
  | cons kl rest ih =>
    obtain ⟨k, l⟩ := kl
    intro b visited hI
    rw [OrderBook.matchBuyLoop]
    by_cases hf : (b.heap buy).isFilled = true
    · simp only [hf, if_true]
      exact h_stop b visited k l rest hI (Or.inl hf)
    · by_cases hp : (b.heap buy).m_price < k
      · simp only [hf, hp, if_true]
        exact h_stop b visited k l rest hI (Or.inr hp)
      · obtain ⟨ms, m, m', hm, hpost⟩ :=
          match_post l b.heap (b.heap buy).m_remainingQuantity []
        have hf' : (b.heap buy).isFilled = false := by simpa using hf
        simp only [hf, hp, if_false, hm]
        rcases hfill : Heap.fill ms.heap buy ms.totalMatched with ⟨heap, res⟩
        cases res with
        | error e =>
          simp only []
          exact h_throw b visited k l rest ms m m' heap e hI hf' hp hpost hfill
        | ok u =>
          simp only []
          by_cases he : ms.level.m_orders = []
          · have : ms.level.isEmpty = true := by simp [PriceLevel.isEmpty, he]
            simp only [this, if_true]
            exact ih _ _ (h_erase b visited k l rest ms m m' heap hI hf' hp hpost hfill he)
          · have : ms.level.isEmpty = false := by
              simp [PriceLevel.isEmpty, he]
            simp only [this]
            exact ih _ _ (h_keep b visited k l rest ms m m' heap hI hf' hp hpost hfill he)


/-- A loop-invariant rule for the loop of `OrderBook::matchSellOrder`. -/
theorem matchSellLoop_rule (sell : OrderPtr)
    (I : OrderBook → Levels → Levels → Prop) (Q : OrderBook → Except Error Unit → Prop)
    (h_fuel : ∀ b fromIt passed, I b fromIt passed →
      Q { b with m_bidLevels := fromIt.reverse ++ passed } (.error .outOfFuel))
    (h_end : ∀ b passed, I b [] passed → Q { b with m_bidLevels := passed } (.ok ()))
    (h_stop : ∀ b k l lower passed, I b ((k, l) :: lower) passed →
      ((b.heap sell).isFilled = true ∨ (b.heap sell).m_price > k) →
      Q { b with m_bidLevels := ((k, l) :: lower).reverse ++ passed } (.ok ()))
    (h_throw : ∀ b k l lower passed ms m m' heap e, I b ((k, l) :: lower) passed →
      (b.heap sell).isFilled = false → ¬ (b.heap sell).m_price > k →
      MatchPost (b.heap sell).m_remainingQuantity ⟨b.heap, l, 0, []⟩ ms m m' →
      Heap.fill ms.heap sell ms.totalMatched = (heap, .error e) →
      Q { b with heap := heap,
                 m_trades := recordSellTrades ms.heap b.m_trades sell k ms.totalMatched
                   ms.filledOrders,
                 m_bidLevels := ((k, ms.level) :: lower).reverse ++ passed } (.error e))
    (h_erase : ∀ b k l lower passed ms m m' heap, I b ((k, l) :: lower) passed →
      (b.heap sell).isFilled = false → ¬ (b.heap sell).m_price > k →
      MatchPost (b.heap sell).m_remainingQuantity ⟨b.heap, l, 0, []⟩ ms m m' →
      Heap.fill ms.heap sell ms.totalMatched = (heap, .ok ()) →
      ms.level.m_orders = [] →
      I { b with heap := heap,
                 m_trades := recordSellTrades ms.heap b.m_trades sell k ms.totalMatched
                   ms.filledOrders } (passed.reverse ++ lower) [])
    (h_keep : ∀ b k l lower passed ms m m' heap, I b ((k, l) :: lower) passed →
      (b.heap sell).isFilled = false → ¬ (b.heap sell).m_price > k →
      MatchPost (b.heap sell).m_remainingQuantity ⟨b.heap, l, 0, []⟩ ms m m' →
      Heap.fill ms.heap sell ms.totalMatched = (heap, .ok ()) →
      ms.level.m_orders ≠ [] →
      I { b with heap := heap,
                 m_trades := recordSellTrades ms.heap b.m_trades sell k ms.totalMatched
                   ms.filledOrders } lower ((k, ms.level) :: passed)) :
    ∀ fuel b fromIt passed, I b fromIt passed →
      Q (OrderBook.matchSellLoop sell fuel b fromIt passed).1
        (OrderBook.matchSellLoop sell fuel b fromIt passed).2 := by
  intro fuel
  induction fuel with
  | zero =>
    intro b fromIt passed hI
    simp only [OrderBook.matchSellLoop]
    exact h_fuel b fromIt passed hI
  | succ fuel ih =>
    intro b fromIt passed hI
    cases fromIt with
    | nil =>
      simp only [OrderBook.matchSellLoop]
      exact h_end b passed hI
    | cons kl lower =>
      obtain ⟨k, l⟩ := kl
      rw [OrderBook.matchSellLoop]
      by_cases hf : (b.heap sell).isFilled = true
      · simp only [hf, if_true]
        exact h_stop b k l lower passed hI (Or.inl hf)
      · by_cases hp : (b.heap sell).m_price > k
        · simp only [hf, hp, if_true]
          exact h_stop b k l lower passed hI (Or.inr hp)
        · obtain ⟨ms, m, m', hm, hpost⟩ :=
            match_post l b.heap (b.heap sell).m_remainingQuantity []
          have hf' : (b.heap sell).isFilled = false := by simpa using hf
          simp only [hf, hp, if_false, hm]
          rcases hfill : Heap.fill ms.heap sell ms.totalMatched with ⟨heap, res⟩
          cases res with
          | error e =>
            simp only []
            exact h_throw b k l lower passed ms m m' heap e hI hf' hp hpost hfill
          | ok u =>
            simp only []
            by_cases he : ms.level.m_orders = []
            · have : ms.level.isEmpty = true := by simp [PriceLevel.isEmpty, he]
              simp only [this, if_true]
              exact ih _ _ _ (h_erase b k l lower passed ms m m' heap hI hf' hp hpost hfill he)
            · have : ms.level.isEmpty = false := by
                simp [PriceLevel.isEmpty, he]
              simp only [this]
              exact ih _ _ _ (h_keep b k l lower passed ms m m' heap hI hf' hp hpost hfill he)


theorem LevelsOk.heap_frame {h h' : Heap} {n : OrderPtr} {s : Side} {ls : Levels}
    (hid : Heap.SameIdentity h h') (ok : LevelsOk h n s ls) : LevelsOk h' n s ls where
  sorted := ok.sorted
  level_price := ok.level_price
  ptr_lt := ok.ptr_lt
  order_price := fun y hy p hp => (hid p).2.2.1.trans (ok.order_price y hy p hp)
  order_side := fun y hy p hp => (hid p).2.1.trans (ok.order_side y hy p hp)

theorem LevelsOk.next_mono {h : Heap} {n n' : OrderPtr} {s : Side} {ls : Levels}
    (hn : n ≤ n') (ok : LevelsOk h n s ls) : LevelsOk h n' s ls where
  sorted := ok.sorted
  level_price := ok.level_price
  ptr_lt := fun y hy p hp => lt_of_lt_of_le (ok.ptr_lt y hy p hp) hn
  order_price := ok.order_price
  order_side := ok.order_side

theorem LevelsOk.nil (h : Heap) (n : OrderPtr) (s : Side) : LevelsOk h n s [] where
  sorted := List.Pairwise.nil
  level_price := fun y hy => by simp at hy
  ptr_lt := fun y hy => by simp at hy
  order_price := fun y hy => by simp at hy
  order_side := fun y hy => by simp at hy

/-- Replacing a level by one of the same price that holds a subset of its
orders keeps the index well formed. -/
theorem LevelsOk.ok_replace {h : Heap} {n : OrderPtr} {s : Side} {A B : Levels} {k : Price}
    {l l' : PriceLevel} (ok : LevelsOk h n s (A ++ (k, l) :: B))
    (hprice : l'.m_price = l.m_price) (hsub : ∀ p ∈ l'.m_orders, p ∈ l.m_orders) :
    LevelsOk h n s (A ++ (k, l') :: B) := by
  have hmem : ∀ y ∈ A ++ (k, l') :: B, y = (k, l') ∨ y ∈ A ++ (k, l) :: B := by
    intro y hy
    simp only [List.mem_append, List.mem_cons] at hy ⊢
    tauto
  have hkl : (k, l) ∈ A ++ (k, l) :: B := by simp
  constructor
  · have hs := ok.sorted
    simp only [List.pairwise_append, List.pairwise_cons, List.mem_cons] at hs ⊢
    refine ⟨hs.1, hs.2.1, ?_⟩
    intro a ha b hb
    rcases hb with rfl | hb
    · exact hs.2.2 a ha (k, l) (Or.inl rfl)
    · exact hs.2.2 a ha b (Or.inr hb)
  · intro y hy
    rcases hmem y hy with rfl | hy
    · exact hprice.trans (ok.level_price _ hkl)
    · exact ok.level_price y hy
  · intro y hy p hp
    rcases hmem y hy with rfl | hy
    · exact ok.ptr_lt _ hkl p (hsub p hp)
    · exact ok.ptr_lt y hy p hp
  · intro y hy p hp
    rcases hmem y hy with rfl | hy
    · exact ok.order_price _ hkl p (hsub p hp)
    · exact ok.order_price y hy p hp
  · intro y hy p hp
    rcases hmem y hy with rfl | hy
    · exact ok.order_side _ hkl p (hsub p hp)
    · exact ok.order_side y hy p hp

/-- Erasing a level keeps the index well formed. -/
theorem LevelsOk.ok_remove {h : Heap} {n : OrderPtr} {s : Side} {A B : Levels}
    {x : Price × PriceLevel} (ok : LevelsOk h n s (A ++ x :: B)) :
    LevelsOk h n s (A ++ B) := by
  have hmem : ∀ y ∈ A ++ B, y ∈ A ++ x :: B := by
    intro y hy
    simp only [List.mem_append, List.mem_cons] at hy ⊢
    tauto
  constructor
  · have hs := ok.sorted
    simp only [List.pairwise_append, List.pairwise_cons, List.mem_cons] at hs ⊢
    exact ⟨hs.1, hs.2.1.2, fun a ha b hb => hs.2.2 a ha b (Or.inr hb)⟩
  · exact fun y hy => ok.level_price y (hmem y hy)
  · exact fun y hy => ok.ptr_lt y (hmem y hy)
  · exact fun y hy => ok.order_price y (hmem y hy)
  · exact fun y hy => ok.order_side y (hmem y hy)

theorem Levels.Within.within_refl (ls : Levels) : Levels.Within ls ls :=
  fun y hy => ⟨y.2, hy, fun _ hp => hp⟩

theorem Levels.Within.within_replace {A B ls0 : Levels} {k : Price} {l l' : PriceLevel}
    (w : Levels.Within (A ++ (k, l) :: B) ls0) (hsub : ∀ p ∈ l'.m_orders, p ∈ l.m_orders) :
    Levels.Within (A ++ (k, l') :: B) ls0 := by
  intro y hy
  have hy' : y = (k, l') ∨ y ∈ A ++ (k, l) :: B := by
    simp only [List.mem_append, List.mem_cons] at hy ⊢
    tauto
  rcases hy' with rfl | hy'
  · obtain ⟨l0, h0, hs⟩ := w (k, l) (by simp)
    exact ⟨l0, h0, fun p hp => hs p (hsub p hp)⟩
  · exact w y hy'

theorem Levels.Within.within_remove {A B ls0 : Levels} {x : Price × PriceLevel}
    (w : Levels.Within (A ++ x :: B) ls0) : Levels.Within (A ++ B) ls0 := by
  intro y hy
  apply w
  simp only [List.mem_append, List.mem_cons] at hy ⊢
  tauto

theorem Levels.find_some {ls : Levels} {k : Price} {l : PriceLevel}
    (h : ls.find k = some l) : (k, l) ∈ ls := by
  induction ls with
  | nil => simp [Levels.find] at h
  | cons x rest ih =>
    obtain ⟨k', l'⟩ := x
    simp only [Levels.find] at h
    split_ifs at h with hk
    · simp only [Option.some.injEq] at h
      subst hk; subst h; simp
    · exact List.mem_cons_of_mem _ (ih h)

theorem Levels.find_none {ls : Levels} {k : Price} (h : ls.find k = none) :
    ∀ y ∈ ls, y.1 ≠ k := by
  induction ls with
  | nil => intro y hy; simp at hy
  | cons x rest ih =>
    obtain ⟨k', l'⟩ := x
    simp only [Levels.find] at h
    split_ifs at h with hk
    intro y hy
    rcases List.mem_cons.mp hy with rfl | hy
    · exact hk
    · exact ih h y hy

theorem Levels.mem_set {ls : Levels} {k : Price} {l : PriceLevel} {y : Price × PriceLevel}
    (hy : y ∈ ls.set k l) : y = (k, l) ∨ y ∈ ls := by
  induction ls with
  | nil => left; simpa [Levels.set] using hy
  | cons x rest ih =>
    obtain ⟨k', l'⟩ := x
    simp only [Levels.set] at hy
    split_ifs at hy with h1 h2
    · rcases List.mem_cons.mp hy with rfl | hy
      · left; rfl
      · right; exact hy
    · rcases List.mem_cons.mp hy with rfl | hy
      · left; rw [h2]
      · right; exact List.mem_cons_of_mem _ hy
    · rcases List.mem_cons.mp hy with rfl | hy
      · right; simp
      · rcases ih hy with h | h
        · left; exact h
        · right; exact List.mem_cons_of_mem _ h

theorem Levels.set_sorted {ls : Levels} (k : Price) (l : PriceLevel)
    (hs : ls.Pairwise (fun x y => x.1 < y.1)) :
    (ls.set k l).Pairwise (fun x y => x.1 < y.1) := by
  induction ls with
  | nil => simp [Levels.set]
  | cons x rest ih =>
    obtain ⟨k', l'⟩ := x
    rw [List.pairwise_cons] at hs
    simp only [Levels.set]
    split_ifs with h1 h2
    · rw [List.pairwise_cons]
      refine ⟨?_, List.pairwise_cons.mpr hs⟩
      intro y hy
      rcases List.mem_cons.mp hy with rfl | hy
      · exact h1
      · exact lt_trans h1 (hs.1 y hy)
    · rw [List.pairwise_cons]
      exact ⟨hs.1, hs.2⟩
    · rw [List.pairwise_cons]
      refine ⟨?_, ih hs.2⟩
      intro y hy
      rcases Levels.mem_set hy with rfl | hy
      · exact lt_of_le_of_ne (not_lt.mp h1) h2
      · exact hs.1 y hy

/-- Storing a well-formed level under its price keeps the index well formed. -/
theorem LevelsOk.set {h : Heap} {n : OrderPtr} {s : Side} {ls : Levels} {k : Price}
    {l : PriceLevel} (ok : LevelsOk h n s ls) (hprice : l.m_price = k)
    (hl : ∀ p ∈ l.m_orders, p < n ∧ (h p).m_price = k ∧ (h p).m_side = s) :
    LevelsOk h n s (ls.set k l) where
  sorted := Levels.set_sorted k l ok.sorted
  level_price := fun y hy => by
    rcases Levels.mem_set hy with rfl | hy
    · exact hprice
    · exact ok.level_price y hy
  ptr_lt := fun y hy p hp => by
    rcases Levels.mem_set hy with rfl | hy
    · exact (hl p hp).1
    · exact ok.ptr_lt y hy p hp
  order_price := fun y hy p hp => by
    rcases Levels.mem_set hy with rfl | hy
    · exact (hl p hp).2.1
    · exact ok.order_price y hy p hp
  order_side := fun y hy p hp => by
    rcases Levels.mem_set hy with rfl | hy
    · exact (hl p hp).2.2
    · exact ok.order_side y hy p hp

theorem PriceLevel.addOrder_price (l : PriceLevel) (h : Heap) (order : OrderPtr) :
    (l.addOrder h order).1.m_price = l.m_price := by
  unfold PriceLevel.addOrder
  split_ifs <;> rfl

theorem PriceLevel.addOrder_mem (l : PriceLevel) (h : Heap) (order : OrderPtr) :
    ∀ p ∈ (l.addOrder h order).1.m_orders, p ∈ l.m_orders ∨ p = order := by
  unfold PriceLevel.addOrder
  split_ifs
  · intro p hp; exact Or.inl hp
  · intro p hp; simpa using hp

/-- The index after one branch of `addToAppropriateLevel`: unchanged when the
level constructor threw, the old index with the found or new level stored back
under the order's price otherwise. -/
theorem Levels.addOrder_eq (ls : Levels) (h : Heap) (order : OrderPtr) :
    (ls.addOrder h order).1 = ls ∨
    ∃ l : PriceLevel, (ls.addOrder h order) =
        (ls.set (h order).m_price (l.addOrder h order).1, (l.addOrder h order).2) ∧
      ((l = ⟨(h order).m_price, [], 0⟩ ∧ ls.find (h order).m_price = none) ∨
        ls.find (h order).m_price = some l) := by
  unfold Levels.addOrder
  cases hfind : ls.find (h order).m_price with
  | none =>
    simp only []
    cases hnew : PriceLevel.new (h order).m_price with
    | error e => left; rfl
    | ok level =>
      right
      have hlevel : level = ⟨(h order).m_price, [], 0⟩ := by
        unfold PriceLevel.new at hnew
        split_ifs at hnew
        simpa using hnew.symm
      exact ⟨level, rfl, Or.inl ⟨hlevel, trivial⟩⟩
  | some level =>
    right
    exact ⟨level, rfl, Or.inr rfl⟩

theorem Levels.addOrder_ok {h : Heap} {n : OrderPtr} {s : Side} {ls : Levels}
    {order : OrderPtr} (ok : LevelsOk h n s ls) (hlt : order < n)
    (hside : (h order).m_side = s) : LevelsOk h n s (ls.addOrder h order).1 := by
  rcases Levels.addOrder_eq ls h order with heq | ⟨l, heq, hl⟩
  · rw [heq]; exact ok
  · rw [heq]
    apply LevelsOk.set ok
    · rw [PriceLevel.addOrder_price]
      rcases hl with ⟨rfl, _⟩ | hl
      · rfl
      · exact ok.level_price _ (Levels.find_some hl)
    · intro p hp
      rcases PriceLevel.addOrder_mem l h order p hp with hp | rfl
      · rcases hl with ⟨rfl, _⟩ | hl
        · simp at hp
        · have hm := Levels.find_some hl
          exact ⟨ok.ptr_lt _ hm p hp, ok.order_price _ hm p hp, ok.order_side _ hm p hp⟩
      · exact ⟨hlt, rfl, hside⟩

theorem Levels.addOrder_keys (ls : Levels) (h : Heap) (order : OrderPtr) :
    ∀ y ∈ (ls.addOrder h order).1, y.1 = (h order).m_price ∨ y ∈ ls := by
  intro y hy
  rcases Levels.addOrder_eq ls h order with heq | ⟨l, heq, _⟩
  · rw [heq] at hy; exact Or.inr hy
  · rw [heq] at hy
    rcases Levels.mem_set hy with rfl | hy
    · exact Or.inl rfl
    · exact Or.inr hy

theorem recordBuyTrades_eq (heap : Heap) (buy : OrderPtr) (k : Price) (qm : Quantity) :
    ∀ (fos : List OrderPtr) (trades : List Trade),
      recordBuyTrades heap trades buy k qm fos =
        trades ++ fos.map (fun s =>
          ⟨(heap buy).m_orderId, (heap s).m_orderId, k, min qm (heap s).m_quantity⟩) := by
  intro fos
  induction fos with
  | nil => intro trades; simp [recordBuyTrades]
  | cons s rest ih =>
    intro trades
    simp [recordBuyTrades, recordTrade, ih]

theorem Order.fill_keeps_identity (o : Order) (q : Quantity) :
    (o.fill q).1.m_orderId = o.m_orderId ∧ (o.fill q).1.m_side = o.m_side ∧
      (o.fill q).1.m_price = o.m_price ∧ (o.fill q).1.m_quantity = o.m_quantity := by
  unfold Order.fill
  split_ifs <;> exact ⟨rfl, rfl, rfl, rfl⟩

theorem Heap.fill_identity (h : Heap) (p : OrderPtr) (q : Quantity) :
    Heap.SameIdentity h (Heap.fill h p q).1 := by
  intro x
  unfold Heap.fill
  by_cases hx : x = p
  · subst hx
    simpa using Order.fill_keeps_identity (h x) q
  · simp [Function.update_noteq hx]

/-- A successful `order->fill(q)` with `q` at least the remaining quantity
leaves the order filled. -/
theorem Heap.fill_ok_filled {h h' : Heap} {p : OrderPtr} {q : Quantity}
    (hfill : Heap.fill h p q = (h', .ok ())) (hq : (h p).m_remainingQuantity ≤ q) :
    (h' p).isFilled = true := by
  unfold Heap.fill Order.fill at hfill
  split_ifs at hfill with hgt
  · simp at hfill
  · simp only [Prod.mk.injEq, and_true] at hfill
    rw [← hfill]
    simp only [Function.update_same, Order.isFilled, beq_iff_eq]
    have := not_lt.mp hgt
    linarith

theorem matchBuyLoop_post (b0 : OrderBook) (buy : OrderPtr)
    (hfresh : ∀ y ∈ b0.m_askLevels, buy ∉ y.2.m_orders) :
    ∀ rest b visited, BuyInv b0 buy b visited rest →
      BuyPost b0 buy (OrderBook.matchBuyLoop buy b visited rest).1
        (OrderBook.matchBuyLoop buy b visited rest).2 := by
  have hstep : ∀ b visited k l rest ms m m' heap res, BuyInv b0 buy b visited ((k, l) :: rest) →
      MatchPost (b.heap buy).m_remainingQuantity ⟨b.heap, l, 0, []⟩ ms m m' →
      Heap.fill ms.heap buy ms.totalMatched = (heap, res) →
      Heap.SameIdentity b0.heap heap ∧
      LevelsOk heap b.nextPtr Side.SELL (visited ++ (k, ms.level) :: rest) ∧
      Levels.Within (visited ++ (k, ms.level) :: rest) b0.m_askLevels ∧
      (∃ new, recordBuyTrades ms.heap b.m_trades buy k ms.totalMatched ms.filledOrders =
          b0.m_trades ++ new ∧
        ∀ t ∈ new, ∃ y ∈ b0.m_askLevels, ∃ p ∈ y.2.m_orders, t.price = y.1 ∧
          t.buyOrderId = (b0.heap buy).m_orderId ∧ t.sellOrderId = (b0.heap p).m_orderId) ∧
      (res = .ok () → ms.level.m_orders ≠ [] → (heap buy).isFilled = true) := by
    intro b visited k l rest ms m m' heap res hI hpost hfill
    have hsub : ∀ p ∈ ms.level.m_orders, p ∈ l.m_orders := by
      intro p hp
      rw [hpost.orders] at hp
      exact List.mem_of_mem_drop hp
    have hid : Heap.SameIdentity b0.heap heap := by
      have h3 := Heap.fill_identity ms.heap buy ms.totalMatched
      rw [hfill] at h3
      exact (hI.identity.trans hpost.identity).trans h3
    have hid2 : Heap.SameIdentity b.heap heap := by
      have h3 := Heap.fill_identity ms.heap buy ms.totalMatched
      rw [hfill] at h3
      exact hpost.identity.trans h3
    obtain ⟨l0, hl0, hl0sub⟩ := hI.within (k, l) (by simp)
    have hbuy : buy ∉ l.m_orders := fun hb => hfresh _ hl0 (hl0sub buy hb)
    refine ⟨hid, (hI.levels.heap_frame hid2).ok_replace hpost.level_price hsub,
      hI.within.within_replace hsub, ?_, ?_⟩
    · obtain ⟨new, hnew, hall⟩ := hI.trades
      refine ⟨new ++ ms.filledOrders.map (fun s =>
          ⟨(ms.heap buy).m_orderId, (ms.heap s).m_orderId, k,
            min ms.totalMatched (ms.heap s).m_quantity⟩), ?_, ?_⟩
      · rw [recordBuyTrades_eq, hnew, List.append_assoc]
      · intro t ht
        rcases List.mem_append.mp ht with ht | ht
        · exact hall t ht
        · obtain ⟨s, hs, rfl⟩ := List.mem_map.mp ht
          have hs' : s ∈ l.m_orders := by
            rw [hpost.filled] at hs
            simp only [List.nil_append] at hs
            exact List.mem_of_mem_take hs
          refine ⟨(k, l0), hl0, s, hl0sub s hs', rfl, ?_, ?_⟩
          · exact ((hI.identity.trans hpost.identity) buy).1
          · exact ((hI.identity.trans hpost.identity) s).1
    · intro hres hne
      subst hres
      apply Heap.fill_ok_filled hfill
      rcases hpost.exit with h | h
      · exact absurd h hne
      · have hu := hpost.untouched buy (fun hb => hbuy (List.mem_of_mem_take hb))
        rw [hu]
        exact h
  apply matchBuyLoop_rule buy (BuyInv b0 buy) (BuyPost b0 buy)
  · -- the iterator reached `end()`
    intro b visited hI
    have hl := hI.levels
    have hw := hI.within
    simp only [List.append_nil] at hl hw
    refine ⟨hI.nextPtr, hI.orders, hI.symbol, hI.bids, hI.identity, hl, hw, hI.trades, ?_⟩
    intro _
    by_cases hv : visited = []
    · right; subst hv; intro y hy; simp at hy
    · left; exact hI.filled hv
  · -- the incoming order is filled, or the level's price is above its price
    intro b visited k l rest hI hor
    refine ⟨hI.nextPtr, hI.orders, hI.symbol, hI.bids, hI.identity, hI.levels, hI.within,
      hI.trades, ?_⟩
    intro _
    by_cases hf : (b.heap buy).isFilled = true
    · left; exact hf
    · right
      have hv : visited = [] := by
        by_contra hv
        exact hf (hI.filled hv)
      rcases hor with h | h
      · exact absurd h hf
      · subst hv
        intro y hy
        have hs := hI.levels.sorted
        simp only [List.nil_append, List.pairwise_cons] at hs hy
        rcases List.mem_cons.mp hy with rfl | hy
        · exact h
        · exact lt_trans h (hs.1 y hy)
  · -- `buyOrder->fill` threw
    intro b visited k l rest ms m m' heap e hI _ _ hpost hfill
    obtain ⟨h1, h2, h3, h4, _⟩ := hstep b visited k l rest ms m m' heap _ hI hpost hfill
    exact ⟨hI.nextPtr, hI.orders, hI.symbol, hI.bids, h1, h2, h3, h4, fun h => by simp at h⟩
  · -- the level became empty and is erased
    intro b visited k l rest ms m m' heap hI hf _ hpost hfill _
    obtain ⟨h1, h2, h3, h4, _⟩ := hstep b visited k l rest ms m m' heap _ hI hpost hfill
    refine ⟨hI.nextPtr, hI.orders, hI.symbol, hI.bids, h1, h2.ok_remove, h3.within_remove, ?_, h4⟩
    intro hv
    have := hI.filled hv
    rw [hf] at this
    exact absurd this (by simp)
  · -- the level is kept and the iterator moves on
    intro b visited k l rest ms m m' heap hI _ _ hpost hfill hne
    obtain ⟨h1, h2, h3, h4, h5⟩ := hstep b visited k l rest ms m m' heap _ hI hpost hfill
    refine ⟨hI.nextPtr, hI.orders, hI.symbol, hI.bids, h1, ?_, ?_, fun _ => h5 rfl hne, h4⟩
    · simpa using h2
    · simpa using h3


theorem recordSellTrades_eq (heap : Heap) (sell : OrderPtr) (k : Price) (qm : Quantity) :
    ∀ (fos : List OrderPtr) (trades : List Trade),
      recordSellTrades heap trades sell k qm fos =
        trades ++ fos.map (fun s =>
          ⟨(heap s).m_orderId, (heap sell).m_orderId, k, min qm (heap s).m_quantity⟩) := by
  intro fos
  induction fos with
  | nil => intro trades; simp [recordSellTrades]
  | cons s rest ih =>
    intro trades
    simp [recordSellTrades, recordTrade, ih]

theorem matchSellLoop_post (b0 : OrderBook) (sell : OrderPtr)
    (hfresh : ∀ y ∈ b0.m_bidLevels, sell ∉ y.2.m_orders) :
    ∀ fuel b fromIt passed, SellInv b0 sell b fromIt passed →
      SellPost b0 sell (OrderBook.matchSellLoop sell fuel b fromIt passed).1
        (OrderBook.matchSellLoop sell fuel b fromIt passed).2 := by
  have hstep : ∀ b k l lower passed ms m m' heap res, SellInv b0 sell b ((k, l) :: lower) passed →
      MatchPost (b.heap sell).m_remainingQuantity ⟨b.heap, l, 0, []⟩ ms m m' →
      Heap.fill ms.heap sell ms.totalMatched = (heap, res) →
      Heap.SameIdentity b0.heap heap ∧
      LevelsOk heap b.nextPtr Side.BUY (lower.reverse ++ (k, ms.level) :: passed) ∧
      Levels.Within (lower.reverse ++ (k, ms.level) :: passed) b0.m_bidLevels ∧
      (∃ new, recordSellTrades ms.heap b.m_trades sell k ms.totalMatched ms.filledOrders =
          b0.m_trades ++ new ∧
        ∀ t ∈ new, ∃ y ∈ b0.m_bidLevels, ∃ p ∈ y.2.m_orders, t.price = y.1 ∧
          t.sellOrderId = (b0.heap sell).m_orderId ∧ t.buyOrderId = (b0.heap p).m_orderId) ∧
      (res = .ok () → ms.level.m_orders ≠ [] → (heap sell).isFilled = true) := by
    intro b k l lower passed ms m m' heap res hI hpost hfill
    have hlev : LevelsOk b.heap b.nextPtr Side.BUY (lower.reverse ++ (k, l) :: passed) := by
      simpa using hI.levels
    have hwith : Levels.Within (lower.reverse ++ (k, l) :: passed) b0.m_bidLevels := by
      simpa using hI.within
    have hsub : ∀ p ∈ ms.level.m_orders, p ∈ l.m_orders := by
      intro p hp
      rw [hpost.orders] at hp
      exact List.mem_of_mem_drop hp
    have hid : Heap.SameIdentity b0.heap heap := by
      have h3 := Heap.fill_identity ms.heap sell ms.totalMatched
      rw [hfill] at h3
      exact (hI.identity.trans hpost.identity).trans h3
    have hid2 : Heap.SameIdentity b.heap heap := by
      have h3 := Heap.fill_identity ms.heap sell ms.totalMatched
      rw [hfill] at h3
      exact hpost.identity.trans h3
    obtain ⟨l0, hl0, hl0sub⟩ := hwith (k, l) (by simp)
    have hsell : sell ∉ l.m_orders := fun hb => hfresh _ hl0 (hl0sub sell hb)
    refine ⟨hid, (hlev.heap_frame hid2).ok_replace hpost.level_price hsub,
      hwith.within_replace hsub, ?_, ?_⟩
    · obtain ⟨new, hnew, hall⟩ := hI.trades
      refine ⟨new ++ ms.filledOrders.map (fun s =>
          ⟨(ms.heap s).m_orderId, (ms.heap sell).m_orderId, k,
            min ms.totalMatched (ms.heap s).m_quantity⟩), ?_, ?_⟩
      · rw [recordSellTrades_eq, hnew, List.append_assoc]
      · intro t ht
        rcases List.mem_append.mp ht with ht | ht
        · exact hall t ht
        · obtain ⟨s, hs, rfl⟩ := List.mem_map.mp ht
          have hs' : s ∈ l.m_orders := by
            rw [hpost.filled] at hs
            simp only [List.nil_append] at hs
            exact List.mem_of_mem_take hs
          refine ⟨(k, l0), hl0, s, hl0sub s hs', rfl, ?_, ?_⟩
          · exact ((hI.identity.trans hpost.identity) sell).1
          · exact ((hI.identity.trans hpost.identity) s).1
    · intro hres hne
      subst hres
      apply Heap.fill_ok_filled hfill
      rcases hpost.exit with h | h
      · exact absurd h hne
      · have hu := hpost.untouched sell (fun hb => hsell (List.mem_of_mem_take hb))
        rw [hu]
        exact h
  apply matchSellLoop_rule sell (SellInv b0 sell) (SellPost b0 sell)
  · -- the iteration bound of the model was reached
    intro b fromIt passed hI
    exact ⟨hI.nextPtr, hI.orders, hI.symbol, hI.asks, hI.identity, hI.levels, hI.within,
      hI.trades, fun h => by simp at h⟩
  · -- the iterator reached `rend()`
    intro b passed hI
    have hl := hI.levels
    have hw := hI.within
    simp only [List.reverse_nil, List.nil_append] at hl hw
    refine ⟨hI.nextPtr, hI.orders, hI.symbol, hI.asks, hI.identity, hl, hw, hI.trades, ?_⟩
    intro _
    by_cases hv : passed = []
    · right; subst hv; intro y hy; simp at hy
    · left; exact hI.filled hv
  · -- the incoming order is filled, or the level's price is below its price
    intro b k l lower passed hI hor
    refine ⟨hI.nextPtr, hI.orders, hI.symbol, hI.asks, hI.identity, hI.levels, hI.within,
      hI.trades, ?_⟩
    intro _
    by_cases hf : (b.heap sell).isFilled = true
    · left; exact hf
    · right
      have hv : passed = [] := by
        by_contra hv
        exact hf (hI.filled hv)
      rcases hor with h | h
      · exact absurd h hf
      · subst hv
        intro y hy
        have hs := hI.levels.sorted
        simp only [List.reverse_cons, List.append_nil, List.pairwise_append, List.mem_reverse,
          List.mem_singleton, forall_eq, List.mem_append] at hs hy
        rcases hy with hy | rfl
        · exact lt_trans (hs.2.2 y hy) h
        · exact h
  · -- `sellOrder->fill` threw
    intro b k l lower passed ms m m' heap e hI _ _ hpost hfill
    obtain ⟨h1, h2, h3, h4, _⟩ := hstep b k l lower passed ms m m' heap _ hI hpost hfill
    refine ⟨hI.nextPtr, hI.orders, hI.symbol, hI.asks, h1, ?_, ?_, h4, fun h => by simp at h⟩
    · simpa using h2
    · simpa using h3
  · -- the level became empty and is erased; the iterator restarts at `rbegin()`
    intro b k l lower passed ms m m' heap hI hf _ hpost hfill _
    obtain ⟨h1, h2, h3, h4, _⟩ := hstep b k l lower passed ms m m' heap _ hI hpost hfill
    refine ⟨hI.nextPtr, hI.orders, hI.symbol, hI.asks, h1, ?_, ?_, ?_, h4⟩
    · simpa using h2.ok_remove
    · simpa using h3.within_remove
    · intro hv; exact absurd rfl hv
  · -- the level is kept and the iterator moves on
    intro b k l lower passed ms m m' heap hI _ _ hpost hfill hne
    obtain ⟨h1, h2, h3, h4, h5⟩ := hstep b k l lower passed ms m m' heap _ hI hpost hfill
    exact ⟨hI.nextPtr, hI.orders, hI.symbol, hI.asks, h1, h2, h3, fun _ => h5 rfl hne, h4⟩


theorem matchOrder_post (b : OrderBook) (order : OrderPtr)
    (hbids : LevelsOk b.heap b.nextPtr Side.BUY b.m_bidLevels)
    (hasks : LevelsOk b.heap b.nextPtr Side.SELL b.m_askLevels)
    (hfresh : ∀ y ∈ b.opposite (b.heap order).m_side, order ∉ y.2.m_orders) :
    MatchOrderPost b order (b.matchOrder order).1 (b.matchOrder order).2 := by
  unfold OrderBook.matchOrder
  cases hside : (b.heap order).m_side with
  | BUY =>
    rw [hside] at hfresh
    simp only [if_true]
    have hI : BuyInv b order b [] b.m_askLevels :=
      ⟨rfl, rfl, rfl, rfl, Heap.SameIdentity.same_refl _, hasks, Levels.Within.within_refl _,
        fun h => absurd rfl h, [], by simp, fun t ht => by simp at ht⟩
    have hp := matchBuyLoop_post b order hfresh b.m_askLevels b [] hI
    refine ⟨hp.nextPtr, hp.orders, hp.symbol, hp.identity, ?_, hp.levels, ?_, hp.within,
      ?_, ?_⟩
    · have := hbids.heap_frame hp.identity
      unfold OrderBook.matchBuyOrder
      rw [hp.bids, hp.nextPtr]
      exact this
    · unfold OrderBook.matchBuyOrder
      rw [hp.bids]
      exact Levels.Within.within_refl _
    · simpa only [hside, OrderBook.opposite, Trade.incomingId, Trade.restingId] using hp.trades
    · intro hres hnf y hy
      simp only [hside, OrderBook.opposite] at hy ⊢
      rcases hp.done hres with h | h
      · unfold OrderBook.matchBuyOrder at hnf
        rw [h] at hnf
        exact absurd hnf (by simp)
      · exact h y hy
  | SELL =>
    rw [hside] at hfresh
    simp only [if_false, reduceCtorEq]
    have hI : SellInv b order b b.m_bidLevels.reverse [] :=
      ⟨rfl, rfl, rfl, rfl, Heap.SameIdentity.same_refl _, by simpa using hbids,
        by simpa using Levels.Within.within_refl b.m_bidLevels,
        fun h => absurd rfl h, [], by simp, fun t ht => by simp at ht⟩
    have hp := matchSellLoop_post b order hfresh
      (b.m_bidLevels.length * b.m_bidLevels.length + b.m_bidLevels.length + 1)
      b b.m_bidLevels.reverse [] hI
    refine ⟨hp.nextPtr, hp.orders, hp.symbol, hp.identity, hp.levels, ?_, hp.within, ?_,
      ?_, ?_⟩
    · have := hasks.heap_frame hp.identity
      unfold OrderBook.matchSellOrder
      rw [hp.asks, hp.nextPtr]
      exact this
    · unfold OrderBook.matchSellOrder
      rw [hp.asks]
      exact Levels.Within.within_refl _
    · simpa only [hside, OrderBook.opposite, Trade.incomingId, Trade.restingId] using hp.trades
    · intro hres hnf y hy
      simp only [hside, OrderBook.opposite] at hy ⊢
      rcases hp.done hres with h | h
      · unfold OrderBook.matchSellOrder at hnf
        rw [h] at hnf
        exact absurd hnf (by simp)
      · exact h y hy


theorem Registry.find_none_iff (reg : Registry) (orderId : OrderId) :
    reg.find orderId = none ↔ orderId ∉ reg.map Prod.fst := by
  induction reg with
  | nil => simp [Registry.find]
  | cons x rest ih =>
    obtain ⟨k, p⟩ := x
    simp only [Registry.find, List.map_cons, List.mem_cons, not_or]
    split_ifs with h
    · simp [h]
    · rw [ih]
      constructor
      · intro h2; exact ⟨fun h3 => h h3.symm, h2⟩
      · intro h2; exact h2.2

theorem Registry.find_some_mem {reg : Registry} {orderId : OrderId} {p : OrderPtr}
    (h : reg.find orderId = some p) : (orderId, p) ∈ reg := by
  induction reg with
  | nil => simp [Registry.find] at h
  | cons x rest ih =>
    obtain ⟨k, q⟩ := x
    simp only [Registry.find] at h
    split_ifs at h with hk
    · simp only [Option.some.injEq] at h
      subst hk; subst h; simp
    · exact List.mem_cons_of_mem _ (ih h)

theorem Registry.set_of_find_none {reg : Registry} {orderId : OrderId} (p : OrderPtr)
    (h : reg.find orderId = none) : reg.set orderId p = reg ++ [(orderId, p)] := by
  induction reg with
  | nil => simp [Registry.set]
  | cons x rest ih =>
    obtain ⟨k, q⟩ := x
    simp only [Registry.find] at h
    split_ifs at h with hk
    simp only [Registry.set, hk, if_false, List.cons_append, ih h]

theorem Registry.erase_sublist (reg : Registry) (orderId : OrderId) :
    (reg.erase orderId).Sublist reg := by
  induction reg with
  | nil => simp [Registry.erase]
  | cons x rest ih =>
    obtain ⟨k, q⟩ := x
    simp only [Registry.erase]
    split_ifs
    · exact List.sublist_cons_self _ _
    · exact ih.cons₂ _

theorem Registry.erase_length {reg : Registry} {orderId : OrderId}
    (h : (reg.find orderId).isSome = true) : (reg.erase orderId).length + 1 = reg.length := by
  induction reg with
  | nil => simp [Registry.find] at h
  | cons x rest ih =>
    obtain ⟨k, q⟩ := x
    simp only [Registry.find] at h
    simp only [Registry.erase]
    split_ifs at h ⊢ with hk
    · simp
    · simp [ih h]

theorem Registry.find_erase {reg : Registry} (orderId other : OrderId)
    (hnd : (reg.map Prod.fst).Nodup) :
    (reg.erase orderId).find other = if other = orderId then none else reg.find other := by
  induction reg with
  | nil => simp [Registry.erase, Registry.find]
  | cons x rest ih =>
    obtain ⟨k, q⟩ := x
    simp only [List.map_cons, List.nodup_cons] at hnd
    simp only [Registry.erase]
    by_cases hk : k = orderId
    · simp only [hk, if_true, Registry.find]
      by_cases ho : other = orderId
      · subst ho
        simp only [if_true]
        rw [Registry.find_none_iff]
        rw [← hk]; exact hnd.1
      · have : ¬ orderId = other := fun h => ho h.symm
        simp [ho, this]
    · simp only [hk, if_false, Registry.find]
      by_cases hko : k = other
      · have : ¬ other = orderId := fun h => hk (hko.trans h)
        simp [hko, this]
      · simp only [hko, if_false]
        exact ih hnd.2

/-- The paths through `OrderBook::addOrder`. -/
theorem addOrder_cases (b : OrderBook) (order : OrderPtr) :
    ((b.heap order).isFilled = true ∧ b.addOrder order = (b, .error .orderAlreadyFilled)) ∨
    ((b.heap order).isFilled = false ∧ (b.m_orders.find (b.heap order).m_orderId).isSome = true ∧
      b.addOrder order = (b, .error .duplicateOrder)) ∨
    ((b.heap order).isFilled = false ∧ b.m_orders.find (b.heap order).m_orderId = none ∧
      ((∃ e, (OrderBook.matchOrder
            { b with m_orders := b.m_orders.set (b.heap order).m_orderId order } order).2 =
            .error e ∧
          b.addOrder order = ((OrderBook.matchOrder
            { b with m_orders := b.m_orders.set (b.heap order).m_orderId order } order).1,
            .error e)) ∨
       ((OrderBook.matchOrder
            { b with m_orders := b.m_orders.set (b.heap order).m_orderId order } order).2 =
            .ok () ∧
          (((OrderBook.matchOrder
            { b with m_orders := b.m_orders.set (b.heap order).m_orderId order }
              order).1.heap order).isFilled = true ∧
            b.addOrder order = ((OrderBook.matchOrder
              { b with m_orders := b.m_orders.set (b.heap order).m_orderId order } order).1,
              .ok ()) ∨
           ((OrderBook.matchOrder
            { b with m_orders := b.m_orders.set (b.heap order).m_orderId order }
              order).1.heap order).isFilled = false ∧
            b.addOrder order = (OrderBook.matchOrder
              { b with m_orders := b.m_orders.set (b.heap order).m_orderId order }
                order).1.addToAppropriateLevel order)))) := by
  unfold OrderBook.addOrder OrderBook.validateOrder
  by_cases hf : (b.heap order).isFilled = true
  · left; simp [hf]
  · have hf' : (b.heap order).isFilled = false := by simpa using hf
    right
    cases hfind : b.m_orders.find (b.heap order).m_orderId with
    | some p => left; simp [hf']
    | none =>
      right
      refine ⟨hf', rfl, ?_⟩
      simp only [hf', Bool.false_eq_true, if_false, Option.isSome_none]
      rcases hm : OrderBook.matchOrder
        { b with m_orders := b.m_orders.set (b.heap order).m_orderId order } order with ⟨b1, res⟩
      cases res with
      | error e => left; exact ⟨e, rfl, rfl⟩
      | ok u =>
        right
        refine ⟨rfl, ?_⟩
        by_cases hf1 : (b1.heap order).isFilled = true
        · left; simp [hf1]
        · right; simp [hf1]


theorem addToAppropriateLevel_frame (r : OrderBook) (order : OrderPtr) :
    (r.addToAppropriateLevel order).1.heap = r.heap ∧
    (r.addToAppropriateLevel order).1.nextPtr = r.nextPtr ∧
    (r.addToAppropriateLevel order).1.m_orders = r.m_orders ∧
    (r.addToAppropriateLevel order).1.m_trades = r.m_trades ∧
    (r.addToAppropriateLevel order).1.m_symbol = r.m_symbol := by
  unfold OrderBook.addToAppropriateLevel
  split_ifs <;> exact ⟨rfl, rfl, rfl, rfl, rfl⟩

theorem addToAppropriateLevel_inv (r : OrderBook) (order : OrderPtr) (hinv : Inv r)
    (hlt : order < r.nextPtr)
    (hcross : ∀ y ∈ r.opposite (r.heap order).m_side,
      match (r.heap order).m_side with
      | Side.BUY => (r.heap order).m_price < y.1
      | Side.SELL => y.1 < (r.heap order).m_price) :
    Inv (r.addToAppropriateLevel order).1 := by
  unfold OrderBook.addToAppropriateLevel
  cases hside : (r.heap order).m_side with
  | BUY =>
    simp only [hside, OrderBook.opposite] at hcross
    simp only [if_true]
    refine ⟨Levels.addOrder_ok hinv.bids hlt hside, hinv.asks, ?_, hinv.reg_nodup, hinv.reg_ptr⟩
    intro x hx y hy
    rcases Levels.addOrder_keys _ _ _ x hx with h | h
    · rw [h]; exact hcross y hy
    · exact hinv.uncrossed x h y hy
  | SELL =>
    simp only [hside, OrderBook.opposite] at hcross
    simp only [if_false, reduceCtorEq]
    refine ⟨hinv.bids, Levels.addOrder_ok hinv.asks hlt hside, ?_, hinv.reg_nodup, hinv.reg_ptr⟩
    intro x hx y hy
    rcases Levels.addOrder_keys _ _ _ y hy with h | h
    · rw [h]; exact hcross x hx
    · exact hinv.uncrossed x hx y h

/-- The book after `matchOrder`, run from a book that satisfies the invariant
and has just registered `order`, satisfies the invariant. -/
theorem matchOrder_inv (b : OrderBook) (order : OrderPtr) (hinv : Inv b)
    (hlt : order < b.nextPtr) (hnone : b.m_orders.find (b.heap order).m_orderId = none)
    (hfresh : ∀ y ∈ b.opposite (b.heap order).m_side, order ∉ y.2.m_orders) :
    Inv (OrderBook.matchOrder
        { b with m_orders := b.m_orders.set (b.heap order).m_orderId order } order).1 ∧
    MatchOrderPost { b with m_orders := b.m_orders.set (b.heap order).m_orderId order } order
      (OrderBook.matchOrder
        { b with m_orders := b.m_orders.set (b.heap order).m_orderId order } order).1
      (OrderBook.matchOrder
        { b with m_orders := b.m_orders.set (b.heap order).m_orderId order } order).2 := by
  have hp := matchOrder_post
    { b with m_orders := b.m_orders.set (b.heap order).m_orderId order } order
    hinv.bids hinv.asks hfresh
  refine ⟨⟨hp.bids, hp.asks, ?_, ?_, ?_⟩, hp⟩
  · intro x hx y hy
    obtain ⟨lx, hlx, _⟩ := hp.bids_within x hx
    obtain ⟨ly, hly, _⟩ := hp.asks_within y hy
    exact hinv.uncrossed (x.1, lx) hlx (y.1, ly) hly
  · rw [hp.orders]
    simp only [Registry.set_of_find_none order hnone, List.map_append, List.map_cons,
      List.map_nil]
    rw [List.nodup_append]
    refine ⟨hinv.reg_nodup, by simp, ?_⟩
    simp only [List.disjoint_singleton]
    exact (Registry.find_none_iff _ _).mp hnone
  · intro e he
    rw [hp.orders] at he
    simp only [Registry.set_of_find_none order hnone, List.mem_append, List.mem_singleton] at he
    rw [hp.nextPtr]
    rcases he with he | rfl
    · exact ⟨(hinv.reg_ptr e he).1, ((hp.identity e.2).1).trans (hinv.reg_ptr e he).2⟩
    · exact ⟨hlt, (hp.identity order).1⟩


theorem addOrder_inv (b : OrderBook) (order : OrderPtr) (hinv : Inv b)
    (hlt : order < b.nextPtr)
    (hfresh : ∀ y ∈ b.opposite (b.heap order).m_side, order ∉ y.2.m_orders) :
    Inv (b.addOrder order).1 := by
  rcases addOrder_cases b order with ⟨_, h⟩ | ⟨_, _, h⟩ | ⟨_, hnone, h⟩
  · rw [h]; exact hinv
  · rw [h]; exact hinv
  · obtain ⟨hinv1, hp⟩ := matchOrder_inv b order hinv hlt hnone hfresh
    rcases h with ⟨e, _, h⟩ | ⟨hok, ⟨_, h⟩ | ⟨hnf, h⟩⟩
    · rw [h]; exact hinv1
    · rw [h]; exact hinv1
    · rw [h]
      apply addToAppropriateLevel_inv _ _ hinv1 (by rw [hp.nextPtr]; exact hlt)
      have hside := (hp.identity order).2.1
      have hd := hp.done hok hnf
      simp only [] at hside hd
      rw [hside]
      exact hd

theorem LevelsOk.alloc {h : Heap} {n : OrderPtr} {s : Side} {ls : Levels} (o : Order)
    (ok : LevelsOk h n s ls) : LevelsOk (Function.update h n o) (n + 1) s ls where
  sorted := ok.sorted
  level_price := ok.level_price
  ptr_lt := fun y hy p hp => Nat.lt_succ_of_lt (ok.ptr_lt y hy p hp)
  order_price := fun y hy p hp => by
    rw [Function.update_noteq (ne_of_lt (ok.ptr_lt y hy p hp))]
    exact ok.order_price y hy p hp
  order_side := fun y hy p hp => by
    rw [Function.update_noteq (ne_of_lt (ok.ptr_lt y hy p hp))]
    exact ok.order_side y hy p hp

theorem alloc_inv (b : OrderBook) (o : Order) (hinv : Inv b) : Inv (b.alloc o).1 where
  bids := hinv.bids.alloc o
  asks := hinv.asks.alloc o
  uncrossed := hinv.uncrossed
  reg_nodup := hinv.reg_nodup
  reg_ptr := fun e he => by
    have h := hinv.reg_ptr e he
    refine ⟨Nat.lt_succ_of_lt h.1, ?_⟩
    show (Function.update b.heap b.nextPtr o e.2).m_orderId = e.1
    rw [Function.update_noteq (ne_of_lt h.1)]
    exact h.2

theorem submit_inv (b : OrderBook) (o : Order) (hinv : Inv b) : Inv (b.submit o).1 := by
  unfold OrderBook.submit
  apply addOrder_inv _ _ (alloc_inv b o hinv)
  · exact Nat.lt_succ_self _
  · intro y hy hmem
    have hlt : b.nextPtr < b.nextPtr := by
      cases hs : ((b.alloc o).1.heap (b.alloc o).2).m_side with
      | BUY =>
        rw [hs] at hy
        exact hinv.asks.ptr_lt y hy _ hmem
      | SELL =>
        rw [hs] at hy
        exact hinv.bids.ptr_lt y hy _ hmem
    exact absurd hlt (lt_irrefl _)

theorem cancelOrder_inv (b : OrderBook) (orderId : OrderId) (hinv : Inv b) :
    Inv (b.cancelOrder orderId).1 := by
  unfold OrderBook.cancelOrder
  cases hfind : b.m_orders.find orderId with
  | none => exact hinv
  | some order =>
    simp only []
    have hid := Heap.fill_identity b.heap order (b.heap order).m_remainingQuantity
    rcases hfill : Heap.fill b.heap order (b.heap order).m_remainingQuantity with ⟨heap, res⟩
    rw [hfill] at hid
    cases res with
    | error e =>
      exact ⟨hinv.bids.heap_frame hid, hinv.asks.heap_frame hid, hinv.uncrossed, hinv.reg_nodup,
        fun e he => ⟨(hinv.reg_ptr e he).1, ((hid e.2).1).trans (hinv.reg_ptr e he).2⟩⟩
    | ok u =>
      refine ⟨hinv.bids.heap_frame hid, hinv.asks.heap_frame hid, hinv.uncrossed, ?_, ?_⟩
      · exact hinv.reg_nodup.sublist ((Registry.erase_sublist _ _).map _)
      · intro e he
        have he' := (Registry.erase_sublist _ _).subset he
        exact ⟨(hinv.reg_ptr e he').1, ((hid e.2).1).trans (hinv.reg_ptr e he').2⟩

theorem new_inv {symbol : String} {b : OrderBook} (h : OrderBook.new symbol = .ok b) :
    Inv b := by
  unfold OrderBook.new at h
  split_ifs at h
  simp only [Except.ok.injEq] at h
  subst h
  exact ⟨LevelsOk.nil _ _ _, LevelsOk.nil _ _ _, fun x hx => by simp at hx, by simp,
    fun e he => by simp at he⟩

/-- Every reachable book satisfies the invariant. -/
theorem reachable_inv {b : OrderBook} (hr : Reachable b) : Inv b := by
  induction hr with
  | init symbol b h => exact new_inv h
  | submit b o _ _ ih => exact submit_inv b o ih
  | cancel b orderId _ ih => exact cancelOrder_inv b orderId ih

theorem Inv.notCrossed {b : OrderBook} (hinv : Inv b) : b.NotCrossed := by
  unfold OrderBook.NotCrossed OrderBook.getBestBidPrice OrderBook.getBestAskPrice
  by_cases hb : b.m_bidLevels = []
  · exact Or.inl hb
  · by_cases ha : b.m_askLevels = []
    · exact Or.inr (Or.inl ha)
    · right; right
      have h1 : b.m_bidLevels.getLast? = some (b.m_bidLevels.getLast hb) :=
        List.getLast?_eq_getLast _ hb
      have h2 : b.m_askLevels.head? = some (b.m_askLevels.head ha) :=
        List.head?_eq_head ha
      rw [h1, h2]
      exact hinv.uncrossed _ (List.getLast_mem hb) _ (List.head_mem ha)


theorem matchBuyLoop_orders (buy : OrderPtr) (b0 : OrderBook) :
    ∀ rest b visited, b.m_orders = b0.m_orders →
      (OrderBook.matchBuyLoop buy b visited rest).1.m_orders = b0.m_orders := by
  apply matchBuyLoop_rule buy (fun b _ _ => b.m_orders = b0.m_orders)
    (fun r _ => r.m_orders = b0.m_orders)
  all_goals intros; assumption

theorem matchSellLoop_orders (sell : OrderPtr) (b0 : OrderBook) :
    ∀ fuel b fromIt passed, b.m_orders = b0.m_orders →
      (OrderBook.matchSellLoop sell fuel b fromIt passed).1.m_orders = b0.m_orders := by
  apply matchSellLoop_rule sell (fun b _ _ => b.m_orders = b0.m_orders)
    (fun r _ => r.m_orders = b0.m_orders)
  all_goals intros; assumption

theorem matchOrder_orders (b : OrderBook) (order : OrderPtr) :
    (b.matchOrder order).1.m_orders = b.m_orders := by
  unfold OrderBook.matchOrder
  split_ifs
  · exact matchBuyLoop_orders order b _ b [] rfl
  · exact matchSellLoop_orders order b _ b _ [] rfl

/-- A successful `addOrder` appends the order to the registry under its
identifier, which was not registered before, and changes nothing else there. -/
theorem addOrder_orders (b : OrderBook) (order : OrderPtr)
    (hok : (b.addOrder order).2 = .ok ()) :
    b.m_orders.find (b.heap order).m_orderId = none ∧
    (b.addOrder order).1.m_orders = b.m_orders ++ [((b.heap order).m_orderId, order)] := by
  rcases addOrder_cases b order with ⟨_, h⟩ | ⟨_, _, h⟩ | ⟨_, hnone, h⟩
  · rw [h] at hok; simp at hok
  · rw [h] at hok; simp at hok
  · refine ⟨hnone, ?_⟩
    have hm := matchOrder_orders
      { b with m_orders := b.m_orders.set (b.heap order).m_orderId order } order
    simp only [Registry.set_of_find_none order hnone] at hm
    rcases h with ⟨e, _, h⟩ | ⟨_, ⟨_, h⟩ | ⟨_, h⟩⟩
    · rw [h] at hok; simp at hok
    · rw [h]
      simpa only [Registry.set_of_find_none order hnone] using hm
    · rw [h, (addToAppropriateLevel_frame _ _).2.2.1]
      simpa only [Registry.set_of_find_none order hnone] using hm

theorem Registry.find_append_self {reg : Registry} {orderId : OrderId} (p : OrderPtr)
    (h : reg.find orderId = none) : Registry.find (reg ++ [(orderId, p)]) orderId = some p := by
  induction reg with
  | nil => simp [Registry.find]
  | cons x rest ih =>
    obtain ⟨k, q⟩ := x
    simp only [Registry.find] at h
    split_ifs at h with hk
    simp only [List.cons_append, Registry.find, hk, if_false]
    exact ih h

/-- `order->fill(order->getRemainingQuantity())` never throws. -/
theorem Heap.fill_remaining (h : Heap) (p : OrderPtr) :
    Heap.fill h p (h p).m_remainingQuantity =
      (Function.update h p { h p with m_remainingQuantity := 0 }, .ok ()) := by
  unfold Heap.fill
  rw [Order.fill_le _ _ (le_refl _)]
  simp

theorem cancelOrder_none {b : OrderBook} {orderId : OrderId}
    (h : b.m_orders.find orderId = none) : b.cancelOrder orderId = (b, .ok false) := by
  unfold OrderBook.cancelOrder
  rw [h]

theorem cancelOrder_some {b : OrderBook} {orderId : OrderId} {order : OrderPtr}
    (h : b.m_orders.find orderId = some order) :
    b.cancelOrder orderId =
      ({ b with heap := Function.update b.heap order { b.heap order with m_remainingQuantity := 0 },
                m_orders := b.m_orders.erase orderId }, .ok true) := by
  unfold OrderBook.cancelOrder
  rw [h]
  simp only [Heap.fill_remaining]


theorem Heap.fill_error {h h' : Heap} {p : OrderPtr} {q : Quantity} {e : Error}
    (hfill : Heap.fill h p q = (h', .error e)) : e = .overfill := by
  unfold Heap.fill Order.fill at hfill
  split_ifs at hfill
  · simp only [Prod.mk.injEq, Except.error.injEq] at hfill
    exact hfill.2.symm
  · simp at hfill

/-- The loop of `matchSellOrder` is never cut off when its fuel exceeds
`m + n * n`, for `m` levels from the iterator on and `n` levels in all: an
erase lowers `n`, a step of the iterator lowers `m`. -/
theorem matchSellLoop_fuel (sell : OrderPtr) :
    ∀ fuel b fromIt passed,
      fromIt.length + (fromIt.length + passed.length) * (fromIt.length + passed.length) < fuel →
      (OrderBook.matchSellLoop sell fuel b fromIt passed).2 ≠ .error .outOfFuel := by
  intro fuel
  induction fuel with
  | zero => intro b fromIt passed h; omega
  | succ fuel ih =>
    intro b fromIt passed hfuel
    cases fromIt with
    | nil => simp [OrderBook.matchSellLoop]
    | cons kl lower =>
      obtain ⟨k, l⟩ := kl
      rw [OrderBook.matchSellLoop]
      by_cases hf : (b.heap sell).isFilled = true
      · simp [hf]
      · by_cases hp : (b.heap sell).m_price > k
        · simp [hf, hp]
        · obtain ⟨ms, m, m', hm, _⟩ := match_post l b.heap (b.heap sell).m_remainingQuantity []
          simp only [hf, hp, if_false, hm]
          rcases hfill : Heap.fill ms.heap sell ms.totalMatched with ⟨heap, res⟩
          cases res with
          | error e =>
            simp only []
            rw [Heap.fill_error hfill]
            simp
          | ok u =>
            simp only []
            simp only [List.length_cons] at hfuel
            by_cases he : ms.level.isEmpty = true
            · simp only [he, if_true]
              apply ih
              simp only [List.length_append, List.length_reverse, List.length_nil, Nat.add_zero]
              nlinarith
            · simp only [he]
              apply ih
              simp only [List.length_cons]
              have : lower.length + (passed.length + 1) = lower.length + 1 + passed.length := by
                omega
              rw [this]
              omega

theorem matchSellOrder_fuel (b : OrderBook) (sell : OrderPtr) :
    (b.matchSellOrder sell).2 ≠ .error .outOfFuel := by
  unfold OrderBook.matchSellOrder
  apply matchSellLoop_fuel
  simp only [List.length_reverse, List.length_nil, Nat.add_zero]
  omega


theorem matchBuyLoop_fuel (buy : OrderPtr) :
    ∀ rest b visited, (OrderBook.matchBuyLoop buy b visited rest).2 ≠ .error .outOfFuel := by
  intro rest b visited
  apply matchBuyLoop_rule buy (fun _ _ _ => True) (fun _ res => res ≠ .error .outOfFuel)
  · intros; simp
  · intros; simp
  · intro b visited k l rest ms m m' heap e _ _ _ _ hfill
    rw [Heap.fill_error hfill]
    simp
  · intros; trivial
  · intros; trivial
  · trivial

theorem Levels.addOrder_never_cut (ls : Levels) (h : Heap) (order : OrderPtr) :
    (ls.addOrder h order).2 ≠ .error .outOfFuel := by
  have hl : ∀ l : PriceLevel, (l.addOrder h order).2 ≠ .error .outOfFuel := by
    intro l
    unfold PriceLevel.addOrder
    split_ifs <;> simp
  unfold Levels.addOrder
  cases ls.find (h order).m_price with
  | none =>
    simp only []
    cases hnew : PriceLevel.new (h order).m_price with
    | error e =>
      unfold PriceLevel.new at hnew
      split_ifs at hnew
      simp only [Except.error.injEq] at hnew
      simp [← hnew]
    | ok level => exact hl level
  | some level => exact hl level

/-- The iteration bounds of the model are never reached: `addOrder` never ends
with the model's own `outOfFuel`. -/
theorem addOrder_fuel (b : OrderBook) (order : OrderPtr) :
    (b.addOrder order).2 ≠ .error .outOfFuel := by
  have hmatch : ∀ b1 : OrderBook, (b1.matchOrder order).2 ≠ .error .outOfFuel := by
    intro b1
    unfold OrderBook.matchOrder
    split_ifs
    · exact matchBuyLoop_fuel order _ _ _
    · exact matchSellOrder_fuel b1 order
  rcases addOrder_cases b order with ⟨_, h⟩ | ⟨_, _, h⟩ | ⟨_, _, h⟩
  · rw [h]; simp
  · rw [h]; simp
  · rcases h with ⟨e, he, h⟩ | ⟨_, ⟨_, h⟩ | ⟨_, h⟩⟩
    · rw [h]
      intro hcon
      simp only [Except.error.injEq] at hcon
      rw [hcon] at he
      exact hmatch _ he
    · rw [h]; simp
    · rw [h]
      unfold OrderBook.addToAppropriateLevel
      split_ifs
      · exact Levels.addOrder_never_cut _ _ _
      · exact Levels.addOrder_never_cut _ _ _


theorem tslaBook_reachable : Reachable tslaBook := Reachable.init "TSLA" tslaBook rfl

theorem restingBook_reachable : Reachable restingBook :=
  Reachable.submit _ _ (Reachable.submit _ _ (Reachable.submit _ _ (Reachable.submit _ _
    tslaBook_reachable (by decide)) (by decide)) (by decide)) (by decide)

theorem sweepBook_reachable : Reachable sweepBook :=
  Reachable.submit _ _ (Reachable.submit _ _ tslaBook_reachable (by decide)) (by decide)

theorem cancelBook_reachable : Reachable cancelBook :=
  Reachable.submit _ _ tslaBook_reachable (by decide)

theorem filledBook_reachable : Reachable filledBook :=
  Reachable.submit _ _ (Reachable.submit _ _ tslaBook_reachable (by decide)) (by decide)

/-- C1. After any successful `addOrder` on a reachable book the book is not
crossed: the bid index is empty, or the ask index is empty, or the best bid is
strictly below the best ask; indeed every bid level's price is strictly below
every ask level's price.  (The same holds after a call that throws.) -/
theorem addOrder_not_crossed (b : OrderBook) (o : Order) (hr : Reachable b)
    (_hok : (b.submit o).2 = .ok ()) :
    (b.submit o).1.NotCrossed ∧
      ∀ x ∈ (b.submit o).1.m_bidLevels, ∀ y ∈ (b.submit o).1.m_askLevels, x.1 < y.1 :=
  ⟨(submit_inv b o (reachable_inv hr)).notCrossed, (submit_inv b o (reachable_inv hr)).uncrossed⟩

/-- C1 at the aggressive buy of `demonstrateOrderMatching`, which succeeds. -/
theorem addOrder_not_crossed_witness :
    (restingBook.submit aggressiveBuy).2 = .ok () ∧
      (restingBook.submit aggressiveBuy).1.NotCrossed :=
  ⟨by decide,
    (addOrder_not_crossed restingBook aggressiveBuy restingBook_reachable (by decide)).1⟩

/-- C2, the code at the failing input.  `S1` and `S2` (100 each) rest at one
price and the incoming `B` takes 150: `S2`, the order at address 1, goes from
100 to 50, but the trade recorded against it has quantity 100, which is
`min(quantityMatched, getQuantity()) = min(150, 100)`. -/
theorem sweep_trade_quantity_is_not_fill :
    Reachable sweepBook ∧
    (sweepBook.submit sweepOrder).2 = .ok () ∧
    (sweepBook.submit sweepOrder).1.m_trades =
      [⟨"B", "S1", 10000, 100⟩, ⟨"B", "S2", 10000, 100⟩] ∧
    (sweepBook.heap 1).m_orderId = "S2" ∧
    (sweepBook.heap 1).m_remainingQuantity = 100 ∧
    ((sweepBook.submit sweepOrder).1.heap 1).m_remainingQuantity = 50 :=
  ⟨sweepBook_reachable, by decide, by decide, by decide, by decide, by decide⟩

/-- Trades at the resting price, for prices that are numbers (the model's
`Price`; NaN is outside the model).  Every trade appended by a successful
`addOrder` on a reachable book names the incoming order and an order resting in
the opposite index before the call (a sell order for an incoming BUY, a buy
order for an incoming SELL), and its price is the price of that resting
order. -/
theorem trade_at_resting_price (b : OrderBook) (o : Order) (hr : Reachable b)
    (_hok : (b.submit o).2 = .ok ()) : TradesAtRestingPrice b o (b.submit o).1 := by
  have hinv := reachable_inv hr
  have hinv' := alloc_inv b o hinv
  have hheap : ∀ p, p < b.nextPtr → (b.alloc o).1.heap p = b.heap p := fun p hp =>
    Function.update_noteq (ne_of_lt hp) _ _
  have hself : (b.alloc o).1.heap (b.alloc o).2 = o := Function.update_same _ _ _
  have hopp : ∀ y ∈ b.opposite o.m_side, ∀ p ∈ y.2.m_orders,
      p < b.nextPtr ∧ (b.heap p).m_price = y.1 := by
    intro y hy p hp
    cases hs : o.m_side with
    | BUY =>
      rw [hs] at hy
      exact ⟨hinv.asks.ptr_lt y hy p hp, hinv.asks.order_price y hy p hp⟩
    | SELL =>
      rw [hs] at hy
      exact ⟨hinv.bids.ptr_lt y hy p hp, hinv.bids.order_price y hy p hp⟩
  have hfresh : ∀ y ∈ (b.alloc o).1.opposite ((b.alloc o).1.heap (b.alloc o).2).m_side,
      (b.alloc o).2 ∉ y.2.m_orders := by
    intro y hy hmem
    rw [hself] at hy
    have hy' : y ∈ b.opposite o.m_side := by
      cases hs : o.m_side <;> rw [hs] at hy <;> exact hy
    exact absurd (hopp y hy' _ hmem).1 (lt_irrefl _)
  unfold OrderBook.submit
  rcases addOrder_cases (b.alloc o).1 (b.alloc o).2 with ⟨_, h⟩ | ⟨_, _, h⟩ | ⟨_, hnone, h⟩
  · rw [h]; exact ⟨[], by simp [OrderBook.alloc], fun t ht => by simp at ht⟩
  · rw [h]; exact ⟨[], by simp [OrderBook.alloc], fun t ht => by simp at ht⟩
  · obtain ⟨_, hp⟩ := matchOrder_inv (b.alloc o).1 (b.alloc o).2 hinv' (Nat.lt_succ_self _)
      hnone hfresh
    have htr : TradesAtRestingPrice b o (OrderBook.matchOrder
        { (b.alloc o).1 with
          m_orders := (b.alloc o).1.m_orders.set
            ((b.alloc o).1.heap (b.alloc o).2).m_orderId (b.alloc o).2 } (b.alloc o).2).1 := by
      obtain ⟨new, hnew, hall⟩ := hp.trades
      refine ⟨new, hnew, ?_⟩
      intro t ht
      obtain ⟨y, hy, p, hpm, h1, h2, h3⟩ := hall t ht
      simp only [hself] at hy h2 h3
      have hy' : y ∈ b.opposite o.m_side := by
        cases hs : o.m_side <;> rw [hs] at hy <;> exact hy
      obtain ⟨hlt, hprice⟩ := hopp y hy' p hpm
      refine ⟨y, hy', p, hpm, h2, ?_, ?_⟩
      · rw [h3]; exact congrArg Order.m_orderId (hheap p hlt)
      · rw [h1, hprice]
    rcases h with ⟨e, _, h⟩ | ⟨_, ⟨_, h⟩ | ⟨_, h⟩⟩
    · rw [h]; exact htr
    · rw [h]; exact htr
    · rw [h]
      obtain ⟨new, hnew, hall⟩ := htr
      exact ⟨new, by rw [(addToAppropriateLevel_frame _ _).2.2.2.1]; exact hnew, hall⟩

/-- The theorem `trade_at_resting_price` at the aggressive buy of
`demonstrateOrderMatching`: bid at `201.50`, trades at `201.00` and `201.50`,
the prices of `S1` and `S2`. -/
theorem trade_at_resting_price_witness :
    (restingBook.submit aggressiveBuy).2 = .ok () ∧
      (restingBook.submit aggressiveBuy).1.m_trades =
        [⟨"B3", "S1", 201000, 800⟩, ⟨"B3", "S2", 201500, 200⟩] ∧
      TradesAtRestingPrice restingBook aggressiveBuy (restingBook.submit aggressiveBuy).1 :=
  ⟨by decide, by decide,
    trade_at_resting_price restingBook aggressiveBuy restingBook_reachable (by decide)⟩

/-- C4, the code at the failing input.  After the same three submissions, all
with different identifiers, the trades naming `B` add up to 200, more than the
150 that `B` was submitted for. -/
theorem sweep_trades_exceed_order_quantity :
    Reachable (sweepBook.submit sweepOrder).1 ∧
    (sweepBook.submit sweepOrder).1.m_orders.map Prod.fst = ["S1", "S2", "B"] ∧
    tradedQuantity (sweepBook.submit sweepOrder).1.m_trades "B" = 200 ∧
    sweepOrder.m_quantity = 150 :=
  ⟨Reachable.submit _ _ sweepBook_reachable (by decide), by decide, by decide, by decide⟩

theorem nodup_get_mem_take {l : List OrderPtr} (hnd : l.Nodup) :
    ∀ {i k : Nat} (hi : i < l.length), l.get ⟨i, hi⟩ ∈ l.take k → i < k := by
  induction l with
  | nil => intro i k hi; simp at hi
  | cons a t ih =>
    intro i k hi h
    rw [List.nodup_cons] at hnd
    cases k with
    | zero => simp at h
    | succ k =>
      cases i with
      | zero => omega
      | succ i =>
        simp only [List.take_succ_cons, List.get_cons_succ, List.mem_cons] at h
        have hi' : i < t.length := by simpa using hi
        rcases h with h | h
        · exact absurd (h ▸ List.get_mem t i hi') hnd.1
        · have := ih hnd.2 hi' h
          omega

theorem nodup_get_not_mem_drop {l : List OrderPtr} (hnd : l.Nodup) :
    ∀ {j m : Nat} (hj : j < l.length), j < m → l.get ⟨j, hj⟩ ∉ l.drop m := by
  induction l with
  | nil => intro j m hj; simp at hj
  | cons a t ih =>
    intro j m hj hjm
    rw [List.nodup_cons] at hnd
    cases m with
    | zero => omega
    | succ m =>
      simp only [List.drop_succ_cons]
      cases j with
      | zero => exact fun h => hnd.1 (List.mem_of_mem_drop h)
      | succ j =>
        have hj' : j < t.length := by simpa using hj
        exact ih hnd.2 hj' (by omega)

theorem get_mem_take_of_lt {l : List OrderPtr} :
    ∀ {j m : Nat} (hj : j < l.length), j < m → l.get ⟨j, hj⟩ ∈ l.take m := by
  induction l with
  | nil => intro j m hj; simp at hj
  | cons a t ih =>
    intro j m hj hjm
    cases m with
    | zero => omega
    | succ m =>
      cases j with
      | zero => simp
      | succ j =>
        have hj' : j < t.length := by simpa using hj
        simp only [List.take_succ_cons, List.get_cons_succ, List.mem_cons]
        exact Or.inr (ih hj' (by omega))

/-- C5. `PriceLevel::match` fills in FIFO order, for every level, object store
and requested quantity.  It returns without throwing; the orders it reports as
touched are the first `touched` orders of the queue, in queue order; the first
`popped` orders have been removed from the queue and have remaining quantity 0,
where `touched` is `popped` or `popped + 1` (only the last touched order can
stay, partly filled); no other order changes.  Hence, when no order is queued
twice: if the order at position `i` receives a positive fill, every order at a
position `j < i` has remaining quantity 0 and is no longer in the level.
`PriceLevel::addOrder` appends at the tail, so queue order is insertion order. -/
theorem match_fifo (l : PriceLevel) (heap : Heap) (requestedQuantity : Quantity)
    (filledOrders : List OrderPtr) :
    (∀ order, (l.addOrder heap order).2 = .ok () →
      (l.addOrder heap order).1.m_orders = l.m_orders ++ [order]) ∧
    ∃ (r : MatchState) (popped touched : Nat),
      l.match_ heap requestedQuantity filledOrders = (r, .ok r.totalMatched) ∧
      popped ≤ touched ∧ touched ≤ popped + 1 ∧ touched ≤ l.m_orders.length ∧
      r.filledOrders = filledOrders ++ l.m_orders.take touched ∧
      r.level.m_orders = l.m_orders.drop popped ∧
      (∀ p ∈ l.m_orders.take popped, (r.heap p).m_remainingQuantity = 0) ∧
      (∀ p, p ∉ l.m_orders.take touched → r.heap p = heap p) ∧
      (l.m_orders.Nodup → ∀ (i j : Nat) (hi : i < l.m_orders.length) (hj : j < i),
        (r.heap (l.m_orders.get ⟨i, hi⟩)).m_remainingQuantity <
          (heap (l.m_orders.get ⟨i, hi⟩)).m_remainingQuantity →
        (r.heap (l.m_orders.get ⟨j, lt_trans hj hi⟩)).m_remainingQuantity = 0 ∧
        l.m_orders.get ⟨j, lt_trans hj hi⟩ ∉ r.level.m_orders) := by
  constructor
  · intro order hok
    unfold PriceLevel.addOrder at hok ⊢
    split_ifs at hok ⊢
    rfl
  · obtain ⟨r, m, m', hr, hp⟩ := match_post l heap requestedQuantity filledOrders
    refine ⟨r, m, m', hr, hp.le_touched, hp.touched_le, hp.touched_len, hp.filled, hp.orders,
      hp.popped_zero, hp.untouched, ?_⟩
    intro hnd i j hi hj hlt
    have hmem : l.m_orders.get ⟨i, hi⟩ ∈ l.m_orders.take m' := by
      by_contra hnot
      rw [hp.untouched _ hnot] at hlt
      exact lt_irrefl _ hlt
    have him : i < m' := nodup_get_mem_take hnd hi hmem
    have hjm : j < m := by have := hp.touched_le; omega
    refine ⟨hp.popped_zero _ (get_mem_take_of_lt _ hjm), ?_⟩
    rw [hp.orders]
    exact nodup_get_not_mem_drop hnd _ hjm

/-- C5 at a level of two orders of 100 and a request of 150. -/
theorem match_fifo_witness :
    twoOrderLevel.m_orders.Nodup ∧
      ∃ (r : MatchState) (popped touched : Nat),
        twoOrderLevel.match_ twoOrderHeap 150 [] = (r, .ok r.totalMatched) ∧
        popped ≤ touched ∧ touched ≤ popped + 1 ∧
        r.filledOrders = [] ++ twoOrderLevel.m_orders.take touched ∧
        r.level.m_orders = twoOrderLevel.m_orders.drop popped ∧
        ∀ (i j : Nat) (hi : i < twoOrderLevel.m_orders.length) (hj : j < i),
          (r.heap (twoOrderLevel.m_orders.get ⟨i, hi⟩)).m_remainingQuantity <
            (twoOrderHeap (twoOrderLevel.m_orders.get ⟨i, hi⟩)).m_remainingQuantity →
          (r.heap (twoOrderLevel.m_orders.get ⟨j, lt_trans hj hi⟩)).m_remainingQuantity = 0 ∧
          twoOrderLevel.m_orders.get ⟨j, lt_trans hj hi⟩ ∉ r.level.m_orders := by
  obtain ⟨r, m, m', h1, h2, h3, _, h5, h6, _, _, h9⟩ :=
    (match_fifo twoOrderLevel twoOrderHeap 150 []).2
  exact ⟨by decide, r, m, m', h1, h2, h3, h5, h6, h9 (by decide)⟩

/-- C6, the code at the failing input.  `C1` rests alone at `100.00`;
`cancelOrder("C1")` returns true, yet the bid index still holds the level with
`C1` (address 0) queued and an aggregate of 500, and the best bid is still
`100.00`. -/
theorem cancel_leaves_order_in_level :
    Reachable cancelBook ∧
    cancelBook.m_orders.find "C1" = some 0 ∧
    cancelBook.m_bidLevels = [(100000, ⟨100000, [0], 500⟩)] ∧
    (cancelBook.cancelOrder "C1").2 = .ok true ∧
    (cancelBook.cancelOrder "C1").1.m_bidLevels = [(100000, ⟨100000, [0], 500⟩)] ∧
    (cancelBook.cancelOrder "C1").1.getBestBidPrice = 100000 :=
  ⟨cancelBook_reachable, by decide, by decide, by decide, by decide, by decide⟩

/-- C7, the code at the failing input.  Submitting `C1` (`BUY 100.00 x 500`) to
the empty book matches nothing; cancelling it immediately leaves the bid
aggregate at `100.00` at 500, where it was 0 before the submission. -/
theorem submit_cancel_changes_aggregate :
    tslaBook.m_bidLevels.totalQuantityAt 100000 = 0 ∧
    (tslaBook.submit ⟨"C1", Side.BUY, 100000, 500, 500⟩).2 = .ok () ∧
    (tslaBook.submit ⟨"C1", Side.BUY, 100000, 500, 500⟩).1.m_trades = [] ∧
    ((tslaBook.submit ⟨"C1", Side.BUY, 100000, 500, 500⟩).1.cancelOrder "C1").2 = .ok true ∧
    ((tslaBook.submit ⟨"C1", Side.BUY, 100000, 500, 500⟩).1.cancelOrder
      "C1").1.m_bidLevels.totalQuantityAt 100000 = 500 :=
  ⟨by decide, by decide, by decide, by decide, by decide⟩

/-- C8. `cancelOrder(id)` returns true exactly when `id` is in the registry.
When it returns false the whole state is unchanged.  When it returns true the
registry afterwards is the previous registry without `id`: looking up `id`
fails and every other identifier is found as before, `getTotalOrders` has
dropped by exactly one, and a second `cancelOrder(id)` returns false.  For an
order just added by a successful `addOrder`, cancelling it returns true and
brings `getTotalOrders` back to its value before the submission.  The
hypothesis states that the registry, a `std::unordered_map`, holds each key
once. -/
theorem cancelOrder_registry (b : OrderBook) (orderId : OrderId)
    (hnd : (b.m_orders.map Prod.fst).Nodup) :
    (b.cancelOrder orderId).2 = .ok (b.m_orders.find orderId).isSome ∧
    ((b.m_orders.find orderId).isSome = false → (b.cancelOrder orderId).1 = b) ∧
    ((b.m_orders.find orderId).isSome = true →
      (b.cancelOrder orderId).1.m_orders = b.m_orders.erase orderId ∧
      (∀ other, (b.cancelOrder orderId).1.m_orders.find other =
        if other = orderId then none else b.m_orders.find other) ∧
      (b.cancelOrder orderId).1.getTotalOrders + 1 = b.getTotalOrders ∧
      ((b.cancelOrder orderId).1.cancelOrder orderId).2 = .ok false) ∧
    (∀ order : OrderPtr, (b.addOrder order).2 = .ok () →
      ((b.addOrder order).1.cancelOrder (b.heap order).m_orderId).2 = .ok true ∧
      ((b.addOrder order).1.cancelOrder (b.heap order).m_orderId).1.getTotalOrders =
        b.getTotalOrders) := by
  refine ⟨?_, ?_, ?_, ?_⟩
  · cases hfind : b.m_orders.find orderId with
    | none => rw [cancelOrder_none hfind]; rfl
    | some order => rw [cancelOrder_some hfind]; rfl
  · intro h
    have hfind : b.m_orders.find orderId = none := by
      cases hf : b.m_orders.find orderId with
      | none => rfl
      | some p => rw [hf] at h; simp at h
    rw [cancelOrder_none hfind]
  · intro h
    obtain ⟨order, hfind⟩ := Option.isSome_iff_exists.mp h
    have herase : (b.cancelOrder orderId).1.m_orders = b.m_orders.erase orderId := by
      rw [cancelOrder_some hfind]
    have hfe := Registry.find_erase orderId orderId hnd
    simp only [if_true] at hfe
    refine ⟨herase, ?_, ?_, ?_⟩
    · intro other
      rw [herase]
      exact Registry.find_erase orderId other hnd
    · unfold OrderBook.getTotalOrders
      rw [herase]
      exact Registry.erase_length h
    · rw [← herase] at hfe
      rw [cancelOrder_none hfe]
  · intro order hok
    obtain ⟨hnone, happ⟩ := addOrder_orders b order hok
    have hfind : (b.addOrder order).1.m_orders.find (b.heap order).m_orderId = some order := by
      rw [happ]
      exact Registry.find_append_self order hnone
    rw [cancelOrder_some hfind]
    refine ⟨rfl, ?_⟩
    have hlen := @Registry.erase_length (b.addOrder order).1.m_orders
      (b.heap order).m_orderId (by rw [hfind]; rfl)
    unfold OrderBook.getTotalOrders
    simp only []
    rw [happ] at hlen ⊢
    simp only [List.length_append, List.length_singleton] at hlen
    omega

/-- C8 at the cancellation scenario of `demonstrateEdgeCases`: a resting order
cancelled twice, and an unknown identifier. -/
theorem cancelOrder_registry_witness :
    (cancelBook.m_orders.map Prod.fst).Nodup ∧
      (cancelBook.cancelOrder "C1").2 = .ok true ∧
      (cancelBook.cancelOrder "C1").1.getTotalOrders + 1 = cancelBook.getTotalOrders ∧
      ((cancelBook.cancelOrder "C1").1.cancelOrder "C1").2 = .ok false ∧
      (cancelBook.cancelOrder "DOESNT_EXIST").1 = cancelBook :=
  ⟨by decide, (cancelOrder_registry cancelBook "C1" (by decide)).1,
    ((cancelOrder_registry cancelBook "C1" (by decide)).2.2.1 (by decide)).2.2.1,
    ((cancelOrder_registry cancelBook "C1" (by decide)).2.2.1 (by decide)).2.2.2,
    (cancelOrder_registry cancelBook "DOESNT_EXIST" (by decide)).2.1 (by decide)⟩

/-- C9, counterexample.  `S1` and `B1` have matched each other in full: `S1`
has remaining quantity 0 and neither index holds a level.  `cancelOrder("S1")`
does not return false and does not leave the registry unchanged: it returns
true and `getTotalOrders` drops from 2 to 1. -/
theorem cancel_filled_order_returns_true :
    Reachable filledBook ∧
    filledBook.m_trades = [⟨"B1", "S1", 10000, 100⟩] ∧
    filledBook.m_orders.find "S1" = some 0 ∧
    (filledBook.heap 0).m_remainingQuantity = 0 ∧
    filledBook.m_bidLevels = [] ∧ filledBook.m_askLevels = [] ∧
    (filledBook.cancelOrder "S1").2 = .ok true ∧
    filledBook.getTotalOrders = 2 ∧
    (filledBook.cancelOrder "S1").1.getTotalOrders = 1 :=
  ⟨filledBook_reachable, by decide, by decide, by decide, by decide, by decide, by decide,
    by decide, by decide⟩

/-- C9, amended.  For a registered identifier whose order has remaining
quantity 0 (a fully matched order stays in the registry), `cancelOrder(id)`
returns true and removes the identifier from the registry; the rest of the state
(both indices, the trade log, every order object) is unchanged. -/
theorem cancel_filled_order (b : OrderBook) (orderId : OrderId) (order : OrderPtr)
    (hfind : b.m_orders.find orderId = some order)
    (hfilled : (b.heap order).m_remainingQuantity = 0) :
    b.cancelOrder orderId = ({ b with m_orders := b.m_orders.erase orderId }, .ok true) := by
  rw [cancelOrder_some hfind]
  have : Function.update b.heap order { b.heap order with m_remainingQuantity := 0 } = b.heap := by
    rw [← hfilled]
    exact Function.update_eq_self order b.heap
  rw [this]

/-- C9, amended, at the fully matched `S1`. -/
theorem cancel_filled_order_witness :
    filledBook.m_orders.find "S1" = some 0 ∧
      (filledBook.heap 0).m_remainingQuantity = 0 ∧
      filledBook.cancelOrder "S1" =
        ({ filledBook with m_orders := filledBook.m_orders.erase "S1" }, .ok true) :=
  ⟨by decide, by decide, cancel_filled_order filledBook "S1" 0 (by decide) (by decide)⟩

/-- C10. `addOrder` on an order whose remaining quantity is 0, or whose
identifier is already in the registry, throws and leaves the whole state as it
was: indices, registry, trade log and order objects. -/
theorem addOrder_rejected_unchanged (b : OrderBook) (order : OrderPtr)
    (h : (b.heap order).m_remainingQuantity = 0 ∨
      (b.m_orders.find (b.heap order).m_orderId).isSome = true) :
    ∃ e, b.addOrder order = (b, .error e) := by
  rcases addOrder_cases b order with ⟨_, h1⟩ | ⟨_, _, h1⟩ | ⟨hnf, hnone, _⟩
  · exact ⟨_, h1⟩
  · exact ⟨_, h1⟩
  · rcases h with h | h
    · simp [Order.isFilled, h] at hnf
    · rw [hnone] at h; simp at h

/-- C10 at a second `addOrder` of the registered order `B1` (address 0). -/
theorem addOrder_rejected_unchanged_witness :
    (restingBook.m_orders.find (restingBook.heap 0).m_orderId).isSome = true ∧
      ∃ e, restingBook.addOrder 0 = (restingBook, .error e) :=
  ⟨by decide, addOrder_rejected_unchanged restingBook 0 (Or.inr (by decide))⟩

theorem remSum_nil (h : Heap) : remSum h [] = 0 := rfl

theorem remSum_cons (h : Heap) (a : OrderPtr) (q : List OrderPtr) :
    remSum h (a :: q) = (h a).m_remainingQuantity + remSum h q := by
  simp [remSum]

theorem remSum_append (h : Heap) (q1 q2 : List OrderPtr) :
    remSum h (q1 ++ q2) = remSum h q1 + remSum h q2 := by
  simp [remSum]

theorem remSum_congr {h1 h2 : Heap} {q : List OrderPtr}
    (hq : ∀ p ∈ q, (h1 p).m_remainingQuantity = (h2 p).m_remainingQuantity) :
    remSum h1 q = remSum h2 q := by
  induction q with
  | nil => rfl
  | cons a q ih =>
    rw [remSum_cons, remSum_cons, hq a (by simp), ih (fun p hp => hq p (by simp [hp]))]

theorem remSum_update {h : Heap} {a : OrderPtr} {q : List OrderPtr} (o : Order)
    (ha : a ∉ q) : remSum (Function.update h a o) q = remSum h q := by
  apply remSum_congr
  intro p hp
  have hpa : p ≠ a := fun hpa => ha (by rw [← hpa]; exact hp)
  rw [Function.update_noteq hpa]

theorem remSum_nonneg {h : Heap} {q : List OrderPtr}
    (hq : ∀ p ∈ q, 0 ≤ (h p).m_remainingQuantity) : 0 ≤ remSum h q := by
  induction q with
  | nil => exact le_refl _
  | cons a q ih =>
    rw [remSum_cons]
    exact add_nonneg (hq a (by simp)) (ih (fun p hp => hq p (by simp [hp])))

theorem remSum_zero {h : Heap} {q : List OrderPtr}
    (hq : ∀ p ∈ q, (h p).m_remainingQuantity = 0) : remSum h q = 0 := by
  induction q with
  | nil => rfl
  | cons a q ih =>
    rw [remSum_cons, hq a (by simp), ih (fun p hp => hq p (by simp [hp]))]
    rfl


/-- The quantitative effect of the loop of `PriceLevel::match`. -/
theorem matchLoop_quant (req : Quantity) (q : List OrderPtr) :
    ∀ (fuel : Nat) (heap : Heap) (price : Price) (total tm : Quantity) (fo : List OrderPtr),
      q.length < fuel →
      ∃ r popped, PriceLevel.matchLoop req fuel ⟨heap, ⟨price, q, total⟩, tm, fo⟩ = (r, .ok ()) ∧
        MatchQuant req ⟨heap, ⟨price, q, total⟩, tm, fo⟩ r popped := by
  induction q with
  | nil =>
    intro fuel heap price total tm fo hf
    obtain ⟨n, rfl⟩ : ∃ n, fuel = n + 1 := ⟨fuel - 1, by omega⟩
    refine ⟨_, [], matchLoop_nil _ _ _ rfl, ?_⟩
    refine ⟨rfl, Or.inl (by simp), by simp, fun _ _ => rfl, fun _ h => h, fun _ h => h,
      fun _ => ⟨fun _ => le_refl _, le_refl _⟩, fun _ => by simp, by simp, ?_⟩
    intro _ _ hle
    refine ⟨?_, ?_⟩
    · simp only [remSum_nil, add_zero]
      exact (min_eq_right hle).symm
    · intro pre p post h
      simp at h
  | cons a rest ih =>
    intro fuel heap price total tm fo hf
    simp only [List.length_cons] at hf
    by_cases h : tm < req
    · by_cases hle : (heap a).m_remainingQuantity ≤ req - tm
      · -- the head is filled completely and popped
        obtain ⟨n, rfl⟩ : ∃ n, fuel = n + 1 := ⟨fuel - 1, by omega⟩
        obtain ⟨r, popped, hr, hq⟩ := ih n
          (Function.update heap a { heap a with m_remainingQuantity := 0 }) price
          (total - (heap a).m_remainingQuantity) (tm + (heap a).m_remainingQuantity)
          (fo ++ [a]) (by omega)
        refine ⟨r, a :: popped, by rw [matchLoop_pop _ _ _ _ _ _ _ _ _ h hle]; exact hr, ?_⟩
        have hzero : (r.heap a).m_remainingQuantity = 0 := hq.zero_stable a (by simp)
        have hq_queue := hq.queue
        have hq_total := hq.total
        simp only at hq_queue hq_total
        constructor
        · simp only [List.cons_append, hq_queue]
        · rcases hq.touched with ht | ⟨x, rest', h1, h2, h3⟩
          · left; simpa using ht
          · right; exact ⟨x, rest', h1, by simpa using h2, h3⟩
        · intro p hp
          rcases List.mem_cons.mp hp with rfl | hp
          · exact hzero
          · exact hq.popped_zero p hp
        · intro x hx
          simp only [List.mem_cons, not_or] at hx
          rw [hq.frame x hx.2]
          exact Function.update_noteq hx.1 _ _
        · intro x hx
          apply hq.zero_stable
          by_cases hxa : x = a
          · subst hxa; simp
          · simpa [Function.update_noteq hxa] using hx
        · intro x hx
          apply hq.nonneg
          by_cases hxa : x = a
          · subst hxa; simp
          · simpa [Function.update_noteq hxa] using hx
        · intro hnn
          have ha : 0 ≤ (heap a).m_remainingQuantity := hnn a (by simp)
          have hnn1 : ∀ p ∈ rest, 0 ≤ ((Function.update heap a
              { heap a with m_remainingQuantity := 0 }) p).m_remainingQuantity := by
            intro p hp
            by_cases hpa : p = a
            · subst hpa; simp
            · simpa [Function.update_noteq hpa] using hnn p (by simp [hp])
          obtain ⟨hm1, hm2⟩ := hq.mono hnn1
          refine ⟨?_, ?_⟩
          · intro x
            have := hm1 x
            by_cases hxa : x = a
            · subst hxa
              simp only [Function.update_same] at this
              linarith
            · simpa [Function.update_noteq hxa] using this
          · simp only at hm2 ⊢
            linarith
        · intro hnd
          rw [List.nodup_cons] at hnd
          have hc := hq.conserve hnd.2
          simp only at hc ⊢
          rw [remSum_update _ hnd.1] at hc
          rw [remSum_cons, remSum_cons, hzero]
          linarith
        · simp only at hq_total ⊢
          rw [hq_total]
          ring
        · intro hnd hnn hle'
          rw [List.nodup_cons] at hnd
          have ha : 0 ≤ (heap a).m_remainingQuantity := hnn a (by simp)
          have hnn1 : ∀ p ∈ rest, 0 ≤ ((Function.update heap a
              { heap a with m_remainingQuantity := 0 }) p).m_remainingQuantity := by
            intro p hp
            by_cases hpa : p = a
            · subst hpa; simp
            · simpa [Function.update_noteq hpa] using hnn p (by simp [hp])
          obtain ⟨he1, he2⟩ := hq.exact hnd.2 hnn1 (by simp only; linarith)
          simp only at he1 he2 ⊢
          rw [remSum_update _ hnd.1] at he1
          refine ⟨?_, ?_⟩
          · rw [he1, remSum_cons]
            congr 1
            ring
          · intro pre p post hdec
            cases pre with
            | nil =>
              simp only [List.nil_append, List.cons.injEq] at hdec
              obtain ⟨rfl, _⟩ := hdec
              rw [hzero, remSum_nil, sub_zero, max_eq_right (by linarith), min_eq_left hle,
                sub_self]
            | cons b pre' =>
              simp only [List.cons_append, List.cons.injEq] at hdec
              obtain ⟨rfl, hrest⟩ := hdec
              have hp : p ∈ rest := by rw [hrest]; simp
              have hpa : p ≠ a := fun hpa => hnd.1 (hpa ▸ hp)
              have hpre : a ∉ pre' := fun hm => hnd.1 (by rw [hrest]; simp [hm])
              have := he2 pre' p post hrest
              rw [Function.update_noteq hpa, remSum_update _ hpre] at this
              rw [this, remSum_cons]
              congr 3
              ring
      · -- the head is filled in part and stays; the request is satisfied
        have hlt : req - tm < (heap a).m_remainingQuantity := not_le.mp hle
        obtain ⟨n, rfl⟩ : ∃ n, fuel = n + 2 := ⟨fuel - 2, by omega⟩
        refine ⟨_, [], matchLoop_stay _ _ _ _ _ _ _ _ _ h hlt, ?_⟩
        constructor
        · rfl
        · right
          refine ⟨a, rest, rfl, by simp, ?_⟩
          simp only [Function.update_same]
          intro h0
          linarith
        · intro p hp; simp at hp
        · intro x hx
          simp only [List.mem_cons, not_or] at hx
          exact Function.update_noteq hx.1 _ _
        · intro x hx
          have hxa : x ≠ a := by
            rintro rfl
            simp only at hx; linarith
          simpa [Function.update_noteq hxa] using hx
        · intro x hx
          by_cases hxa : x = a
          · subst hxa
            simp only [Function.update_same]
            linarith
          · simpa [Function.update_noteq hxa] using hx
        · intro _
          refine ⟨?_, ?_⟩
          · intro x
            by_cases hxa : x = a
            · subst hxa
              simp only [Function.update_same]
              linarith
            · simp [Function.update_noteq hxa]
          · simp only; exact le_of_lt h
        · intro hnd
          rw [List.nodup_cons] at hnd
          simp only
          rw [remSum_cons, remSum_cons, remSum_update _ hnd.1]
          simp only [Function.update_same]
          ring
        · simp
        · intro hnd hnn hle'
          rw [List.nodup_cons] at hnd
          have hrest : 0 ≤ remSum heap rest := remSum_nonneg (fun p hp => hnn p (by simp [hp]))
          simp only at hle' ⊢
          refine ⟨?_, ?_⟩
          · rw [remSum_cons]
            exact (min_eq_left (by linarith)).symm
          · intro pre p post hdec
            cases pre with
            | nil =>
              simp only [List.nil_append, List.cons.injEq] at hdec
              obtain ⟨rfl, _⟩ := hdec
              rw [Function.update_same, remSum_nil, sub_zero, max_eq_right (by linarith),
                min_eq_right (le_of_lt hlt)]
            | cons b pre' =>
              simp only [List.cons_append, List.cons.injEq] at hdec
              obtain ⟨rfl, hrest'⟩ := hdec
              have hp : p ∈ rest := by rw [hrest']; simp
              have hpa : p ≠ a := fun hpa => hnd.1 (hpa ▸ hp)
              have hpre : 0 ≤ remSum heap pre' :=
                remSum_nonneg (fun x hx => hnn x (by rw [hrest']; simp [hx]))
              rw [Function.update_noteq hpa, remSum_cons, max_eq_left (by linarith),
                min_eq_right (hnn p (by simp [hp])), sub_zero]
    · -- the request is already satisfied
      obtain ⟨n, rfl⟩ : ∃ n, fuel = n + 1 := ⟨fuel - 1, by omega⟩
      refine ⟨_, [], matchLoop_done _ _ _ h, ?_⟩
      refine ⟨rfl, Or.inl (by simp), by simp, fun _ _ => rfl, fun _ h => h, fun _ h => h,
        fun _ => ⟨fun _ => le_refl _, le_refl _⟩, fun _ => by simp, by simp, ?_⟩
      intro _ hnn hle'
      simp only at hle' ⊢
      have heq : tm = req := le_antisymm hle' (not_lt.mp h)
      have hsum : 0 ≤ remSum heap (a :: rest) := remSum_nonneg hnn
      refine ⟨?_, ?_⟩
      · rw [heq]
        exact (min_eq_left (by linarith)).symm
      · intro pre p post hdec
        have hpre : 0 ≤ remSum heap pre :=
          remSum_nonneg (fun x hx => hnn x (by rw [hdec]; simp [hx]))
        rw [max_eq_left (by linarith), min_eq_right (hnn p (by rw [hdec]; simp)), sub_zero]


theorem match_quant (l : PriceLevel) (heap : Heap) (req : Quantity) (fo : List OrderPtr) :
    ∃ r popped, l.match_ heap req fo = (r, .ok r.totalMatched) ∧
      MatchQuant req ⟨heap, l, 0, fo⟩ r popped := by
  obtain ⟨r, popped, hr, hq⟩ := matchLoop_quant req l.m_orders (l.m_orders.length + 1) heap
    l.m_price l.m_totalQuantity 0 fo (Nat.lt_succ_self _)
  refine ⟨r, popped, ?_, hq⟩
  unfold PriceLevel.match_
  simp only []
  rw [show (⟨heap, l, 0, fo⟩ : MatchState) = ⟨heap, ⟨l.m_price, l.m_orders, l.m_totalQuantity⟩, 0, fo⟩
    from rfl, hr]
  rfl


/-- The loop-invariant rule for `OrderBook::matchBuyOrder`, with the call of
`PriceLevel::match` given by its equation. -/
theorem matchBuyLoop_rule_eq (buy : OrderPtr)
    (I : OrderBook → Levels → Levels → Prop) (Q : OrderBook → Except Error Unit → Prop)
    (h_end : ∀ b visited, I b visited [] → Q { b with m_askLevels := visited } (.ok ()))
    (h_stop : ∀ b visited k l rest, I b visited ((k, l) :: rest) →
      ((b.heap buy).isFilled = true ∨ (b.heap buy).m_price < k) →
      Q { b with m_askLevels := visited ++ (k, l) :: rest } (.ok ()))
    (h_throw : ∀ b visited k l rest ms heap e, I b visited ((k, l) :: rest) →
      (b.heap buy).isFilled = false → ¬ (b.heap buy).m_price < k →
      l.match_ b.heap (b.heap buy).m_remainingQuantity [] = (ms, .ok ms.totalMatched) →
      Heap.fill ms.heap buy ms.totalMatched = (heap, .error e) →
      Q { b with heap := heap,
                 m_trades := recordBuyTrades ms.heap b.m_trades buy k ms.totalMatched
                   ms.filledOrders,
                 m_askLevels := visited ++ (k, ms.level) :: rest } (.error e))
    (h_erase : ∀ b visited k l rest ms heap, I b visited ((k, l) :: rest) →
      (b.heap buy).isFilled = false → ¬ (b.heap buy).m_price < k →
      l.match_ b.heap (b.heap buy).m_remainingQuantity [] = (ms, .ok ms.totalMatched) →
      Heap.fill ms.heap buy ms.totalMatched = (heap, .ok ()) →
      ms.level.m_orders = [] →
      I { b with heap := heap,
                 m_trades := recordBuyTrades ms.heap b.m_trades buy k ms.totalMatched
                   ms.filledOrders } visited rest)
    (h_keep : ∀ b visited k l rest ms heap, I b visited ((k, l) :: rest) →
      (b.heap buy).isFilled = false → ¬ (b.heap buy).m_price < k →
      l.match_ b.heap (b.heap buy).m_remainingQuantity [] = (ms, .ok ms.totalMatched) →
      Heap.fill ms.heap buy ms.totalMatched = (heap, .ok ()) →
      ms.level.m_orders ≠ [] →
      I { b with heap := heap,
                 m_trades := recordBuyTrades ms.heap b.m_trades buy k ms.totalMatched
                   ms.filledOrders } (visited ++ [(k, ms.level)]) rest) :
    ∀ rest b visited, I b visited rest →
      Q (OrderBook.matchBuyLoop buy b visited rest).1
        (OrderBook.matchBuyLoop buy b visited rest).2 := by
  intro rest
  induction rest with
  | nil =>
    intro b visited hI
    simp only [OrderBook.matchBuyLoop]
    exact h_end b visited hI
  | cons kl rest ih =>
    obtain ⟨k, l⟩ := kl
    intro b visited hI
    rw [OrderBook.matchBuyLoop]
    by_cases hf : (b.heap buy).isFilled = true
    · simp only [hf, if_true]
      exact h_stop b visited k l rest hI (Or.inl hf)
    · by_cases hp : (b.heap buy).m_price < k
      · simp only [hf, hp, if_true]
        exact h_stop b visited k l rest hI (Or.inr hp)
      · obtain ⟨ms, _, _, hm, _⟩ :=
          match_post l b.heap (b.heap buy).m_remainingQuantity []
        have hf' : (b.heap buy).isFilled = false := by simpa using hf
        simp only [hf, hp, if_false, hm]
        rcases hfill : Heap.fill ms.heap buy ms.totalMatched with ⟨heap, res⟩
        cases res with
        | error e =>
          simp only []
          exact h_throw b visited k l rest ms heap e hI hf' hp hm hfill
        | ok u =>
          simp only []
          by_cases he : ms.level.m_orders = []
          · have : ms.level.isEmpty = true := by simp [PriceLevel.isEmpty, he]
            simp only [this, if_true]
            exact ih _ _ (h_erase b visited k l rest ms heap hI hf' hp hm hfill he)
          · have : ms.level.isEmpty = false := by
              simp [PriceLevel.isEmpty, he]
            simp only [this]
            exact ih _ _ (h_keep b visited k l rest ms heap hI hf' hp hm hfill he)

/-- The loop-invariant rule for `OrderBook::matchSellOrder`, with the call of
`PriceLevel::match` given by its equation. -/
theorem matchSellLoop_rule_eq (sell : OrderPtr)
    (I : OrderBook → Levels → Levels → Prop) (Q : OrderBook → Except Error Unit → Prop)
    (h_fuel : ∀ b fromIt passed, I b fromIt passed →
      Q { b with m_bidLevels := fromIt.reverse ++ passed } (.error .outOfFuel))
    (h_end : ∀ b passed, I b [] passed → Q { b with m_bidLevels := passed } (.ok ()))
    (h_stop : ∀ b k l lower passed, I b ((k, l) :: lower) passed →
      ((b.heap sell).isFilled = true ∨ (b.heap sell).m_price > k) →
      Q { b with m_bidLevels := ((k, l) :: lower).reverse ++ passed } (.ok ()))
    (h_throw : ∀ b k l lower passed ms heap e, I b ((k, l) :: lower) passed →
      (b.heap sell).isFilled = false → ¬ (b.heap sell).m_price > k →
      l.match_ b.heap (b.heap sell).m_remainingQuantity [] = (ms, .ok ms.totalMatched) →
      Heap.fill ms.heap sell ms.totalMatched = (heap, .error e) →
      Q { b with heap := heap,
                 m_trades := recordSellTrades ms.heap b.m_trades sell k ms.totalMatched
                   ms.filledOrders,
                 m_bidLevels := ((k, ms.level) :: lower).reverse ++ passed } (.error e))
    (h_erase : ∀ b k l lower passed ms heap, I b ((k, l) :: lower) passed →
      (b.heap sell).isFilled = false → ¬ (b.heap sell).m_price > k →
      l.match_ b.heap (b.heap sell).m_remainingQuantity [] = (ms, .ok ms.totalMatched) →
      Heap.fill ms.heap sell ms.totalMatched = (heap, .ok ()) →
      ms.level.m_orders = [] →
      I { b with heap := heap,
                 m_trades := recordSellTrades ms.heap b.m_trades sell k ms.totalMatched
                   ms.filledOrders } (passed.reverse ++ lower) [])
    (h_keep : ∀ b k l lower passed ms heap, I b ((k, l) :: lower) passed →
      (b.heap sell).isFilled = false → ¬ (b.heap sell).m_price > k →
      l.match_ b.heap (b.heap sell).m_remainingQuantity [] = (ms, .ok ms.totalMatched) →
      Heap.fill ms.heap sell ms.totalMatched = (heap, .ok ()) →
      ms.level.m_orders ≠ [] →
      I { b with heap := heap,
                 m_trades := recordSellTrades ms.heap b.m_trades sell k ms.totalMatched
                   ms.filledOrders } lower ((k, ms.level) :: passed)) :
    ∀ fuel b fromIt passed, I b fromIt passed →
      Q (OrderBook.matchSellLoop sell fuel b fromIt passed).1
        (OrderBook.matchSellLoop sell fuel b fromIt passed).2 := by
  intro fuel
  induction fuel with
  | zero =>
    intro b fromIt passed hI
    simp only [OrderBook.matchSellLoop]
    exact h_fuel b fromIt passed hI
  | succ fuel ih =>
    intro b fromIt passed hI
    cases fromIt with
    | nil =>
      simp only [OrderBook.matchSellLoop]
      exact h_end b passed hI
    | cons kl lower =>
      obtain ⟨k, l⟩ := kl
      rw [OrderBook.matchSellLoop]
      by_cases hf : (b.heap sell).isFilled = true
      · simp only [hf, if_true]
        exact h_stop b k l lower passed hI (Or.inl hf)
      · by_cases hp : (b.heap sell).m_price > k
        · simp only [hf, hp, if_true]
          exact h_stop b k l lower passed hI (Or.inr hp)
        · obtain ⟨ms, _, _, hm, _⟩ :=
            match_post l b.heap (b.heap sell).m_remainingQuantity []
          have hf' : (b.heap sell).isFilled = false := by simpa using hf
          simp only [hf, hp, if_false, hm]
          rcases hfill : Heap.fill ms.heap sell ms.totalMatched with ⟨heap, res⟩
          cases res with
          | error e =>
            simp only []
            exact h_throw b k l lower passed ms heap e hI hf' hp hm hfill
          | ok u =>
            simp only []
            by_cases he : ms.level.m_orders = []
            · have : ms.level.isEmpty = true := by simp [PriceLevel.isEmpty, he]
              simp only [this, if_true]
              exact ih _ _ _ (h_erase b k l lower passed ms heap hI hf' hp hm hfill he)
            · have : ms.level.isEmpty = false := by
                simp [PriceLevel.isEmpty, he]
              simp only [this]
              exact ih _ _ _ (h_keep b k l lower passed ms heap hI hf' hp hm hfill he)

/-- Both descriptions of a call of `PriceLevel::match`, from its equation. -/
theorem match_facts {l : PriceLevel} {heap : Heap} {req : Quantity} {fo : List OrderPtr}
    {ms : MatchState} {res : Except Error Quantity} (heq : l.match_ heap req fo = (ms, res)) :
    res = .ok ms.totalMatched ∧
    (∃ m m', MatchPost req ⟨heap, l, 0, fo⟩ ms m m') ∧
    ∃ popped, MatchQuant req ⟨heap, l, 0, fo⟩ ms popped := by
  obtain ⟨r, m, m', hr, hp⟩ := match_post l heap req fo
  obtain ⟨r', popped, hr', hq⟩ := match_quant l heap req fo
  rw [heq] at hr hr'
  simp only [Prod.mk.injEq] at hr hr'
  obtain ⟨rfl, hres⟩ := hr
  obtain ⟨rfl, _⟩ := hr'
  exact ⟨hres, ⟨m, m', hp⟩, popped, hq⟩


theorem Heap.fill_error_heap {h h' : Heap} {p : OrderPtr} {q : Quantity} {e : Error}
    (hfill : Heap.fill h p q = (h', .error e)) :
    (h p).m_remainingQuantity < q ∧ h' = h := by
  unfold Heap.fill Order.fill at hfill
  split_ifs at hfill with hgt
  · simp only [Prod.mk.injEq, Except.error.injEq] at hfill
    exact ⟨hgt, by rw [← hfill.1]; exact Function.update_eq_self p h⟩
  · simp at hfill

theorem Heap.fill_ok_heap {h h' : Heap} {p : OrderPtr} {q : Quantity}
    (hfill : Heap.fill h p q = (h', .ok ())) :
    q ≤ (h p).m_remainingQuantity ∧
    h' = Function.update h p
      { h p with m_remainingQuantity := (h p).m_remainingQuantity - q } := by
  unfold Heap.fill Order.fill at hfill
  split_ifs at hfill with hgt
  · simp at hfill
  · simp only [Prod.mk.injEq, and_true] at hfill
    exact ⟨not_lt.mp hgt, hfill.symm⟩

/-- One iteration of a matching loop on the object store: `PriceLevel::match` on
a level, then `fill` of the incoming order `x` by the matched quantity.  The
incoming order is not queued in the level, no remaining quantity involved is
negative and the level holds each order once.  Then the `fill` does not throw,
only `x` and the level's orders are written, no remaining quantity grows or
turns negative, `x` loses exactly what the level's orders lose, and `x` is
filled when the level is not left empty. -/
theorem level_step {h h' : Heap} {l : PriceLevel} {x : OrderPtr} {ms : MatchState}
    {res : Except Error Unit}
    (heq : l.match_ h (h x).m_remainingQuantity [] = (ms, .ok ms.totalMatched))
    (hfill : Heap.fill ms.heap x ms.totalMatched = (h', res))
    (hx : x ∉ l.m_orders) (hx0 : 0 ≤ (h x).m_remainingQuantity)
    (hnn : ∀ p ∈ l.m_orders, 0 ≤ (h p).m_remainingQuantity) (hnd : l.m_orders.Nodup) :
    res = .ok () ∧
    (∀ p, p ≠ x → p ∉ l.m_orders → h' p = h p) ∧
    (∀ p, (h' p).m_remainingQuantity ≤ (h p).m_remainingQuantity) ∧
    (∀ p, 0 ≤ (h p).m_remainingQuantity → 0 ≤ (h' p).m_remainingQuantity) ∧
    (h x).m_remainingQuantity - (h' x).m_remainingQuantity =
      remSum h l.m_orders - remSum h' l.m_orders ∧
    (h x).m_remainingQuantity - (h' x).m_remainingQuantity = ms.totalMatched ∧
    0 ≤ ms.totalMatched := by
  obtain ⟨_, ⟨m, m', hp⟩, popped, hq⟩ := match_facts heq
  have hmsx : ms.heap x = h x := hq.frame x hx
  have hbound : ms.totalMatched ≤ (h x).m_remainingQuantity := hp.bound hx0
  have hmono := hq.mono hnn
  have htm0 : 0 ≤ ms.totalMatched := hmono.2
  have hcons := hq.conserve hnd
  simp only [sub_zero] at hcons
  cases res with
  | error e =>
    have := (Heap.fill_error_heap hfill).1
    rw [hmsx] at this
    exact absurd hbound (not_le.mpr this)
  | ok u =>
    obtain ⟨_, hh'⟩ := Heap.fill_ok_heap hfill
    have hx' : (h' x).m_remainingQuantity = (h x).m_remainingQuantity - ms.totalMatched := by
      rw [hh', Function.update_same, hmsx]
    have hother : ∀ p, p ≠ x → h' p = ms.heap p := by
      intro p hpx
      rw [hh', Function.update_noteq hpx]
    refine ⟨rfl, ?_, ?_, ?_, ?_, ?_, htm0⟩
    · intro p hpx hpl
      rw [hother p hpx, hq.frame p hpl]
    · intro p
      by_cases hpx : p = x
      · subst hpx; rw [hx']; linarith
      · rw [hother p hpx]; exact hmono.1 p
    · intro p hp0
      by_cases hpx : p = x
      · subst hpx; rw [hx']; linarith
      · rw [hother p hpx]; exact hq.nonneg p hp0
    · have : remSum h' l.m_orders = remSum ms.heap l.m_orders := by
        apply remSum_congr
        intro p hpl
        rw [hother p (fun hpx => hx (hpx ▸ hpl))]
      rw [this, hx', hcons]
      ring
    · rw [hx']; ring

theorem Levels.ptrs_append (A B : Levels) :
    Levels.ptrs (A ++ B) = Levels.ptrs A ++ Levels.ptrs B := by
  induction A with
  | nil => rfl
  | cons y A ih => simp [Levels.ptrs, ih]

theorem Levels.ptrs_cons (y : Price × PriceLevel) (B : Levels) :
    Levels.ptrs (y :: B) = y.2.m_orders ++ Levels.ptrs B := rfl

theorem Levels.mem_ptrs {ls : Levels} {p : OrderPtr} :
    p ∈ Levels.ptrs ls ↔ ∃ y ∈ ls, p ∈ y.2.m_orders := by
  induction ls with
  | nil => simp [Levels.ptrs]
  | cons y ls ih => simp [Levels.ptrs, ih]

/-- Replacing a level's queue by a trailing part of it leaves a sublist of the
queued orders. -/
theorem Levels.ptrs_replace_sublist (A B : Levels) (k : Price) (l l' : PriceLevel)
    (popped : List OrderPtr) (hq : popped ++ l'.m_orders = l.m_orders) :
    (Levels.ptrs (A ++ (k, l') :: B)).Sublist (Levels.ptrs (A ++ (k, l) :: B)) := by
  rw [Levels.ptrs_append, Levels.ptrs_append, Levels.ptrs_cons, Levels.ptrs_cons]
  apply List.Sublist.append (List.Sublist.refl _)
  apply List.Sublist.append _ (List.Sublist.refl _)
  simp only
  rw [← hq]
  exact List.sublist_append_right _ _

theorem Levels.ptrs_remove_sublist (A B : Levels) (y : Price × PriceLevel) :
    (Levels.ptrs (A ++ B)).Sublist (Levels.ptrs (A ++ y :: B)) := by
  rw [Levels.ptrs_append, Levels.ptrs_append, Levels.ptrs_cons]
  apply List.Sublist.append (List.Sublist.refl _)
  exact List.sublist_append_right _ _

theorem Levels.queue_sublist_ptrs (A B : Levels) (y : Price × PriceLevel) :
    y.2.m_orders.Sublist (Levels.ptrs (A ++ y :: B)) := by
  rw [Levels.ptrs_append, Levels.ptrs_cons]
  exact (List.sublist_append_left _ _).trans (List.sublist_append_right _ _)

/-- A sum over a duplicate-free list equals the sum over a sublist outside of
which the summand vanishes. -/
theorem sum_map_sublist {L S : List OrderPtr} (f : OrderPtr → Quantity) (hs : S.Sublist L)
    (hnd : L.Nodup) (hf : ∀ p ∈ L, p ∉ S → f p = 0) :
    (L.map f).sum = (S.map f).sum := by
  induction hs with
  | slnil => rfl
  | cons a hs ih =>
    rename_i S' L'
    rw [List.nodup_cons] at hnd
    have ha : f a = 0 := hf a (by simp) (fun h => hnd.1 (hs.subset h))
    simp only [List.map_cons, List.sum_cons, ha, zero_add]
    exact ih hnd.2 (fun p hp hnp => hf p (by simp [hp]) hnp)
  | cons₂ a hs ih =>
    rename_i S' L'
    rw [List.nodup_cons] at hnd
    simp only [List.map_cons, List.sum_cons]
    rw [ih hnd.2]
    intro p hp hnp
    apply hf p (by simp [hp])
    intro hmem
    rcases List.mem_cons.mp hmem with rfl | hmem
    · exact hnd.1 hp
    · exact hnp hmem

theorem remSum_sub (h h' : Heap) (q : List OrderPtr) :
    (q.map (fun p => (h p).m_remainingQuantity - (h' p).m_remainingQuantity)).sum =
      remSum h q - remSum h' q := by
  induction q with
  | nil => simp [remSum]
  | cons a q ih =>
    simp only [List.map_cons, List.sum_cons, ih, remSum_cons]
    ring

theorem HeapRel.start (h0 : Heap) (x : OrderPtr) (ptrs0 : List OrderPtr) :
    HeapRel h0 x ptrs0 h0 where
  frame := fun _ _ _ => rfl
  mono := fun _ => le_refl _
  nonneg := fun _ h => h
  conserve := by
    rw [remSum_sub]
    simp

/-- One iteration of a matching loop keeps `HeapRel`. -/
theorem HeapRel.step {h0 h h' : Heap} {x : OrderPtr} {ptrs0 q : List OrderPtr}
    (rel : HeapRel h0 x ptrs0 h) (hsub : q.Sublist ptrs0) (hnd : ptrs0.Nodup)
    (hx : x ∉ ptrs0)
    (hframe : ∀ p, p ≠ x → p ∉ q → h' p = h p)
    (hmono : ∀ p, (h' p).m_remainingQuantity ≤ (h p).m_remainingQuantity)
    (hnonneg : ∀ p, 0 ≤ (h p).m_remainingQuantity → 0 ≤ (h' p).m_remainingQuantity)
    (hcons : (h x).m_remainingQuantity - (h' x).m_remainingQuantity =
      remSum h q - remSum h' q) :
    HeapRel h0 x ptrs0 h' where
  frame := fun p hpx hp => by
    rw [hframe p hpx (fun hq => hp (hsub.subset hq)), rel.frame p hpx hp]
  mono := fun p => le_trans (hmono p) (rel.mono p)
  nonneg := fun p hp => hnonneg p (rel.nonneg p hp)
  conserve := by
    have h1 : (ptrs0.map (fun p => (h p).m_remainingQuantity - (h' p).m_remainingQuantity)).sum =
        (q.map (fun p => (h p).m_remainingQuantity - (h' p).m_remainingQuantity)).sum := by
      apply sum_map_sublist _ hsub hnd
      intro p hp hpq
      rw [hframe p (fun hpx => hx (hpx ▸ hp)) hpq, sub_self]
    have h2 : (ptrs0.map (fun p => (h0 p).m_remainingQuantity - (h' p).m_remainingQuantity)).sum =
        (ptrs0.map (fun p => (h0 p).m_remainingQuantity - (h p).m_remainingQuantity)).sum +
        (ptrs0.map (fun p => (h p).m_remainingQuantity - (h' p).m_remainingQuantity)).sum := by
      rw [remSum_sub, remSum_sub, remSum_sub]
      ring
    have h3 := rel.conserve
    have h4 := remSum_sub h h' q
    rw [h2, h1]
    linarith


/-- One iteration of the loop of `matchBuyOrder` on the facts of `BuyInv`. -/
theorem buy_step {b0 : OrderBook} {buy : OrderPtr}
    (hfresh : ∀ y ∈ b0.m_askLevels, buy ∉ y.2.m_orders)
    {b : OrderBook} {visited rest : Levels} {k : Price} {l : PriceLevel} {ms : MatchState}
    {m m' : Nat} {heap : Heap} {res : Except Error Unit}
    (hI : BuyInv b0 buy b visited ((k, l) :: rest))
    (hpost : MatchPost (b.heap buy).m_remainingQuantity ⟨b.heap, l, 0, []⟩ ms m m')
    (hfill : Heap.fill ms.heap buy ms.totalMatched = (heap, res)) :
    Heap.SameIdentity b0.heap heap ∧
    LevelsOk heap b.nextPtr Side.SELL (visited ++ (k, ms.level) :: rest) ∧
    Levels.Within (visited ++ (k, ms.level) :: rest) b0.m_askLevels ∧
    (∃ new, recordBuyTrades ms.heap b.m_trades buy k ms.totalMatched ms.filledOrders =
        b0.m_trades ++ new ∧
      ∀ t ∈ new, ∃ y ∈ b0.m_askLevels, ∃ p ∈ y.2.m_orders, t.price = y.1 ∧
        t.buyOrderId = (b0.heap buy).m_orderId ∧ t.sellOrderId = (b0.heap p).m_orderId) ∧
    (res = .ok () → ms.level.m_orders ≠ [] → (heap buy).isFilled = true) := by
  have hsub : ∀ p ∈ ms.level.m_orders, p ∈ l.m_orders := by
    intro p hp
    rw [hpost.orders] at hp
    exact List.mem_of_mem_drop hp
  have hid : Heap.SameIdentity b0.heap heap := by
    have h3 := Heap.fill_identity ms.heap buy ms.totalMatched
    rw [hfill] at h3
    exact (hI.identity.trans hpost.identity).trans h3
  have hid2 : Heap.SameIdentity b.heap heap := by
    have h3 := Heap.fill_identity ms.heap buy ms.totalMatched
    rw [hfill] at h3
    exact hpost.identity.trans h3
  obtain ⟨l0, hl0, hl0sub⟩ := hI.within (k, l) (by simp)
  have hbuy : buy ∉ l.m_orders := fun hb => hfresh _ hl0 (hl0sub buy hb)
  refine ⟨hid, (hI.levels.heap_frame hid2).ok_replace hpost.level_price hsub,
    hI.within.within_replace hsub, ?_, ?_⟩
  · obtain ⟨new, hnew, hall⟩ := hI.trades
    refine ⟨new ++ ms.filledOrders.map (fun s =>
        ⟨(ms.heap buy).m_orderId, (ms.heap s).m_orderId, k,
          min ms.totalMatched (ms.heap s).m_quantity⟩), ?_, ?_⟩
    · rw [recordBuyTrades_eq, hnew, List.append_assoc]
    · intro t ht
      rcases List.mem_append.mp ht with ht | ht
      · exact hall t ht
      · obtain ⟨s, hs, rfl⟩ := List.mem_map.mp ht
        have hs' : s ∈ l.m_orders := by
          rw [hpost.filled] at hs
          simp only [List.nil_append] at hs
          exact List.mem_of_mem_take hs
        refine ⟨(k, l0), hl0, s, hl0sub s hs', rfl, ?_, ?_⟩
        · exact ((hI.identity.trans hpost.identity) buy).1
        · exact ((hI.identity.trans hpost.identity) s).1
  · intro hres hne
    subst hres
    apply Heap.fill_ok_filled hfill
    rcases hpost.exit with h | h
    · exact absurd h hne
    · have hu := hpost.untouched buy (fun hb => hbuy (List.mem_of_mem_take hb))
      rw [hu]
      exact h

/-- The loop of `matchBuyOrder`, with quantities. -/
theorem matchBuyLoop_x (b0 : OrderBook) (buy : OrderPtr)
    (hfresh : ∀ y ∈ b0.m_askLevels, buy ∉ y.2.m_orders)
    (hnd : (Levels.ptrs b0.m_askLevels).Nodup)
    (hnn : ∀ p ∈ Levels.ptrs b0.m_askLevels, 0 ≤ (b0.heap p).m_remainingQuantity)
    (hx0 : 0 ≤ (b0.heap buy).m_remainingQuantity) :
    ∀ rest b visited, BuyX b0 buy b visited rest →
      BuyXPost b0 buy (OrderBook.matchBuyLoop buy b visited rest).1
        (OrderBook.matchBuyLoop buy b visited rest).2 := by
  have hxp : buy ∉ Levels.ptrs b0.m_askLevels := by
    intro hmem
    obtain ⟨y, hy, hp⟩ := Levels.mem_ptrs.mp hmem
    exact hfresh y hy hp
  have hstep : ∀ b visited k l rest ms heap res, BuyX b0 buy b visited ((k, l) :: rest) →
      ¬ (b.heap buy).m_price < k →
      l.match_ b.heap (b.heap buy).m_remainingQuantity [] = (ms, .ok ms.totalMatched) →
      Heap.fill ms.heap buy ms.totalMatched = (heap, res) →
      res = .ok () ∧
      HeapRel b0.heap buy (Levels.ptrs b0.m_askLevels) heap ∧
      (Levels.ptrs (visited ++ (k, ms.level) :: rest)).Sublist (Levels.ptrs b0.m_askLevels) ∧
      (∃ new, recordBuyTrades ms.heap b.m_trades buy k ms.totalMatched ms.filledOrders =
          b0.m_trades ++ new ∧
        new.Pairwise (fun s t => s.price ≤ t.price) ∧
        (∀ t ∈ new, t.price ≤ (b0.heap buy).m_price) ∧
        ∀ t ∈ new, ∀ y ∈ rest, t.price ≤ y.1) := by
    intro b visited k l rest ms heap res hI hp heq hfill
    obtain ⟨_, _, popped, hq⟩ := match_facts heq
    obtain ⟨l0, hl0, hl0sub⟩ := hI.base.within (k, l) (by simp)
    have hbuy : buy ∉ l.m_orders := fun hb => hfresh _ hl0 (hl0sub buy hb)
    have hlsub : l.m_orders.Sublist (Levels.ptrs b0.m_askLevels) :=
      (Levels.queue_sublist_ptrs visited rest (k, l)).trans hI.sub
    have hlnn : ∀ p ∈ l.m_orders, 0 ≤ (b.heap p).m_remainingQuantity :=
      fun p hpl => hI.rel.nonneg p (hnn p (hlsub.subset hpl))
    obtain ⟨hres, hframe, hmono, hnonneg, hcons, _, _⟩ :=
      level_step heq hfill hbuy (hI.rel.nonneg buy hx0) hlnn (hnd.sublist hlsub)
    refine ⟨hres, hI.rel.step hlsub hnd hxp hframe hmono hnonneg hcons,
      (Levels.ptrs_replace_sublist visited rest k l ms.level popped hq.queue).trans hI.sub, ?_⟩
    obtain ⟨new, hnew, hpw, hle, hrest⟩ := hI.order
    have hk : k ≤ (b0.heap buy).m_price := by
      have := (hI.base.identity buy).2.2.1
      rw [← this]
      exact not_lt.mp hp
    have hsorted := hI.base.levels.sorted
    simp only [List.pairwise_append, List.pairwise_cons] at hsorted
    refine ⟨new ++ ms.filledOrders.map (fun s =>
        ⟨(ms.heap buy).m_orderId, (ms.heap s).m_orderId, k,
          min ms.totalMatched (ms.heap s).m_quantity⟩), ?_, ?_, ?_, ?_⟩
    · rw [recordBuyTrades_eq, hnew, List.append_assoc]
    · rw [List.pairwise_append]
      refine ⟨hpw, ?_, ?_⟩
      · rw [List.pairwise_map]
        exact List.pairwise_of_forall (fun _ _ => le_refl _)
      · intro s hs t ht
        obtain ⟨_, _, rfl⟩ := List.mem_map.mp ht
        exact hrest s hs (k, l) (by simp)
    · intro t ht
      rcases List.mem_append.mp ht with ht | ht
      · exact hle t ht
      · obtain ⟨_, _, rfl⟩ := List.mem_map.mp ht
        exact hk
    · intro t ht y hy
      rcases List.mem_append.mp ht with ht | ht
      · exact hrest t ht y (by simp [hy])
      · obtain ⟨_, _, rfl⟩ := List.mem_map.mp ht
        exact le_of_lt (hsorted.2.1.1 y hy)
  apply matchBuyLoop_rule_eq buy (BuyX b0 buy) (BuyXPost b0 buy)
  · intro b visited hI
    have hpost := matchBuyLoop_post b0 buy hfresh [] b visited hI.base
    simp only [OrderBook.matchBuyLoop] at hpost
    have hsub := hI.sub
    simp only [List.append_nil] at hsub
    obtain ⟨new, h1, h2, h3, _⟩ := hI.order
    exact ⟨hpost, hI.rel, hsub, ⟨new, h1, h2, h3⟩, rfl⟩
  · intro b visited k l rest hI hor
    have hpost := matchBuyLoop_post b0 buy hfresh ((k, l) :: rest) b visited hI.base
    have hloop : OrderBook.matchBuyLoop buy b visited ((k, l) :: rest) =
        ({ b with m_askLevels := visited ++ (k, l) :: rest }, .ok ()) := by
      rw [OrderBook.matchBuyLoop]
      rcases hor with h | h
      · simp [h]
      · by_cases hf : (b.heap buy).isFilled = true
        · simp [hf]
        · simp [hf, h]
    rw [hloop] at hpost
    obtain ⟨new, h1, h2, h3, _⟩ := hI.order
    exact ⟨hpost, hI.rel, hI.sub, ⟨new, h1, h2, h3⟩, rfl⟩
  · intro b visited k l rest ms heap e hI _ hp heq hfill
    have := (hstep b visited k l rest ms heap _ hI hp heq hfill).1
    simp at this
  · intro b visited k l rest ms heap hI hf hp heq hfill he
    obtain ⟨_, hrel, hsub, hord⟩ := hstep b visited k l rest ms heap _ hI hp heq hfill
    obtain ⟨_, ⟨m, m', hpost⟩, _⟩ := match_facts heq
    obtain ⟨h1, h2, h3, h4, _⟩ := buy_step hfresh hI.base hpost hfill
    refine ⟨⟨hI.base.nextPtr, hI.base.orders, hI.base.symbol, hI.base.bids, h1, h2.ok_remove,
      h3.within_remove, ?_, h4⟩, hrel, (Levels.ptrs_remove_sublist _ _ _).trans hsub, hord⟩
    intro hv
    have := hI.base.filled hv
    rw [hf] at this
    exact absurd this (by simp)
  · intro b visited k l rest ms heap hI _ hp heq hfill hne
    obtain ⟨_, hrel, hsub, hord⟩ := hstep b visited k l rest ms heap _ hI hp heq hfill
    obtain ⟨_, ⟨m, m', hpost⟩, _⟩ := match_facts heq
    obtain ⟨h1, h2, h3, h4, h5⟩ := buy_step hfresh hI.base hpost hfill
    refine ⟨⟨hI.base.nextPtr, hI.base.orders, hI.base.symbol, hI.base.bids, h1, ?_, ?_,
      fun _ => h5 rfl hne, h4⟩, hrel, ?_, hord⟩
    · simpa using h2
    · simpa using h3
    · simpa using hsub


/-- One iteration of the loop of `matchSellOrder` on the facts of `SellInv`. -/
theorem sell_step {b0 : OrderBook} {sell : OrderPtr}
    (hfresh : ∀ y ∈ b0.m_bidLevels, sell ∉ y.2.m_orders)
    {b : OrderBook} {lower passed : Levels} {k : Price} {l : PriceLevel} {ms : MatchState}
    {m m' : Nat} {heap : Heap} {res : Except Error Unit}
    (hI : SellInv b0 sell b ((k, l) :: lower) passed)
    (hpost : MatchPost (b.heap sell).m_remainingQuantity ⟨b.heap, l, 0, []⟩ ms m m')
    (hfill : Heap.fill ms.heap sell ms.totalMatched = (heap, res)) :
    Heap.SameIdentity b0.heap heap ∧
    LevelsOk heap b.nextPtr Side.BUY (lower.reverse ++ (k, ms.level) :: passed) ∧
    Levels.Within (lower.reverse ++ (k, ms.level) :: passed) b0.m_bidLevels ∧
    (∃ new, recordSellTrades ms.heap b.m_trades sell k ms.totalMatched ms.filledOrders =
        b0.m_trades ++ new ∧
      ∀ t ∈ new, ∃ y ∈ b0.m_bidLevels, ∃ p ∈ y.2.m_orders, t.price = y.1 ∧
        t.sellOrderId = (b0.heap sell).m_orderId ∧ t.buyOrderId = (b0.heap p).m_orderId) ∧
    (res = .ok () → ms.level.m_orders ≠ [] → (heap sell).isFilled = true) := by
  have hlev : LevelsOk b.heap b.nextPtr Side.BUY (lower.reverse ++ (k, l) :: passed) := by
    simpa using hI.levels
  have hwith : Levels.Within (lower.reverse ++ (k, l) :: passed) b0.m_bidLevels := by
    simpa using hI.within
  have hsub : ∀ p ∈ ms.level.m_orders, p ∈ l.m_orders := by
    intro p hp
    rw [hpost.orders] at hp
    exact List.mem_of_mem_drop hp
  have hid : Heap.SameIdentity b0.heap heap := by
    have h3 := Heap.fill_identity ms.heap sell ms.totalMatched
    rw [hfill] at h3
    exact (hI.identity.trans hpost.identity).trans h3
  have hid2 : Heap.SameIdentity b.heap heap := by
    have h3 := Heap.fill_identity ms.heap sell ms.totalMatched
    rw [hfill] at h3
    exact hpost.identity.trans h3
  obtain ⟨l0, hl0, hl0sub⟩ := hwith (k, l) (by simp)
  have hsell : sell ∉ l.m_orders := fun hb => hfresh _ hl0 (hl0sub sell hb)
  refine ⟨hid, (hlev.heap_frame hid2).ok_replace hpost.level_price hsub,
    hwith.within_replace hsub, ?_, ?_⟩
  · obtain ⟨new, hnew, hall⟩ := hI.trades
    refine ⟨new ++ ms.filledOrders.map (fun s =>
        ⟨(ms.heap s).m_orderId, (ms.heap sell).m_orderId, k,
          min ms.totalMatched (ms.heap s).m_quantity⟩), ?_, ?_⟩
    · rw [recordSellTrades_eq, hnew, List.append_assoc]
    · intro t ht
      rcases List.mem_append.mp ht with ht | ht
      · exact hall t ht
      · obtain ⟨s, hs, rfl⟩ := List.mem_map.mp ht
        have hs' : s ∈ l.m_orders := by
          rw [hpost.filled] at hs
          simp only [List.nil_append] at hs
          exact List.mem_of_mem_take hs
        refine ⟨(k, l0), hl0, s, hl0sub s hs', rfl, ?_, ?_⟩
        · exact ((hI.identity.trans hpost.identity) sell).1
        · exact ((hI.identity.trans hpost.identity) s).1
  · intro hres hne
    subst hres
    apply Heap.fill_ok_filled hfill
    rcases hpost.exit with h | h
    · exact absurd h hne
    · have hu := hpost.untouched sell (fun hb => hsell (List.mem_of_mem_take hb))
      rw [hu]
      exact h

/-- The loop of `matchSellOrder`, with quantities. -/
theorem matchSellLoop_x (b0 : OrderBook) (sell : OrderPtr)
    (hfresh : ∀ y ∈ b0.m_bidLevels, sell ∉ y.2.m_orders)
    (hnd : (Levels.ptrs b0.m_bidLevels).Nodup)
    (hnn : ∀ p ∈ Levels.ptrs b0.m_bidLevels, 0 ≤ (b0.heap p).m_remainingQuantity)
    (hx0 : 0 ≤ (b0.heap sell).m_remainingQuantity) :
    ∀ fuel b fromIt passed, SellX b0 sell b fromIt passed →
      SellXPost b0 sell (OrderBook.matchSellLoop sell fuel b fromIt passed).1
        (OrderBook.matchSellLoop sell fuel b fromIt passed).2 := by
  have hxp : sell ∉ Levels.ptrs b0.m_bidLevels := by
    intro hmem
    obtain ⟨y, hy, hp⟩ := Levels.mem_ptrs.mp hmem
    exact hfresh y hy hp
  have hstep : ∀ b k l lower passed ms heap res, SellX b0 sell b ((k, l) :: lower) passed →
      ¬ (b.heap sell).m_price > k →
      l.match_ b.heap (b.heap sell).m_remainingQuantity [] = (ms, .ok ms.totalMatched) →
      Heap.fill ms.heap sell ms.totalMatched = (heap, res) →
      res = .ok () ∧
      HeapRel b0.heap sell (Levels.ptrs b0.m_bidLevels) heap ∧
      (Levels.ptrs (lower.reverse ++ (k, ms.level) :: passed)).Sublist
        (Levels.ptrs b0.m_bidLevels) ∧
      (∃ new, recordSellTrades ms.heap b.m_trades sell k ms.totalMatched ms.filledOrders =
          b0.m_trades ++ new ∧
        new.Pairwise (fun s t => t.price ≤ s.price) ∧
        (∀ t ∈ new, (b0.heap sell).m_price ≤ t.price) ∧
        ∀ t ∈ new, ∀ y ∈ lower, y.1 ≤ t.price) := by
    intro b k l lower passed ms heap res hI hp heq hfill
    obtain ⟨_, _, popped, hq⟩ := match_facts heq
    have hwith : Levels.Within (lower.reverse ++ (k, l) :: passed) b0.m_bidLevels := by
      simpa using hI.base.within
    have hIsub : (Levels.ptrs (lower.reverse ++ (k, l) :: passed)).Sublist
        (Levels.ptrs b0.m_bidLevels) := by
      simpa using hI.sub
    obtain ⟨l0, hl0, hl0sub⟩ := hwith (k, l) (by simp)
    have hsell : sell ∉ l.m_orders := fun hb => hfresh _ hl0 (hl0sub sell hb)
    have hlsub : l.m_orders.Sublist (Levels.ptrs b0.m_bidLevels) :=
      (Levels.queue_sublist_ptrs lower.reverse passed (k, l)).trans hIsub
    have hlnn : ∀ p ∈ l.m_orders, 0 ≤ (b.heap p).m_remainingQuantity :=
      fun p hpl => hI.rel.nonneg p (hnn p (hlsub.subset hpl))
    obtain ⟨hres, hframe, hmono, hnonneg, hcons, _, _⟩ :=
      level_step heq hfill hsell (hI.rel.nonneg sell hx0) hlnn (hnd.sublist hlsub)
    refine ⟨hres, hI.rel.step hlsub hnd hxp hframe hmono hnonneg hcons,
      (Levels.ptrs_replace_sublist lower.reverse passed k l ms.level popped hq.queue).trans
        hIsub, ?_⟩
    obtain ⟨new, hnew, hpw, hle, hrest⟩ := hI.order
    have hk : (b0.heap sell).m_price ≤ k := by
      have := (hI.base.identity sell).2.2.1
      rw [← this]
      exact not_lt.mp hp
    have hsorted := hI.base.levels.sorted
    simp only [List.reverse_cons, List.append_assoc, List.singleton_append,
      List.pairwise_append, List.pairwise_cons, List.mem_reverse, List.mem_cons] at hsorted
    refine ⟨new ++ ms.filledOrders.map (fun s =>
        ⟨(ms.heap s).m_orderId, (ms.heap sell).m_orderId, k,
          min ms.totalMatched (ms.heap s).m_quantity⟩), ?_, ?_, ?_, ?_⟩
    · rw [recordSellTrades_eq, hnew, List.append_assoc]
    · rw [List.pairwise_append]
      refine ⟨hpw, ?_, ?_⟩
      · rw [List.pairwise_map]
        exact List.pairwise_of_forall (fun _ _ => le_refl _)
      · intro s hs t ht
        obtain ⟨_, _, rfl⟩ := List.mem_map.mp ht
        exact hrest s hs (k, l) (by simp)
    · intro t ht
      rcases List.mem_append.mp ht with ht | ht
      · exact hle t ht
      · obtain ⟨_, _, rfl⟩ := List.mem_map.mp ht
        exact hk
    · intro t ht y hy
      rcases List.mem_append.mp ht with ht | ht
      · exact hrest t ht y (by simp [hy])
      · obtain ⟨_, _, rfl⟩ := List.mem_map.mp ht
        exact le_of_lt (hsorted.2.2 y hy (k, l) (Or.inl rfl))
  apply matchSellLoop_rule_eq sell (SellX b0 sell) (SellXPost b0 sell)
  · intro b fromIt passed hI
    have hpost := matchSellLoop_post b0 sell hfresh 0 b fromIt passed hI.base
    simp only [OrderBook.matchSellLoop] at hpost
    obtain ⟨new, h1, h2, h3, _⟩ := hI.order
    exact ⟨hpost, hI.rel, hI.sub, ⟨new, h1, h2, h3⟩, Or.inr rfl⟩
  · intro b passed hI
    have hpost := matchSellLoop_post b0 sell hfresh 1 b [] passed hI.base
    simp only [OrderBook.matchSellLoop] at hpost
    have hsub := hI.sub
    simp only [List.reverse_nil, List.nil_append] at hsub
    obtain ⟨new, h1, h2, h3, _⟩ := hI.order
    exact ⟨hpost, hI.rel, hsub, ⟨new, h1, h2, h3⟩, Or.inl rfl⟩
  · intro b k l lower passed hI hor
    have hpost := matchSellLoop_post b0 sell hfresh 1 b ((k, l) :: lower) passed hI.base
    have hloop : OrderBook.matchSellLoop sell 1 b ((k, l) :: lower) passed =
        ({ b with m_bidLevels := ((k, l) :: lower).reverse ++ passed }, .ok ()) := by
      rw [OrderBook.matchSellLoop]
      rcases hor with h | h
      · simp [h]
      · by_cases hf : (b.heap sell).isFilled = true
        · simp [hf]
        · simp [hf, h]
    rw [hloop] at hpost
    obtain ⟨new, h1, h2, h3, _⟩ := hI.order
    exact ⟨hpost, hI.rel, hI.sub, ⟨new, h1, h2, h3⟩, Or.inl rfl⟩
  · intro b k l lower passed ms heap e hI _ hp heq hfill
    have := (hstep b k l lower passed ms heap _ hI hp heq hfill).1
    simp at this
  · intro b k l lower passed ms heap hI hf hp heq hfill he
    obtain ⟨_, hrel, hsub, hord⟩ := hstep b k l lower passed ms heap _ hI hp heq hfill
    obtain ⟨_, ⟨m, m', hpost⟩, _⟩ := match_facts heq
    obtain ⟨h1, h2, h3, h4, _⟩ := sell_step hfresh hI.base hpost hfill
    have hpassed : passed = [] := by
      by_contra hv
      have := hI.base.filled hv
      rw [hf] at this
      exact absurd this (by simp)
    subst hpassed
    refine ⟨⟨hI.base.nextPtr, hI.base.orders, hI.base.symbol, hI.base.asks, h1, ?_, ?_, ?_, h4⟩,
      hrel, ?_, ?_⟩
    · simpa using h2.ok_remove
    · simpa using h3.within_remove
    · intro hv; exact absurd rfl hv
    · simpa using (Levels.ptrs_remove_sublist _ _ _).trans hsub
    · simpa using hord
  · intro b k l lower passed ms heap hI _ hp heq hfill hne
    obtain ⟨_, hrel, hsub, hord⟩ := hstep b k l lower passed ms heap _ hI hp heq hfill
    obtain ⟨_, ⟨m, m', hpost⟩, _⟩ := match_facts heq
    obtain ⟨h1, h2, h3, h4, h5⟩ := sell_step hfresh hI.base hpost hfill
    exact ⟨⟨hI.base.nextPtr, hI.base.orders, hI.base.symbol, hI.base.asks, h1, h2, h3,
      fun _ => h5 rfl hne, h4⟩, hrel, hsub, hord⟩


theorem matchOrder_x (b : OrderBook) (order : OrderPtr)
    (hbids : LevelsOk b.heap b.nextPtr Side.BUY b.m_bidLevels)
    (hasks : LevelsOk b.heap b.nextPtr Side.SELL b.m_askLevels)
    (hfresh : ∀ y ∈ b.opposite (b.heap order).m_side, order ∉ y.2.m_orders)
    (hnd : (Levels.ptrs (b.opposite (b.heap order).m_side)).Nodup)
    (hnn : ∀ p ∈ Levels.ptrs (b.opposite (b.heap order).m_side),
      0 ≤ (b.heap p).m_remainingQuantity)
    (hx0 : 0 ≤ (b.heap order).m_remainingQuantity) :
    MatchOrderX b order (b.matchOrder order).1 (b.matchOrder order).2 := by
  have hfuel : (b.matchOrder order).2 ≠ .error .outOfFuel := by
    unfold OrderBook.matchOrder
    split_ifs
    · exact matchBuyLoop_fuel order _ _ _
    · exact matchSellOrder_fuel b order
  revert hfuel
  unfold OrderBook.matchOrder
  cases hside : (b.heap order).m_side with
  | BUY =>
    rw [hside] at hfresh hnd hnn
    simp only [if_true]
    intro _
    have hI : BuyX b order b [] b.m_askLevels :=
      ⟨⟨rfl, rfl, rfl, rfl, Heap.SameIdentity.same_refl _, hasks, Levels.Within.within_refl _,
        fun h => absurd rfl h, [], by simp, fun t ht => by simp at ht⟩,
        HeapRel.start _ _ _, List.Sublist.refl _,
        [], by simp, List.Pairwise.nil, fun t ht => by simp at ht, fun t ht => by simp at ht⟩
    have hp := matchBuyLoop_x b order hfresh hnd hnn hx0 b.m_askLevels b [] hI
    refine ⟨?_, ?_, ?_, ?_, hp.ok⟩
    · simpa only [hside, OrderBook.opposite] using hp.rel
    · simpa only [hside, OrderBook.opposite] using hp.sub
    · simpa only [hside, OrderBook.own] using hp.base.bids
    · simpa only [hside] using hp.order
  | SELL =>
    rw [hside] at hfresh hnd hnn
    simp only [if_false, reduceCtorEq]
    intro hfuel
    have hI : SellX b order b b.m_bidLevels.reverse [] :=
      ⟨⟨rfl, rfl, rfl, rfl, Heap.SameIdentity.same_refl _, by simpa using hbids,
        by simpa using Levels.Within.within_refl b.m_bidLevels,
        fun h => absurd rfl h, [], by simp, fun t ht => by simp at ht⟩,
        HeapRel.start _ _ _, by simp,
        [], by simp, List.Pairwise.nil, fun t ht => by simp at ht, fun t ht => by simp at ht⟩
    have hp := matchSellLoop_x b order hfresh hnd hnn hx0
      (b.m_bidLevels.length * b.m_bidLevels.length + b.m_bidLevels.length + 1)
      b b.m_bidLevels.reverse [] hI
    refine ⟨?_, ?_, ?_, ?_, ?_⟩
    · simpa only [hside, OrderBook.opposite] using hp.rel
    · simpa only [hside, OrderBook.opposite] using hp.sub
    · simpa only [hside, OrderBook.own] using hp.base.asks
    · simpa only [hside] using hp.order
    · rcases hp.ok with h | h
      · exact h
      · exact absurd h hfuel


/-- Storing under `k` a level whose queue extends by `extra` the queue of the
level found under `k` (or the empty queue when none is found) adds `extra` to
the queued orders of an index in key order. -/
theorem Levels.ptrs_set {ls : Levels} (hs : ls.Pairwise (fun x y => x.1 < y.1)) (k : Price)
    (l l' : PriceLevel) (extra : List OrderPtr) (hl' : l'.m_orders = l.m_orders ++ extra)
    (hfind : ls.find k = some l ∨ (ls.find k = none ∧ l.m_orders = [])) :
    (Levels.ptrs (ls.set k l')).Perm (Levels.ptrs ls ++ extra) := by
  induction ls with
  | nil =>
    rcases hfind with h | ⟨_, h⟩
    · simp [Levels.find] at h
    · simp [Levels.set, Levels.ptrs, hl', h]
  | cons x rest ih =>
    obtain ⟨k', l1⟩ := x
    rw [List.pairwise_cons] at hs
    simp only [Levels.set]
    by_cases h1 : k < k'
    · simp only [h1, if_true, Levels.ptrs]
      have hnone : Levels.find ((k', l1) :: rest) k = none := by
        cases hf : Levels.find ((k', l1) :: rest) k with
        | none => rfl
        | some l2 =>
          have hm := Levels.find_some hf
          rcases List.mem_cons.mp hm with heq | hm
          · simp only [Prod.mk.injEq] at heq
            exact absurd heq.1 (ne_of_lt h1)
          · exact absurd (hs.1 _ hm) (not_lt.mpr (le_of_lt h1))
      rcases hfind with h | ⟨_, h⟩
      · rw [hnone] at h; simp at h
      · rw [hl', h, List.nil_append]
        exact List.perm_append_comm
    · by_cases h2 : k' = k
      · subst h2
        simp only [lt_irrefl, if_false, if_true, Levels.ptrs]
        have hl : l = l1 := by
          rcases hfind with h | ⟨h, _⟩
          · simpa [Levels.find] using h.symm
          · simp [Levels.find] at h
        rw [hl', hl, List.append_assoc, List.append_assoc]
        exact List.Perm.append_left _ List.perm_append_comm
      · simp only [h1, h2, if_false, Levels.ptrs]
        have hfind' : Levels.find rest k = some l ∨ (Levels.find rest k = none ∧ l.m_orders = []) := by
          simpa [Levels.find, h2] using hfind
        rw [List.append_assoc]
        exact List.Perm.append_left _ (ih hs.2 hfind')

/-- The orders queued after one branch of `addToAppropriateLevel`: the same, or
the same and the added order. -/
theorem Levels.addOrder_ptrs {ls : Levels} (hs : ls.Pairwise (fun x y => x.1 < y.1))
    (h : Heap) (order : OrderPtr) :
    (Levels.ptrs (ls.addOrder h order).1).Perm (Levels.ptrs ls) ∨
    ((ls.addOrder h order).2 = .ok () ∧
      (Levels.ptrs (ls.addOrder h order).1).Perm (Levels.ptrs ls ++ [order])) := by
  have hlevel : ∀ l : PriceLevel,
      ((l.addOrder h order).2 ≠ .ok () ∧ (l.addOrder h order).1.m_orders = l.m_orders ++ []) ∨
      ((l.addOrder h order).2 = .ok () ∧
        (l.addOrder h order).1.m_orders = l.m_orders ++ [order]) := by
    intro l
    unfold PriceLevel.addOrder
    split_ifs
    · left; simp
    · right; simp
  rcases Levels.addOrder_eq ls h order with heq | ⟨l, heq, hl⟩
  · left; rw [heq]
  · have hfind : ls.find (h order).m_price = some l ∨
        (ls.find (h order).m_price = none ∧ l.m_orders = []) := by
      rcases hl with ⟨rfl, hn⟩ | hl
      · exact Or.inr ⟨hn, rfl⟩
      · exact Or.inl hl
    rw [heq]
    rcases hlevel l with ⟨_, h2⟩ | ⟨h1, h2⟩
    · left
      simpa using Levels.ptrs_set hs (h order).m_price l _ [] h2 hfind
    · right
      exact ⟨h1, Levels.ptrs_set hs (h order).m_price l _ [order] h2 hfind⟩

theorem Levels.addOrder_pos {ls : Levels} (hpos : ∀ y ∈ ls, 0 < y.1) (h : Heap)
    (order : OrderPtr) : ∀ y ∈ (ls.addOrder h order).1, 0 < y.1 := by
  unfold Levels.addOrder
  cases hfind : ls.find (h order).m_price with
  | none =>
    simp only []
    cases hnew : PriceLevel.new (h order).m_price with
    | error e => exact hpos
    | ok level =>
      intro y hy
      unfold PriceLevel.new at hnew
      split_ifs at hnew with hle
      rcases Levels.mem_set hy with rfl | hy
      · exact not_le.mp hle
      · exact hpos y hy
  | some level =>
    intro y hy
    rcases Levels.mem_set hy with rfl | hy
    · exact hpos ((h order).m_price, level) (Levels.find_some hfind)
    · exact hpos y hy

/-- With a positive order price and levels stored under their own prices, one
branch of `addToAppropriateLevel` does not throw. -/
theorem Levels.addOrder_succeeds {h : Heap} {n : OrderPtr} {s : Side} {ls : Levels}
    (ok : LevelsOk h n s ls) (order : OrderPtr) (hpos : 0 < (h order).m_price) :
    (ls.addOrder h order).2 = .ok () := by
  have hlevel : ∀ l : PriceLevel, l.m_price = (h order).m_price →
      (l.addOrder h order).2 = .ok () := by
    intro l hl
    unfold PriceLevel.addOrder
    rw [hl, sub_self, abs_zero, if_neg (by decide)]
  unfold Levels.addOrder
  cases hfind : ls.find (h order).m_price with
  | none =>
    simp only [PriceLevel.new, if_neg (not_le.mpr hpos)]
    exact hlevel _ rfl
  | some level =>
    exact hlevel level (ok.level_price _ (Levels.find_some hfind))


theorem addToAppropriateLevel_inv2 (r : OrderBook) (order : OrderPtr) (hinv : Inv r)
    (h2 : Inv2 r) (hfb : order ∉ Levels.ptrs r.m_bidLevels)
    (hfa : order ∉ Levels.ptrs r.m_askLevels) :
    Inv2 (r.addToAppropriateLevel order).1 := by
  have key : ∀ ls : Levels, ls.Pairwise (fun x y => x.1 < y.1) → (Levels.ptrs ls).Nodup →
      order ∉ Levels.ptrs ls → (Levels.ptrs (ls.addOrder r.heap order).1).Nodup := by
    intro ls hs hnd hf
    rcases Levels.addOrder_ptrs hs r.heap order with h | ⟨_, h⟩
    · exact h.nodup_iff.mpr hnd
    · apply h.nodup_iff.mpr
      rw [List.nodup_append]
      exact ⟨hnd, by simp, by simpa using hf⟩
  unfold OrderBook.addToAppropriateLevel
  split_ifs
  · exact ⟨Levels.addOrder_pos h2.bid_pos _ _, h2.ask_pos,
      key _ hinv.bids.sorted h2.bid_nodup hfb, h2.ask_nodup, h2.nonneg⟩
  · exact ⟨h2.bid_pos, Levels.addOrder_pos h2.ask_pos _ _, h2.bid_nodup,
      key _ hinv.asks.sorted h2.ask_nodup hfa, h2.nonneg⟩

/-- With a positive order price, `addToAppropriateLevel` does not throw on a
book that satisfies the invariant. -/
theorem addToAppropriateLevel_succeeds (r : OrderBook) (order : OrderPtr) (hinv : Inv r)
    (hpos : 0 < (r.heap order).m_price) : (r.addToAppropriateLevel order).2 = .ok () := by
  unfold OrderBook.addToAppropriateLevel
  split_ifs
  · exact Levels.addOrder_succeeds hinv.bids order hpos
  · exact Levels.addOrder_succeeds hinv.asks order hpos


/-- The quantitative guarantees of `matchOrder` on a book satisfying both
invariants, whatever the registry holds, and the second invariant after it. -/
theorem matchOrder_inv2 (b : OrderBook) (order : OrderPtr)
    (hbids : LevelsOk b.heap b.nextPtr Side.BUY b.m_bidLevels)
    (hasks : LevelsOk b.heap b.nextPtr Side.SELL b.m_askLevels)
    (h2 : Inv2 b) (hlt : order < b.nextPtr)
    (hfb : order ∉ Levels.ptrs b.m_bidLevels) (hfa : order ∉ Levels.ptrs b.m_askLevels) :
    MatchOrderX b order (b.matchOrder order).1 (b.matchOrder order).2 ∧
    MatchOrderPost b order (b.matchOrder order).1 (b.matchOrder order).2 ∧
    Inv2 (b.matchOrder order).1 ∧
    Levels.ptrs (b.matchOrder order).1.m_bidLevels ⊆ Levels.ptrs b.m_bidLevels ∧
    Levels.ptrs (b.matchOrder order).1.m_askLevels ⊆ Levels.ptrs b.m_askLevels := by
  have hfresh : ∀ y ∈ b.opposite (b.heap order).m_side, order ∉ y.2.m_orders := by
    intro y hy hmem
    cases hs : (b.heap order).m_side with
    | BUY => rw [hs] at hy; exact hfa (Levels.mem_ptrs.mpr ⟨y, hy, hmem⟩)
    | SELL => rw [hs] at hy; exact hfb (Levels.mem_ptrs.mpr ⟨y, hy, hmem⟩)
  have hnd : (Levels.ptrs (b.opposite (b.heap order).m_side)).Nodup := by
    cases (b.heap order).m_side with
    | BUY => exact h2.ask_nodup
    | SELL => exact h2.bid_nodup
  have hnn : ∀ p ∈ Levels.ptrs (b.opposite (b.heap order).m_side),
      0 ≤ (b.heap p).m_remainingQuantity := by
    intro p hp
    apply h2.nonneg
    obtain ⟨y, hy, hmem⟩ := Levels.mem_ptrs.mp hp
    cases hs : (b.heap order).m_side with
    | BUY => rw [hs] at hy; exact hasks.ptr_lt y hy p hmem
    | SELL => rw [hs] at hy; exact hbids.ptr_lt y hy p hmem
  have hx := matchOrder_x b order hbids hasks hfresh hnd hnn (h2.nonneg order hlt)
  have hp := matchOrder_post b order hbids hasks hfresh
  have hsubs : Levels.ptrs (b.matchOrder order).1.m_bidLevels ⊆ Levels.ptrs b.m_bidLevels ∧
      Levels.ptrs (b.matchOrder order).1.m_askLevels ⊆ Levels.ptrs b.m_askLevels := by
    have hsub := hx.sub
    have hown := hx.own
    cases hs : (b.heap order).m_side with
    | BUY =>
      rw [hs] at hsub hown
      simp only [OrderBook.opposite, OrderBook.own] at hsub hown
      rw [hown]
      exact ⟨fun _ h => h, hsub.subset⟩
    | SELL =>
      rw [hs] at hsub hown
      simp only [OrderBook.opposite, OrderBook.own] at hsub hown
      rw [hown]
      exact ⟨hsub.subset, fun _ h => h⟩
  refine ⟨hx, hp, ⟨?_, ?_, ?_, ?_, ?_⟩, hsubs⟩
  · intro y hy
    obtain ⟨l0, hl0, _⟩ := hp.bids_within y hy
    exact h2.bid_pos (y.1, l0) hl0
  · intro y hy
    obtain ⟨l0, hl0, _⟩ := hp.asks_within y hy
    exact h2.ask_pos (y.1, l0) hl0
  · have hsub := hx.sub
    have hown := hx.own
    cases hs : (b.heap order).m_side with
    | BUY =>
      rw [hs] at hown
      simp only [OrderBook.own] at hown
      rw [hown]; exact h2.bid_nodup
    | SELL =>
      rw [hs] at hsub
      simp only [OrderBook.opposite] at hsub
      exact h2.bid_nodup.sublist hsub
  · have hsub := hx.sub
    have hown := hx.own
    cases hs : (b.heap order).m_side with
    | BUY =>
      rw [hs] at hsub
      simp only [OrderBook.opposite] at hsub
      exact h2.ask_nodup.sublist hsub
    | SELL =>
      rw [hs] at hown
      simp only [OrderBook.own] at hown
      rw [hown]; exact h2.ask_nodup
  · intro p hlp
    rw [hp.nextPtr] at hlp
    exact hx.rel.nonneg p (h2.nonneg p hlp)


/-- The quantitative guarantees of `addOrder` on a book satisfying both
invariants, for an allocated order queued nowhere; and the call does not throw
when the order is unfilled, its identifier is new and its price is positive. -/
theorem addOrder_x (b : OrderBook) (order : OrderPtr) (hinv : Inv b) (h2 : Inv2 b)
    (hlt : order < b.nextPtr)
    (hfb : order ∉ Levels.ptrs b.m_bidLevels) (hfa : order ∉ Levels.ptrs b.m_askLevels) :
    AddOrderX b order (b.addOrder order).1 ∧
    ((b.heap order).isFilled = false → b.m_orders.find (b.heap order).m_orderId = none →
      0 < (b.heap order).m_price → (b.addOrder order).2 = .ok ()) := by
  have hsame : AddOrderX b order b := by
    refine ⟨h2, rfl, Heap.SameIdentity.same_refl _, HeapRel.start _ _ _, [], by simp, ?_⟩
    cases (b.heap order).m_side <;> simp
  rcases addOrder_cases b order with ⟨hf, h⟩ | ⟨hnf, hsome, h⟩ | ⟨hnf, hnone, h⟩
  · rw [h]
    exact ⟨hsame, fun hnf => by rw [hf] at hnf; cases hnf⟩
  · rw [h]
    exact ⟨hsame, fun _ hnone => by rw [hnone] at hsome; cases hsome⟩
  · have hfresh : ∀ y ∈ b.opposite (b.heap order).m_side, order ∉ y.2.m_orders := by
      intro y hy hmem
      cases hs : (b.heap order).m_side with
      | BUY => rw [hs] at hy; exact hfa (Levels.mem_ptrs.mpr ⟨y, hy, hmem⟩)
      | SELL => rw [hs] at hy; exact hfb (Levels.mem_ptrs.mpr ⟨y, hy, hmem⟩)
    obtain ⟨hinv1, _⟩ := matchOrder_inv b order hinv hlt hnone hfresh
    obtain ⟨hx, hp, h2', hsb, hsa⟩ := matchOrder_inv2
      { b with m_orders := b.m_orders.set (b.heap order).m_orderId order } order
      hinv.bids hinv.asks ⟨h2.bid_pos, h2.ask_pos, h2.bid_nodup, h2.ask_nodup, h2.nonneg⟩
      hlt hfb hfa
    have hmatched : AddOrderX b order (OrderBook.matchOrder
        { b with m_orders := b.m_orders.set (b.heap order).m_orderId order } order).1 :=
      ⟨h2', hp.nextPtr, hp.identity, hx.rel, hx.order⟩
    rcases h with ⟨e, he, h⟩ | ⟨hok, ⟨hfl, h⟩ | ⟨hnfl, h⟩⟩
    · rw [hx.ok] at he; cases he
    · rw [h]
      exact ⟨hmatched, fun _ _ _ => rfl⟩
    · rw [h]
      obtain ⟨hh, hn, _, ht, _⟩ := addToAppropriateLevel_frame (OrderBook.matchOrder
        { b with m_orders := b.m_orders.set (b.heap order).m_orderId order } order).1 order
      refine ⟨⟨?_, ?_, ?_, ?_, ?_⟩, ?_⟩
      · exact addToAppropriateLevel_inv2 _ order hinv1 h2' (fun hm => hfb (hsb hm))
          (fun hm => hfa (hsa hm))
      · rw [hn]; exact hmatched.nextPtr
      · rw [hh]; exact hmatched.identity
      · rw [hh]; exact hmatched.rel
      · rw [ht]; exact hmatched.order
      · intro _ _ hpos
        apply addToAppropriateLevel_succeeds _ order hinv1
        rw [(hp.identity order).2.2.1]
        exact hpos


theorem alloc_inv2 (b : OrderBook) (o : Order) (h2 : Inv2 b)
    (h0 : 0 ≤ o.m_remainingQuantity) : Inv2 (b.alloc o).1 where
  bid_pos := h2.bid_pos
  ask_pos := h2.ask_pos
  bid_nodup := h2.bid_nodup
  ask_nodup := h2.ask_nodup
  nonneg := fun p hp => by
    show 0 ≤ (Function.update b.heap b.nextPtr o p).m_remainingQuantity
    by_cases hpn : p = b.nextPtr
    · rw [hpn, Function.update_same]; exact h0
    · rw [Function.update_noteq hpn]
      exact h2.nonneg p (lt_of_le_of_ne (Nat.lt_succ_iff.mp hp) hpn)

/-- The quantitative guarantees of a caller's `addOrder` on a newly made order
with a non-negative remaining quantity; the call does not throw when the
remaining quantity and the price are positive and the identifier is new. -/
theorem submit_x (b : OrderBook) (o : Order) (hinv : Inv b) (h2 : Inv2 b)
    (h0 : 0 ≤ o.m_remainingQuantity) :
    AddOrderX (b.alloc o).1 b.nextPtr (b.submit o).1 ∧
    (0 < o.m_remainingQuantity → b.m_orders.find o.m_orderId = none → 0 < o.m_price →
      (b.submit o).2 = .ok ()) := by
  have hbid : b.nextPtr ∉ Levels.ptrs b.m_bidLevels := by
    intro hm
    obtain ⟨y, hy, hmem⟩ := Levels.mem_ptrs.mp hm
    exact lt_irrefl _ (hinv.bids.ptr_lt y hy _ hmem)
  have hask : b.nextPtr ∉ Levels.ptrs b.m_askLevels := by
    intro hm
    obtain ⟨y, hy, hmem⟩ := Levels.mem_ptrs.mp hm
    exact lt_irrefl _ (hinv.asks.ptr_lt y hy _ hmem)
  have hheap : (b.alloc o).1.heap b.nextPtr = o := by
    show Function.update b.heap b.nextPtr o b.nextPtr = o
    rw [Function.update_same]
  obtain ⟨hx, hok⟩ := addOrder_x (b.alloc o).1 b.nextPtr (alloc_inv b o hinv)
    (alloc_inv2 b o h2 h0) (Nat.lt_succ_self _) hbid hask
  refine ⟨hx, fun hpos hnone hprice => ?_⟩
  rw [hheap] at hok
  apply hok _ hnone hprice
  unfold Order.isFilled
  simp only [beq_eq_false_iff_ne, ne_eq]
  exact ne_of_gt hpos

/-- The method `cancelOrder` never throws on a book whose allocated orders have
non-negative remaining quantities; it keeps the second invariant and the
identity of every order, and raises no remaining quantity. -/
theorem cancelOrder_x (b : OrderBook) (orderId : OrderId) (hinv : Inv b) (h2 : Inv2 b) :
    Inv2 (b.cancelOrder orderId).1 ∧ (b.cancelOrder orderId).1.nextPtr = b.nextPtr ∧
    Heap.SameIdentity b.heap (b.cancelOrder orderId).1.heap ∧
    (∀ p, ((b.cancelOrder orderId).1.heap p).m_remainingQuantity ≤
      (b.heap p).m_remainingQuantity) ∧
    ((b.cancelOrder orderId).2 = .ok true ∨ (b.cancelOrder orderId).2 = .ok false) := by
  cases hfind : b.m_orders.find orderId with
  | none =>
    rw [cancelOrder_none hfind]
    exact ⟨h2, rfl, Heap.SameIdentity.same_refl _, fun _ => le_refl _, Or.inr rfl⟩
  | some order =>
    rw [cancelOrder_some hfind]
    have hlt : order < b.nextPtr := (hinv.reg_ptr _ (Registry.find_some_mem hfind)).1
    have hle : ∀ p, (Function.update b.heap order
        { b.heap order with m_remainingQuantity := 0 } p).m_remainingQuantity ≤
        (b.heap p).m_remainingQuantity := by
      intro p
      by_cases hp : p = order
      · rw [hp, Function.update_same]; exact h2.nonneg order hlt
      · rw [Function.update_noteq hp]
    have hid : Heap.SameIdentity b.heap (Function.update b.heap order
        { b.heap order with m_remainingQuantity := 0 }) := by
      intro p
      by_cases hpo : p = order
      · rw [hpo, Function.update_same]; exact ⟨rfl, rfl, rfl, rfl⟩
      · rw [Function.update_noteq hpo]; exact ⟨rfl, rfl, rfl, rfl⟩
    refine ⟨⟨h2.bid_pos, h2.ask_pos, h2.bid_nodup, h2.ask_nodup, ?_⟩, rfl, hid, hle, Or.inl rfl⟩
    · intro p hp
      show 0 ≤ (Function.update b.heap order
        { b.heap order with m_remainingQuantity := 0 } p).m_remainingQuantity
      by_cases hpo : p = order
      · rw [hpo, Function.update_same]
      · rw [Function.update_noteq hpo]; exact h2.nonneg p hp

theorem new_inv2 {symbol : String} {b : OrderBook} (h : OrderBook.new symbol = .ok b) :
    Inv2 b := by
  unfold OrderBook.new at h
  split_ifs at h
  simp only [Except.ok.injEq] at h
  subst h
  exact ⟨fun y hy => by simp at hy, fun y hy => by simp at hy, by simp [Levels.ptrs],
    by simp [Levels.ptrs], fun p hp => by simp at hp⟩

/-- Every reachable book satisfies the second invariant. -/
theorem reachable_inv2 {b : OrderBook} (hr : Reachable b) : Inv2 b := by
  induction hr with
  | init symbol b h => exact new_inv2 h
  | submit b o hr hw ih => exact (submit_x b o (reachable_inv hr) ih hw.2.2.2).1.inv2
  | cancel b orderId hr ih => exact (cancelOrder_x b orderId (reachable_inv hr) ih).1

/-- A book reached by submitting orders with `0 < remaining ≤ original` is
reachable in the sense of the invariants: both invariants hold and every
allocated order has `remaining ≤ original`. -/
theorem reachableBounded_inv {b : OrderBook} (hr : ReachableBounded b) :
    Inv b ∧ Inv2 b ∧ b.Bounded := by
  induction hr with
  | init symbol b h =>
    refine ⟨new_inv h, new_inv2 h, ?_⟩
    unfold OrderBook.new at h
    split_ifs at h
    simp only [Except.ok.injEq] at h
    subst h
    intro p hp
    simp at hp
  | submit b o _ hpos hle ih =>
    obtain ⟨hinv, h2, hb⟩ := ih
    have hx := (submit_x b o hinv h2 (le_of_lt hpos)).1
    refine ⟨submit_inv b o hinv, hx.inv2, ?_⟩
    intro p hp
    rw [hx.nextPtr] at hp
    have hmono := hx.rel.mono p
    have hq := (hx.identity p).2.2.2
    rw [hq]
    refine le_trans hmono ?_
    show (Function.update b.heap b.nextPtr o p).m_remainingQuantity ≤
      (Function.update b.heap b.nextPtr o p).m_quantity
    by_cases hpn : p = b.nextPtr
    · rw [hpn, Function.update_same]; exact hle
    · rw [Function.update_noteq hpn]
      exact hb p (lt_of_le_of_ne (Nat.lt_succ_iff.mp hp) hpn)
  | cancel b orderId _ ih =>
    obtain ⟨hinv, h2, hb⟩ := ih
    obtain ⟨h2', hn, hid, hmono, _⟩ := cancelOrder_x b orderId hinv h2
    refine ⟨cancelOrder_inv b orderId hinv, h2', ?_⟩
    intro p hp
    rw [hn] at hp
    rw [(hid p).2.2.2]
    exact le_trans (hmono p) (hb p hp)


/-- C11. Constructing an `Order` throws exactly when the price is not positive,
the quantity is not positive or the identifier is empty; when it succeeds the
remaining quantity equals the original quantity, which is the given quantity,
and identifier, side and price are the ones given. -/
theorem order_new_spec (orderId : OrderId) (side : Side) (price : Price)
    (quantity : Quantity) :
    ((∃ e, Order.new orderId side price quantity = .error e) ↔
      (price ≤ 0 ∨ quantity ≤ 0 ∨ orderId = "")) ∧
    ∀ o, Order.new orderId side price quantity = .ok o →
      o.m_remainingQuantity = o.m_quantity ∧ o.m_quantity = quantity ∧
      o.m_orderId = orderId ∧ o.m_side = side ∧ o.m_price = price := by
  unfold Order.new
  rw [← String.isEmpty_iff]
  constructor
  · split_ifs with h1 h2 h3
    · simp [h1]
    · simp [h2]
    · simp [h3]
    · simp [h1, h2, h3]
  · intro o ho
    split_ifs at ho
    simp only [Except.ok.injEq] at ho
    subst ho
    exact ⟨rfl, rfl, rfl, rfl, rfl⟩

/-- C11 at the two constructions of `main.cpp`: `BAD_001` with price `-10.0`
throws, `BUY_001` at `50.0 x 1000` is built with remaining quantity 1000. -/
theorem order_new_spec_witness :
    (∃ e, Order.new "BAD_001" Side.BUY (-10000) 100 = .error e) ∧
      Order.new "BUY_001" Side.BUY 50000 1000 = .ok basicOrder ∧
      basicOrder.m_remainingQuantity = basicOrder.m_quantity :=
  ⟨(order_new_spec "BAD_001" Side.BUY (-10000) 100).1.mpr (Or.inl (by decide)),
    by decide,
    ((order_new_spec "BUY_001" Side.BUY 50000 1000).2 basicOrder (by decide)).1⟩

/-- C12. `fill(q)` with `q` above the remaining quantity throws and leaves the
order as it was; with `0 < q ≤ remaining` it succeeds, the remaining quantity
becomes the old one minus `q`, and identifier, side, price and original quantity
are unchanged; `isFilled()` holds exactly when the remaining quantity is 0. -/
theorem order_fill_spec (o : Order) (q : Quantity) :
    (o.m_remainingQuantity < q → o.fill q = (o, .error .overfill)) ∧
    (0 < q → q ≤ o.m_remainingQuantity →
      (o.fill q).2 = .ok () ∧
      (o.fill q).1.m_remainingQuantity = o.m_remainingQuantity - q ∧
      (o.fill q).1.m_orderId = o.m_orderId ∧ (o.fill q).1.m_side = o.m_side ∧
      (o.fill q).1.m_price = o.m_price ∧ (o.fill q).1.m_quantity = o.m_quantity) ∧
    (o.isFilled = true ↔ o.m_remainingQuantity = 0) := by
  refine ⟨?_, ?_, ?_⟩
  · intro h
    unfold Order.fill
    rw [if_pos h]
  · intro _ h
    rw [Order.fill_le o q h]
    exact ⟨rfl, rfl, rfl, rfl, rfl, rfl⟩
  · simp [Order.isFilled]

/-- C12 at the calls of `demonstrateBasicOrders`: `fill(300)` on `BUY_001`
leaves 700, and a `fill(1001)` throws. -/
theorem order_fill_spec_witness :
    (basicOrder.fill 300).2 = .ok () ∧
      (basicOrder.fill 300).1.m_remainingQuantity = 700 ∧
      basicOrder.fill 1001 = (basicOrder, .error .overfill) :=
  ⟨((order_fill_spec basicOrder 300).2.1 (by decide) (by decide)).1,
    ((order_fill_spec basicOrder 300).2.1 (by decide) (by decide)).2.1,
    (order_fill_spec basicOrder 1001).1 (by decide)⟩

/-- C13, the code at the failing input.  `fill(-5)` on the order `BUY_001`
(`1000` of `1000` remaining) passes the only check, `quantity >
m_remainingQuantity`, and succeeds: the remaining quantity becomes 1005, above
what it was and above the original quantity. -/
theorem negative_fill_raises_remaining :
    Order.new "BUY_001" Side.BUY 50000 1000 = .ok basicOrder ∧
    (basicOrder.fill (-5)).2 = .ok () ∧
    (basicOrder.fill (-5)).1.m_remainingQuantity = 1005 ∧
    basicOrder.m_remainingQuantity = 1000 ∧
    basicOrder.m_quantity = 1000 :=
  ⟨by decide, by decide, by decide, by decide, by decide⟩

/-- C14, counterexample.  `PriceLevel::addOrder` accepts the same order twice.
The level `twiceLevel` so built has the queue `[0, 0]` and the aggregate 200,
which is the sum of its members' remaining quantities (100 each, both `≥ 0`).
`match(150)` does not return `min(150, 200) = 150`: the first entry is filled by
100 and popped, the second entry is the same object, now at 0, and is filled by
0 and popped, so the call returns 100; and the aggregate left, 100, is not the
sum over the orders still queued, of which there is none. -/
theorem match_duplicate_member :
    PriceLevel.new 10000 = .ok ⟨10000, [], 0⟩ ∧
    (PriceLevel.addOrder ⟨10000, [], 0⟩ twoOrderHeap 0).2 = .ok () ∧
    ((PriceLevel.addOrder ⟨10000, [], 0⟩ twoOrderHeap 0).1.addOrder twoOrderHeap 0).2 =
      .ok () ∧
    twiceLevel.m_orders = [0, 0] ∧
    twiceLevel.m_totalQuantity = 200 ∧
    twiceLevel.m_totalQuantity = remSum twoOrderHeap twiceLevel.m_orders ∧
    (∀ p ∈ twiceLevel.m_orders, 0 ≤ (twoOrderHeap p).m_remainingQuantity) ∧
    min 150 (remSum twoOrderHeap twiceLevel.m_orders) = 150 ∧
    (twiceLevel.match_ twoOrderHeap 150 []).2 = .ok 100 ∧
    (twiceLevel.match_ twoOrderHeap 150 []).1.level.m_orders = [] ∧
    (twiceLevel.match_ twoOrderHeap 150 []).1.level.m_totalQuantity = 100 :=
  ⟨by decide, by decide, by decide, by decide, by decide, by decide, by decide, by decide,
    by decide, by decide, by decide⟩

/-- C14, amended.  For a level that holds each order once, whose orders have remaining
quantities `≥ 0` and whose aggregate is their sum, and a request `≥ 0`,
`PriceLevel::match` returns `min(requested, sum)`.  Every queued order `p`, with
`pre` the orders queued before it, is filled by `min(its remaining, quantity
still needed)`, the quantity still needed being `requested` minus the remaining
quantities of `pre`, or 0 once the request is met.  The queue loses a leading
segment `popped`, which is exactly the touched orders that are filled
afterwards.  The aggregate drops by the returned amount and equals the sum of
the remaining quantities of the orders still queued. -/
theorem match_amounts (l : PriceLevel) (heap : Heap) (requestedQuantity : Quantity)
    (filledOrders : List OrderPtr) (hnd : l.m_orders.Nodup)
    (hnn : ∀ p ∈ l.m_orders, 0 ≤ (heap p).m_remainingQuantity)
    (hagg : l.m_totalQuantity = remSum heap l.m_orders) (hreq : 0 ≤ requestedQuantity) :
    ∃ (r : MatchState) (popped touched : List OrderPtr),
      l.match_ heap requestedQuantity filledOrders =
        (r, .ok (min requestedQuantity (remSum heap l.m_orders))) ∧
      (∀ pre p post, l.m_orders = pre ++ p :: post →
        (r.heap p).m_remainingQuantity =
          (heap p).m_remainingQuantity -
            min (heap p).m_remainingQuantity (max 0 (requestedQuantity - remSum heap pre))) ∧
      popped ++ r.level.m_orders = l.m_orders ∧
      r.filledOrders = filledOrders ++ touched ∧
      popped = touched.filter (fun p => (r.heap p).isFilled) ∧
      r.level.m_totalQuantity =
        l.m_totalQuantity - min requestedQuantity (remSum heap l.m_orders) ∧
      r.level.m_totalQuantity = remSum r.heap r.level.m_orders := by
  obtain ⟨r, popped, hr, hq⟩ := match_quant l heap requestedQuantity filledOrders
  obtain ⟨he1, he2⟩ := hq.exact hnd hnn hreq
  have hcons := hq.conserve hnd
  have htot := hq.total
  have hqueue := hq.queue
  simp only [zero_add, sub_zero] at he1 he2 hcons htot hqueue
  have hpz : ∀ p ∈ popped, (r.heap p).isFilled = true := by
    intro p hp
    simp [Order.isFilled, hq.popped_zero p hp]
  have hfilter : popped.filter (fun p => (r.heap p).isFilled) = popped :=
    List.filter_eq_self.mpr hpz
  obtain ⟨touched, ht1, ht2⟩ : ∃ touched, r.filledOrders = filledOrders ++ touched ∧
      popped = touched.filter (fun p => (r.heap p).isFilled) := by
    rcases hq.touched with ht | ⟨x, rest, _, h2, h3⟩
    · exact ⟨popped, ht, hfilter.symm⟩
    · refine ⟨popped ++ [x], by simpa using h2, ?_⟩
      have hx : (r.heap x).isFilled = false := by
        simpa [Order.isFilled] using h3
      rw [List.filter_append, hfilter]
      simp [List.filter_cons, hx]
  refine ⟨r, popped, touched, by rw [hr, he1], he2, hqueue, ht1, ht2, ?_, ?_⟩
  · rw [htot, he1]
  · rw [htot, hagg]
    have hsplit : remSum r.heap l.m_orders = remSum r.heap r.level.m_orders := by
      rw [← hqueue, remSum_append, remSum_zero hq.popped_zero, zero_add]
    linarith

/-- C14, amended, at a level of two orders of 100 and a request of 150: the call returns
150 and leaves an aggregate of 50. -/
theorem match_amounts_witness :
    twoOrderLevel.m_orders.Nodup ∧
      twoOrderLevel.m_totalQuantity = remSum twoOrderHeap twoOrderLevel.m_orders ∧
      ∃ (r : MatchState) (popped touched : List OrderPtr),
        twoOrderLevel.match_ twoOrderHeap 150 [] =
          (r, .ok (min 150 (remSum twoOrderHeap twoOrderLevel.m_orders))) ∧
        popped ++ r.level.m_orders = twoOrderLevel.m_orders ∧
        r.filledOrders = [] ++ touched ∧
        popped = touched.filter (fun p => (r.heap p).isFilled) ∧
        r.level.m_totalQuantity =
          twoOrderLevel.m_totalQuantity - min 150 (remSum twoOrderHeap twoOrderLevel.m_orders) ∧
        r.level.m_totalQuantity = remSum r.heap r.level.m_orders := by
  obtain ⟨r, popped, touched, h1, _, h3, h4, h5, h6, h7⟩ :=
    match_amounts twoOrderLevel twoOrderHeap 150 [] (by decide) (by decide) (by decide)
      (by decide)
  exact ⟨by decide, by decide, r, popped, touched, h1, h3, h4, h5, h6, h7⟩


/-- C15. The scenario of `demonstrateOrderMatching` (prices in thousandths).  All
six `addOrder` calls succeed.  The trade log is empty after each of the first
four.  After the fifth (`BUY B3 201.50 x 1000`) it is `(B3, S1, 201.00, 800)`,
`(B3, S2, 201.50, 200)`; `B3` (address 4) has remaining 0 and is queued nowhere,
the `201.00` ask level is gone and `S2` (address 3) has remaining 400.  After the
sixth (`SELL S3 199.00 x 800`) one trade `(B1, S3, 200.00, 800)` has been
appended, `B1` (address 0) has remaining 200, `S3` (address 5) has remaining 0
and both bid levels are still present. -/
theorem matching_scenario :
    ((tslaBook.submit ⟨"B1", Side.BUY, 200000, 1000, 1000⟩).2 = .ok () ∧
    (tslaBook.submit ⟨"B1", Side.BUY, 200000, 1000, 1000⟩).1.m_trades = [] ∧
    ((tslaBook.submit ⟨"B1", Side.BUY, 200000, 1000, 1000⟩).1.submit
      ⟨"B2", Side.BUY, 199500, 500, 500⟩).2 = .ok () ∧
    ((tslaBook.submit ⟨"B1", Side.BUY, 200000, 1000, 1000⟩).1.submit
      ⟨"B2", Side.BUY, 199500, 500, 500⟩).1.m_trades = [] ∧
    (((tslaBook.submit ⟨"B1", Side.BUY, 200000, 1000, 1000⟩).1.submit
      ⟨"B2", Side.BUY, 199500, 500, 500⟩).1.submit
      ⟨"S1", Side.SELL, 201000, 800, 800⟩).2 = .ok () ∧
    (((tslaBook.submit ⟨"B1", Side.BUY, 200000, 1000, 1000⟩).1.submit
      ⟨"B2", Side.BUY, 199500, 500, 500⟩).1.submit
      ⟨"S1", Side.SELL, 201000, 800, 800⟩).1.m_trades = [] ∧
    ((((tslaBook.submit ⟨"B1", Side.BUY, 200000, 1000, 1000⟩).1.submit
      ⟨"B2", Side.BUY, 199500, 500, 500⟩).1.submit
      ⟨"S1", Side.SELL, 201000, 800, 800⟩).1.submit
      ⟨"S2", Side.SELL, 201500, 600, 600⟩).2 = .ok () ∧
    restingBook.m_trades = []) ∧
    ((restingBook.submit aggressiveBuy).2 = .ok () ∧
    boughtBook.m_trades = [⟨"B3", "S1", 201000, 800⟩, ⟨"B3", "S2", 201500, 200⟩] ∧
    boughtBook.m_orders.find "B3" = some 4 ∧
    (boughtBook.heap 4).m_remainingQuantity = 0 ∧
    boughtBook.m_askLevels = [(201500, ⟨201500, [3], 400⟩)] ∧
    boughtBook.m_bidLevels = [(199500, ⟨199500, [1], 500⟩), (200000, ⟨200000, [0], 1000⟩)] ∧
    boughtBook.m_orders.find "S2" = some 3 ∧
    (boughtBook.heap 3).m_remainingQuantity = 400) ∧
    (boughtBook.submit aggressiveSell).2 = .ok () ∧
    soldBook.m_trades = boughtBook.m_trades ++ [⟨"B1", "S3", 200000, 800⟩] ∧
    soldBook.m_orders.find "B1" = some 0 ∧
    (soldBook.heap 0).m_remainingQuantity = 200 ∧
    soldBook.m_orders.find "S3" = some 5 ∧
    (soldBook.heap 5).m_remainingQuantity = 0 ∧
    soldBook.m_bidLevels = [(199500, ⟨199500, [1], 500⟩), (200000, ⟨200000, [0], 200⟩)] :=
  ⟨⟨by decide, by decide, by decide, by decide, by decide, by decide, by decide, by decide⟩,
    ⟨by decide, by decide, by decide, by decide, by decide, by decide, by decide, by decide⟩,
    by decide, by decide, by decide, by decide, by decide, by decide, by decide⟩

/-- In an index in key order, `rbegin()` is a level of the highest price. -/
theorem Levels.getLast_max {ls : Levels} (hs : ls.Pairwise (fun x y => x.1 < y.1)) :
    (ls = [] ∧ ls.getLast? = none) ∨
    ∃ y, ls.getLast? = some y ∧ y ∈ ls ∧ ∀ x ∈ ls, x.1 ≤ y.1 := by
  rcases List.eq_nil_or_concat ls with h | ⟨L, y, h⟩
  · left; subst h; exact ⟨rfl, rfl⟩
  · right
    subst h
    rw [List.concat_eq_append] at hs ⊢
    refine ⟨y, by simp, by simp, ?_⟩
    intro x hx
    rw [List.pairwise_append] at hs
    rcases List.mem_append.mp hx with hx | hx
    · exact le_of_lt (hs.2.2 x hx y (by simp))
    · simp only [List.mem_singleton] at hx
      rw [hx]

/-- In an index in key order, `begin()` is a level of the lowest price. -/
theorem Levels.head_min {ls : Levels} (hs : ls.Pairwise (fun x y => x.1 < y.1)) :
    (ls = [] ∧ ls.head? = none) ∨
    ∃ y, ls.head? = some y ∧ y ∈ ls ∧ ∀ x ∈ ls, y.1 ≤ x.1 := by
  cases ls with
  | nil => left; exact ⟨rfl, rfl⟩
  | cons y rest =>
    right
    refine ⟨y, rfl, by simp, ?_⟩
    intro x hx
    rw [List.pairwise_cons] at hs
    rcases List.mem_cons.mp hx with hx | hx
    · rw [hx]
    · exact le_of_lt (hs.1 x hx)

theorem boughtBook_reachable : Reachable boughtBook :=
  Reachable.submit _ _ restingBook_reachable (by decide)

/-- C16. In every reachable book: `getBestBidPrice` returns `0` when there is
no bid level and otherwise the price of a bid level that no bid level exceeds;
`getBestAskPrice` returns `0` when there is no ask level and otherwise the
price of an ask level that no ask level is below; `getSpread` returns best ask
minus best bid when both sides have a level and `0` when either side has none;
so all three return `0` on an empty book. -/
theorem best_prices_spec (b : OrderBook) (hr : Reachable b) :
    (b.m_bidLevels = [] → b.getBestBidPrice = 0) ∧
    (b.m_bidLevels ≠ [] → (∃ y ∈ b.m_bidLevels, y.1 = b.getBestBidPrice) ∧
      ∀ y ∈ b.m_bidLevels, y.1 ≤ b.getBestBidPrice) ∧
    (b.m_askLevels = [] → b.getBestAskPrice = 0) ∧
    (b.m_askLevels ≠ [] → (∃ y ∈ b.m_askLevels, y.1 = b.getBestAskPrice) ∧
      ∀ y ∈ b.m_askLevels, b.getBestAskPrice ≤ y.1) ∧
    (b.m_bidLevels ≠ [] → b.m_askLevels ≠ [] →
      b.getSpread = b.getBestAskPrice - b.getBestBidPrice) ∧
    (b.m_bidLevels = [] ∨ b.m_askLevels = [] → b.getSpread = 0) ∧
    (b.m_bidLevels = [] → b.m_askLevels = [] →
      b.getBestBidPrice = 0 ∧ b.getBestAskPrice = 0 ∧ b.getSpread = 0) := by
  have hinv := reachable_inv hr
  have h2 := reachable_inv2 hr
  have hbid0 : b.m_bidLevels = [] → b.getBestBidPrice = 0 := by
    intro h
    unfold OrderBook.getBestBidPrice
    rw [h]
    rfl
  have hask0 : b.m_askLevels = [] → b.getBestAskPrice = 0 := by
    intro h
    unfold OrderBook.getBestAskPrice
    rw [h]
    rfl
  have hbid : b.m_bidLevels ≠ [] → (∃ y ∈ b.m_bidLevels, y.1 = b.getBestBidPrice) ∧
      ∀ y ∈ b.m_bidLevels, y.1 ≤ b.getBestBidPrice := by
    intro hne
    rcases Levels.getLast_max hinv.bids.sorted with ⟨h, _⟩ | ⟨y, hy, hmem, hmax⟩
    · exact absurd h hne
    · have hbest : b.getBestBidPrice = y.1 := by
        unfold OrderBook.getBestBidPrice
        rw [hy]
      rw [hbest]
      exact ⟨⟨y, hmem, rfl⟩, hmax⟩
  have hask : b.m_askLevels ≠ [] → (∃ y ∈ b.m_askLevels, y.1 = b.getBestAskPrice) ∧
      ∀ y ∈ b.m_askLevels, b.getBestAskPrice ≤ y.1 := by
    intro hne
    rcases Levels.head_min hinv.asks.sorted with ⟨h, _⟩ | ⟨y, hy, hmem, hmin⟩
    · exact absurd h hne
    · have hbest : b.getBestAskPrice = y.1 := by
        unfold OrderBook.getBestAskPrice
        rw [hy]
      rw [hbest]
      exact ⟨⟨y, hmem, rfl⟩, hmin⟩
  have hspread0 : b.m_bidLevels = [] ∨ b.m_askLevels = [] → b.getSpread = 0 := by
    intro h
    unfold OrderBook.getSpread
    rcases h with h | h
    · rw [if_pos (Or.inl (hbid0 h))]
    · rw [if_pos (Or.inr (hask0 h))]
  refine ⟨hbid0, hbid, hask0, hask, ?_, hspread0, fun hb ha => ⟨hbid0 hb, hask0 ha,
    hspread0 (Or.inl hb)⟩⟩
  intro hb ha
  obtain ⟨⟨y, hy, hyb⟩, _⟩ := hbid hb
  obtain ⟨⟨z, hz, hza⟩, _⟩ := hask ha
  have hypos := h2.bid_pos y hy
  have hzpos := h2.ask_pos z hz
  unfold OrderBook.getSpread
  rw [if_neg]
  rw [← hyb, ← hza]
  intro h
  rcases h with h | h
  · rw [h] at hypos; exact lt_irrefl _ hypos
  · rw [h] at hzpos; exact lt_irrefl _ hzpos

/-- C16 at the book of `demonstrateOrderMatching` with its four resting orders:
best bid `200.00`, best ask `201.00`, spread `1.00`. -/
theorem best_prices_spec_witness :
    Reachable restingBook ∧
    restingBook.getBestBidPrice = 200000 ∧ restingBook.getBestAskPrice = 201000 ∧
    restingBook.getSpread = restingBook.getBestAskPrice - restingBook.getBestBidPrice ∧
    restingBook.getSpread = 1000 ∧
    (tslaBook.getBestBidPrice = 0 ∧ tslaBook.getBestAskPrice = 0 ∧ tslaBook.getSpread = 0) :=
  ⟨restingBook_reachable, by decide, by decide,
    (best_prices_spec restingBook restingBook_reachable).2.2.2.2.1 (by decide) (by decide),
    by decide, by decide⟩


/-- C17. On every reachable book, `addOrder` on a new order with
`0 < remaining ≤ original quantity`, a positive price and an identifier not in
the registry returns without throwing: none of the throw sites is reached, so
no `fill` asks for more than the remaining quantity of its order, no order is
added to a level of another price and no removal from an empty level is
attempted.  And `cancelOrder` returns `true` or `false` without throwing. -/
theorem addOrder_cancelOrder_never_throw (b : OrderBook) (hr : Reachable b) :
    (∀ o : Order, 0 < o.m_remainingQuantity → o.m_remainingQuantity ≤ o.m_quantity →
      0 < o.m_price → b.m_orders.find o.m_orderId = none → (b.submit o).2 = .ok ()) ∧
    ∀ orderId : OrderId,
      (b.cancelOrder orderId).2 = .ok true ∨ (b.cancelOrder orderId).2 = .ok false :=
  ⟨fun o hpos _ hprice hnone =>
      (submit_x b o (reachable_inv hr) (reachable_inv2 hr) (le_of_lt hpos)).2 hpos hnone hprice,
    fun orderId => (cancelOrder_x b orderId (reachable_inv hr) (reachable_inv2 hr)).2.2.2.2⟩

/-- C17 at the aggressive buy of `demonstrateOrderMatching` and at the
cancellation of `B1`. -/
theorem addOrder_cancelOrder_never_throw_witness :
    Reachable restingBook ∧ (restingBook.submit aggressiveBuy).2 = .ok () ∧
    ((restingBook.cancelOrder "B1").2 = .ok true ∨
      (restingBook.cancelOrder "B1").2 = .ok false) :=
  ⟨restingBook_reachable,
    (addOrder_cancelOrder_never_throw restingBook restingBook_reachable).1 aggressiveBuy
      (by decide) (by decide) (by decide) (by decide),
    (addOrder_cancelOrder_never_throw restingBook restingBook_reachable).2 "B1"⟩

/-- Trades in price order, for prices that are numbers (the model's `Price`;
NaN is outside the model).  For a successful `addOrder` of a new order on a
reachable book, the trades appended by the call are, for an incoming BUY, at
prices at most the order's price and in non-decreasing price order, and for an
incoming SELL, at prices at least the order's price and in non-increasing price
order. -/
theorem trades_in_price_order (b : OrderBook) (o : Order) (hr : Reachable b)
    (hw : o.WellFormed) (_hok : (b.submit o).2 = .ok ()) :
    ∃ new, (b.submit o).1.m_trades = b.m_trades ++ new ∧
      match o.m_side with
      | Side.BUY => new.Pairwise (fun s t => s.price ≤ t.price) ∧
          ∀ t ∈ new, t.price ≤ o.m_price
      | Side.SELL => new.Pairwise (fun s t => t.price ≤ s.price) ∧
          ∀ t ∈ new, o.m_price ≤ t.price := by
  have hx := (submit_x b o (reachable_inv hr) (reachable_inv2 hr) hw.2.2.2).1
  have hheap : (b.alloc o).1.heap b.nextPtr = o := Function.update_same _ _ _
  have h := hx.order
  rw [hheap] at h
  exact h

/-- The theorem `trades_in_price_order` at the aggressive buy of
`demonstrateOrderMatching`, which trades at `201.00` and then at `201.50`. -/
theorem trades_in_price_order_witness :
    Reachable restingBook ∧ aggressiveBuy.WellFormed ∧
    (restingBook.submit aggressiveBuy).2 = .ok () ∧
    ∃ new, (restingBook.submit aggressiveBuy).1.m_trades = restingBook.m_trades ++ new ∧
      new.Pairwise (fun s t => s.price ≤ t.price) ∧ ∀ t ∈ new, t.price ≤ 201500 :=
  ⟨restingBook_reachable, by decide, by decide,
    trades_in_price_order restingBook aggressiveBuy restingBook_reachable (by decide)
      (by decide)⟩


/-- C19. For a successful `addOrder` of a new order on a reachable book, the
decrease of the incoming order's remaining quantity equals the sum, over the
orders queued in the opposite index before the call, of the decreases of their
remaining quantities; none of these rises; no order queued in the index of the
incoming order's own side changes its remaining quantity; and every other
order but the incoming one is unchanged. -/
theorem addOrder_conserves_quantity (b : OrderBook) (o : Order) (hr : Reachable b)
    (hw : o.WellFormed) (_hok : (b.submit o).2 = .ok ()) :
    o.m_remainingQuantity - ((b.submit o).1.heap b.nextPtr).m_remainingQuantity =
      ((Levels.ptrs (b.opposite o.m_side)).map (fun p =>
        (b.heap p).m_remainingQuantity -
          ((b.submit o).1.heap p).m_remainingQuantity)).sum ∧
    (∀ p ∈ Levels.ptrs (b.opposite o.m_side),
      ((b.submit o).1.heap p).m_remainingQuantity ≤ (b.heap p).m_remainingQuantity) ∧
    (∀ p ∈ Levels.ptrs (b.own o.m_side),
      ((b.submit o).1.heap p).m_remainingQuantity = (b.heap p).m_remainingQuantity) ∧
    (∀ p, p ≠ b.nextPtr → p ∉ Levels.ptrs (b.opposite o.m_side) →
      (b.submit o).1.heap p = b.heap p) := by
  have hinv := reachable_inv hr
  have hx := (submit_x b o hinv (reachable_inv2 hr) hw.2.2.2).1
  have hheap : (b.alloc o).1.heap b.nextPtr = o := Function.update_same _ _ _
  have hold : ∀ p, p ≠ b.nextPtr → (b.alloc o).1.heap p = b.heap p := fun p hp =>
    Function.update_noteq hp _ _
  have hopp : (b.alloc o).1.opposite o.m_side = b.opposite o.m_side := by
    cases o.m_side <;> rfl
  have hrel := hx.rel
  rw [hheap, hopp] at hrel
  have hlt : ∀ s : Side, ∀ p ∈ Levels.ptrs (b.opposite s), p < b.nextPtr := by
    intro s p hp
    obtain ⟨y, hy, hmem⟩ := Levels.mem_ptrs.mp hp
    cases s with
    | BUY => exact hinv.asks.ptr_lt y hy p hmem
    | SELL => exact hinv.bids.ptr_lt y hy p hmem
  refine ⟨?_, ?_, ?_, ?_⟩
  · have hc := hrel.conserve
    rw [hheap] at hc
    rw [hc]
    congr 1
    apply List.map_congr_left
    intro p hp
    rw [hold p (ne_of_lt (hlt _ p hp))]
  · intro p hp
    have := hrel.mono p
    rw [hold p (ne_of_lt (hlt _ p hp))] at this
    exact this
  · intro p hp
    obtain ⟨y, hy, hmem⟩ := Levels.mem_ptrs.mp hp
    have hne : p ≠ b.nextPtr ∧ p ∉ Levels.ptrs (b.opposite o.m_side) := by
      cases hs : o.m_side with
      | BUY =>
        rw [hs] at hy
        refine ⟨ne_of_lt (hinv.bids.ptr_lt y hy p hmem), fun hq => ?_⟩
        obtain ⟨z, hz, hzm⟩ := Levels.mem_ptrs.mp hq
        have h1 := hinv.bids.order_side y hy p hmem
        have h2 := hinv.asks.order_side z hz p hzm
        rw [h1] at h2
        cases h2
      | SELL =>
        rw [hs] at hy
        refine ⟨ne_of_lt (hinv.asks.ptr_lt y hy p hmem), fun hq => ?_⟩
        obtain ⟨z, hz, hzm⟩ := Levels.mem_ptrs.mp hq
        have h1 := hinv.asks.order_side y hy p hmem
        have h2 := hinv.bids.order_side z hz p hzm
        rw [h1] at h2
        cases h2
    rw [hrel.frame p hne.1 hne.2, hold p hne.1]
  · intro p hp hq
    rw [hrel.frame p hp hq, hold p hp]

/-- C19 at the aggressive buy of `demonstrateOrderMatching`: the incoming order
goes from 1000 to 0, `S1` from 800 to 0 and `S2` from 600 to 400. -/
theorem addOrder_conserves_quantity_witness :
    Reachable restingBook ∧ aggressiveBuy.WellFormed ∧
    (restingBook.submit aggressiveBuy).2 = .ok () ∧
    aggressiveBuy.m_remainingQuantity -
        ((restingBook.submit aggressiveBuy).1.heap restingBook.nextPtr).m_remainingQuantity =
      ((Levels.ptrs (restingBook.opposite aggressiveBuy.m_side)).map (fun p =>
        (restingBook.heap p).m_remainingQuantity -
          ((restingBook.submit aggressiveBuy).1.heap p).m_remainingQuantity)).sum :=
  ⟨restingBook_reachable, by decide, by decide,
    (addOrder_conserves_quantity restingBook aggressiveBuy restingBook_reachable (by decide)
      (by decide)).1⟩

theorem restingBook_reachableBounded : ReachableBounded restingBook :=
  ReachableBounded.submit _ _ (ReachableBounded.submit _ _ (ReachableBounded.submit _ _
    (ReachableBounded.submit _ _ (ReachableBounded.init "TSLA" tslaBook rfl)
      (by decide) (by decide)) (by decide) (by decide)) (by decide) (by decide))
    (by decide) (by decide)

/-- C20. In every book reached by `addOrder` calls on new orders with
`0 < remaining ≤ original quantity` and by `cancelOrder` calls, every order
held by the registry or queued in a level of either index has
`0 ≤ remaining ≤ original quantity`; and neither call raises a remaining
quantity: after `addOrder` the incoming order's remaining quantity is at most
what it was at submission and every other order's is at most what it was
before the call, and after `cancelOrder` every order's remaining quantity is
at most what it was before the call. -/
theorem remaining_bounded_and_monotone (b : OrderBook) (hr : ReachableBounded b) :
    (∀ e ∈ b.m_orders, 0 ≤ (b.heap e.2).m_remainingQuantity ∧
      (b.heap e.2).m_remainingQuantity ≤ (b.heap e.2).m_quantity) ∧
    (∀ y ∈ b.m_bidLevels ++ b.m_askLevels, ∀ p ∈ y.2.m_orders,
      0 ≤ (b.heap p).m_remainingQuantity ∧
      (b.heap p).m_remainingQuantity ≤ (b.heap p).m_quantity) ∧
    (∀ o : Order, 0 < o.m_remainingQuantity → o.m_remainingQuantity ≤ o.m_quantity →
      ((b.submit o).1.heap b.nextPtr).m_remainingQuantity ≤ o.m_remainingQuantity ∧
      ∀ p, p ≠ b.nextPtr →
        ((b.submit o).1.heap p).m_remainingQuantity ≤ (b.heap p).m_remainingQuantity) ∧
    (∀ (orderId : OrderId) (p : OrderPtr),
      ((b.cancelOrder orderId).1.heap p).m_remainingQuantity ≤
        (b.heap p).m_remainingQuantity) := by
  obtain ⟨hinv, h2, hb⟩ := reachableBounded_inv hr
  refine ⟨?_, ?_, ?_, ?_⟩
  · intro e he
    have hlt := (hinv.reg_ptr e he).1
    exact ⟨h2.nonneg _ hlt, hb _ hlt⟩
  · intro y hy p hp
    have hlt : p < b.nextPtr := by
      rcases List.mem_append.mp hy with hy | hy
      · exact hinv.bids.ptr_lt y hy p hp
      · exact hinv.asks.ptr_lt y hy p hp
    exact ⟨h2.nonneg _ hlt, hb _ hlt⟩
  · intro o hpos _
    have hx := (submit_x b o hinv h2 (le_of_lt hpos)).1
    have hmono := hx.rel.mono
    refine ⟨?_, fun p hp => ?_⟩
    · have h := hmono b.nextPtr
      have hheap : (b.alloc o).1.heap b.nextPtr = o := Function.update_same _ _ _
      rw [hheap] at h
      exact h
    · have h := hmono p
      have hold : (b.alloc o).1.heap p = b.heap p := Function.update_noteq hp _ _
      rw [hold] at h
      exact h
  · intro orderId p
    exact (cancelOrder_x b orderId hinv h2).2.2.2.1 p

/-- C20 at the book of `demonstrateOrderMatching` with its four resting
orders: the registered order `B1` has `0 ≤ 1000 ≤ 1000`. -/
theorem remaining_bounded_and_monotone_witness :
    ReachableBounded restingBook ∧
    ∀ e ∈ restingBook.m_orders, 0 ≤ (restingBook.heap e.2).m_remainingQuantity ∧
      (restingBook.heap e.2).m_remainingQuantity ≤ (restingBook.heap e.2).m_quantity :=
  ⟨restingBook_reachableBounded,
    (remaining_bounded_and_monotone restingBook restingBook_reachableBounded).1⟩


theorem Levels.mem_ptrs_reverse {ls : Levels} {p : OrderPtr} :
    p ∈ Levels.ptrs ls.reverse ↔ p ∈ Levels.ptrs ls := by
  simp only [Levels.mem_ptrs, List.mem_reverse]

theorem Levels.ptrs_nil : Levels.ptrs [] = [] := rfl

/-- One iteration of a matching loop, for an order `p` other than the incoming
order `x`: if `p` has no remaining quantity it keeps none, and if `p` is queued
in the level matched against, it is still queued there afterwards or has no
remaining quantity. -/
theorem gone_step {l : PriceLevel} {h heap : Heap} {req : Quantity} {ms : MatchState}
    {x : OrderPtr} {res : Except Error Unit}
    (heq : l.match_ h req [] = (ms, .ok ms.totalMatched))
    (hfill : Heap.fill ms.heap x ms.totalMatched = (heap, res)) (p : OrderPtr) (hp : p ≠ x) :
    ((h p).m_remainingQuantity = 0 → (heap p).m_remainingQuantity = 0) ∧
    (p ∈ l.m_orders → p ∈ ms.level.m_orders ∨ (heap p).m_remainingQuantity = 0) := by
  obtain ⟨_, _, popped, hq⟩ := match_facts heq
  have hheap : heap p = ms.heap p := by
    have h1 : heap = (Heap.fill ms.heap x ms.totalMatched).1 := by rw [hfill]
    rw [h1]
    unfold Heap.fill
    exact Function.update_noteq hp _ _
  rw [hheap]
  refine ⟨fun h0 => hq.zero_stable p h0, fun hmem => ?_⟩
  have hqueue := hq.queue
  simp only [] at hqueue
  rw [← hqueue] at hmem
  rcases List.mem_append.mp hmem with hm | hm
  · exact Or.inr (hq.popped_zero p hm)
  · exact Or.inl hm

/-- The loop of `matchBuyOrder` on a set `G` of orders other than the incoming
one: each stays queued in the ask index or ends with no remaining quantity. -/
theorem matchBuyLoop_gone (buy : OrderPtr) (G : List OrderPtr) (hG : buy ∉ G) :
    ∀ rest b visited,
      (∀ p ∈ G, p ∈ Levels.ptrs (visited ++ rest) ∨ (b.heap p).m_remainingQuantity = 0) →
      ∀ p ∈ G, p ∈ Levels.ptrs (OrderBook.matchBuyLoop buy b visited rest).1.m_askLevels ∨
        ((OrderBook.matchBuyLoop buy b visited rest).1.heap p).m_remainingQuantity = 0 := by
  have hne : ∀ p ∈ G, p ≠ buy := fun p hp h => hG (h ▸ hp)
  have key : ∀ (b : OrderBook) (visited : Levels) (k : Price) (l : PriceLevel) (rest : Levels)
      (ms : MatchState) (heap : Heap) (res : Except Error Unit),
      (∀ p ∈ G, p ∈ Levels.ptrs (visited ++ (k, l) :: rest) ∨
        (b.heap p).m_remainingQuantity = 0) →
      l.match_ b.heap (b.heap buy).m_remainingQuantity [] = (ms, .ok ms.totalMatched) →
      Heap.fill ms.heap buy ms.totalMatched = (heap, res) →
      ∀ p ∈ G, (p ∈ Levels.ptrs visited ∨ p ∈ ms.level.m_orders ∨ p ∈ Levels.ptrs rest) ∨
        (heap p).m_remainingQuantity = 0 := by
    intro b visited k l rest ms heap res hI heq hfill p hp
    obtain ⟨hz, hl⟩ := gone_step heq hfill p (hne p hp)
    rcases hI p hp with hmem | h0
    · simp only [Levels.ptrs_append, Levels.ptrs_cons, List.mem_append] at hmem
      rcases hmem with hv | hq | hr
      · exact Or.inl (Or.inl hv)
      · rcases hl hq with h1 | h1
        · exact Or.inl (Or.inr (Or.inl h1))
        · exact Or.inr h1
      · exact Or.inl (Or.inr (Or.inr hr))
    · exact Or.inr (hz h0)
  apply matchBuyLoop_rule_eq buy
    (fun b visited rest => ∀ p ∈ G, p ∈ Levels.ptrs (visited ++ rest) ∨
      (b.heap p).m_remainingQuantity = 0)
    (fun r _ => ∀ p ∈ G, p ∈ Levels.ptrs r.m_askLevels ∨ (r.heap p).m_remainingQuantity = 0)
  · intro b visited hI p hp
    simpa using hI p hp
  · intro b visited k l rest hI _ p hp
    exact hI p hp
  · intro b visited k l rest ms heap e hI _ _ heq hfill p hp
    have := key b visited k l rest ms heap _ hI heq hfill p hp
    simpa only [Levels.ptrs_append, Levels.ptrs_cons, List.mem_append] using this
  · intro b visited k l rest ms heap hI _ _ heq hfill he p hp
    have := key b visited k l rest ms heap _ hI heq hfill p hp
    rw [he] at this
    simp only [Levels.ptrs_append, List.mem_append]
    simpa using this
  · intro b visited k l rest ms heap hI _ _ heq hfill _ p hp
    have := key b visited k l rest ms heap _ hI heq hfill p hp
    simp only [Levels.ptrs_append, Levels.ptrs_cons, List.mem_append, Levels.ptrs_nil,
      List.append_nil]
    simpa only [or_assoc] using this

/-- The loop of `matchSellOrder` on a set `G` of orders other than the incoming
one: each stays queued in the bid index or ends with no remaining quantity. -/
theorem matchSellLoop_gone (sell : OrderPtr) (G : List OrderPtr) (hG : sell ∉ G) :
    ∀ fuel b fromIt passed,
      (∀ p ∈ G, p ∈ Levels.ptrs (fromIt.reverse ++ passed) ∨
        (b.heap p).m_remainingQuantity = 0) →
      ∀ p ∈ G,
        p ∈ Levels.ptrs (OrderBook.matchSellLoop sell fuel b fromIt passed).1.m_bidLevels ∨
        ((OrderBook.matchSellLoop sell fuel b fromIt passed).1.heap p).m_remainingQuantity =
          0 := by
  have hne : ∀ p ∈ G, p ≠ sell := fun p hp h => hG (h ▸ hp)
  have key : ∀ (b : OrderBook) (k : Price) (l : PriceLevel) (lower passed : Levels)
      (ms : MatchState) (heap : Heap) (res : Except Error Unit),
      (∀ p ∈ G, p ∈ Levels.ptrs (((k, l) :: lower).reverse ++ passed) ∨
        (b.heap p).m_remainingQuantity = 0) →
      l.match_ b.heap (b.heap sell).m_remainingQuantity [] = (ms, .ok ms.totalMatched) →
      Heap.fill ms.heap sell ms.totalMatched = (heap, res) →
      ∀ p ∈ G, (p ∈ Levels.ptrs lower ∨ p ∈ ms.level.m_orders ∨ p ∈ Levels.ptrs passed) ∨
        (heap p).m_remainingQuantity = 0 := by
    intro b k l lower passed ms heap res hI heq hfill p hp
    obtain ⟨hz, hl⟩ := gone_step heq hfill p (hne p hp)
    rcases hI p hp with hmem | h0
    · simp only [List.reverse_cons, Levels.ptrs_append, Levels.ptrs_cons, List.mem_append,
        Levels.mem_ptrs_reverse, Levels.ptrs_nil, List.append_nil] at hmem
      rcases hmem with (hv | hq) | hr
      · exact Or.inl (Or.inl hv)
      · rcases hl hq with h1 | h1
        · exact Or.inl (Or.inr (Or.inl h1))
        · exact Or.inr h1
      · exact Or.inl (Or.inr (Or.inr hr))
    · exact Or.inr (hz h0)
  apply matchSellLoop_rule_eq sell
    (fun b fromIt passed => ∀ p ∈ G, p ∈ Levels.ptrs (fromIt.reverse ++ passed) ∨
      (b.heap p).m_remainingQuantity = 0)
    (fun r _ => ∀ p ∈ G, p ∈ Levels.ptrs r.m_bidLevels ∨ (r.heap p).m_remainingQuantity = 0)
  · intro b fromIt passed hI p hp
    exact hI p hp
  · intro b passed hI p hp
    simpa using hI p hp
  · intro b k l lower passed hI _ p hp
    exact hI p hp
  · intro b k l lower passed ms heap e hI _ _ heq hfill p hp
    have := key b k l lower passed ms heap _ hI heq hfill p hp
    simp only [List.reverse_cons, Levels.ptrs_append, Levels.ptrs_cons, List.mem_append,
      Levels.mem_ptrs_reverse, Levels.ptrs_nil, List.append_nil]
    simpa only [or_assoc] using this
  · intro b k l lower passed ms heap hI _ _ heq hfill he p hp
    have := key b k l lower passed ms heap _ hI heq hfill p hp
    rw [he] at this
    simp only [List.reverse_append, List.reverse_reverse, Levels.ptrs_append, List.mem_append,
      Levels.mem_ptrs_reverse, List.append_nil]
    simpa using this
  · intro b k l lower passed ms heap hI _ _ heq hfill _ p hp
    have := key b k l lower passed ms heap _ hI heq hfill p hp
    simp only [Levels.ptrs_append, Levels.ptrs_cons, List.mem_append, Levels.mem_ptrs_reverse]
    simpa only [or_assoc] using this


/-- An order queued in the opposite index before `matchOrder` is queued there
afterwards or has no remaining quantity. -/
theorem matchOrder_gone (b : OrderBook) (order : OrderPtr)
    (hfresh : order ∉ Levels.ptrs (b.opposite (b.heap order).m_side)) :
    ∀ p ∈ Levels.ptrs (b.opposite (b.heap order).m_side),
      p ∈ Levels.ptrs ((b.matchOrder order).1.opposite (b.heap order).m_side) ∨
      ((b.matchOrder order).1.heap p).m_remainingQuantity = 0 := by
  unfold OrderBook.matchOrder
  cases hside : (b.heap order).m_side with
  | BUY =>
    rw [hside] at hfresh
    simp only [OrderBook.opposite, if_true] at hfresh ⊢
    exact matchBuyLoop_gone order _ hfresh b.m_askLevels b []
      (fun p hp => Or.inl (by simpa using hp))
  | SELL =>
    rw [hside] at hfresh
    simp only [OrderBook.opposite, if_false, reduceCtorEq] at hfresh ⊢
    exact matchSellLoop_gone order _ hfresh _ b b.m_bidLevels.reverse []
      (fun p hp => Or.inl (by simpa using hp))

/-- A successful branch of `addToAppropriateLevel` queues the order: the queued
orders of the index are those of before and the added order. -/
theorem Levels.addOrder_ptrs_ok {ls : Levels} (hs : ls.Pairwise (fun x y => x.1 < y.1))
    (h : Heap) (order : OrderPtr) (hok : (ls.addOrder h order).2 = .ok ()) :
    (Levels.ptrs (ls.addOrder h order).1).Perm (Levels.ptrs ls ++ [order]) := by
  have hlevel : ∀ l : PriceLevel, (l.addOrder h order).2 = .ok () →
      (l.addOrder h order).1.m_orders = l.m_orders ++ [order] := by
    intro l
    unfold PriceLevel.addOrder
    split_ifs
    · intro h1; simp at h1
    · intro _; rfl
  revert hok
  unfold Levels.addOrder
  cases hfind : ls.find (h order).m_price with
  | none =>
    simp only []
    cases hnew : PriceLevel.new (h order).m_price with
    | error e => intro hok; simp at hok
    | ok level =>
      intro hok
      have hl : level = ⟨(h order).m_price, [], 0⟩ := by
        unfold PriceLevel.new at hnew
        split_ifs at hnew
        simpa using hnew.symm
      exact Levels.ptrs_set hs (h order).m_price level _ [order] (hlevel level hok)
        (Or.inr ⟨hfind, by rw [hl]⟩)
  | some level =>
    intro hok
    exact Levels.ptrs_set hs (h order).m_price level _ [order] (hlevel level hok)
      (Or.inl hfind)


theorem OrderBook.own_eq_opposite (b : OrderBook) {s t : Side} (h : t ≠ s) :
    b.own t = b.opposite s := by
  cases s <;> cases t <;> simp_all [OrderBook.own, OrderBook.opposite]

/-- On a book satisfying the invariant, `addToAppropriateLevel` of an order with
a positive price keeps every queued order queued on its side and queues the
order on its own side. -/
theorem addToAppropriateLevel_ptrs (r : OrderBook) (order : OrderPtr) (hinv : Inv r)
    (hpos : 0 < (r.heap order).m_price) :
    (∀ (t : Side) (p : OrderPtr), p ∈ Levels.ptrs (r.own t) →
      p ∈ Levels.ptrs ((r.addToAppropriateLevel order).1.own t)) ∧
    order ∈ Levels.ptrs ((r.addToAppropriateLevel order).1.own (r.heap order).m_side) := by
  have hb := Levels.addOrder_ptrs_ok hinv.bids.sorted r.heap order
    (Levels.addOrder_succeeds hinv.bids order hpos)
  have ha := Levels.addOrder_ptrs_ok hinv.asks.sorted r.heap order
    (Levels.addOrder_succeeds hinv.asks order hpos)
  unfold OrderBook.addToAppropriateLevel
  cases hside : (r.heap order).m_side with
  | BUY =>
    simp only [if_true, OrderBook.own]
    refine ⟨fun t p hp => ?_, hb.symm.subset (by simp)⟩
    cases t with
    | BUY => exact hb.symm.subset (List.mem_append_left _ hp)
    | SELL => exact hp
  | SELL =>
    simp only [if_false, reduceCtorEq, OrderBook.own]
    refine ⟨fun t p hp => ?_, ha.symm.subset (by simp)⟩
    cases t with
    | BUY => exact hp
    | SELL => exact ha.symm.subset (List.mem_append_left _ hp)

/-- The method `addOrder` keeps the third invariant, for an allocated order
with a positive price that is queued nowhere. -/
theorem addOrder_inv3 (b : OrderBook) (order : OrderPtr) (hinv : Inv b) (h2 : Inv2 b)
    (h3 : Inv3 b) (hlt : order < b.nextPtr)
    (hfb : order ∉ Levels.ptrs b.m_bidLevels) (hfa : order ∉ Levels.ptrs b.m_askLevels)
    (hprice : 0 < (b.heap order).m_price) : Inv3 (b.addOrder order).1 := by
  rcases addOrder_cases b order with ⟨_, h⟩ | ⟨_, _, h⟩ | ⟨_, hnone, h⟩
  · rw [h]; exact h3
  · rw [h]; exact h3
  · have hfo : order ∉ Levels.ptrs (b.opposite (b.heap order).m_side) := by
      cases (b.heap order).m_side with
      | BUY => exact hfa
      | SELL => exact hfb
    have hfresh : ∀ y ∈ b.opposite (b.heap order).m_side, order ∉ y.2.m_orders :=
      fun y hy hmem => hfo (Levels.mem_ptrs.mpr ⟨y, hy, hmem⟩)
    obtain ⟨hinv1, _⟩ := matchOrder_inv b order hinv hlt hnone hfresh
    obtain ⟨hx, hp, _, _, _⟩ := matchOrder_inv2
      { b with m_orders := b.m_orders.set (b.heap order).m_orderId order } order
      hinv.bids hinv.asks ⟨h2.bid_pos, h2.ask_pos, h2.bid_nodup, h2.ask_nodup, h2.nonneg⟩
      hlt hfb hfa
    have hg := matchOrder_gone
      { b with m_orders := b.m_orders.set (b.heap order).m_orderId order } order hfo
    generalize hr1 : (OrderBook.matchOrder
      { b with m_orders := b.m_orders.set (b.heap order).m_orderId order } order) = r1 at *
    have hreg : r1.1.m_orders = b.m_orders ++ [((b.heap order).m_orderId, order)] := by
      rw [hp.orders]
      exact Registry.set_of_find_none order hnone
    have hmono : ∀ p, (r1.1.heap p).m_remainingQuantity ≤ (b.heap p).m_remainingQuantity :=
      hx.rel.mono
    have hown : r1.1.own (b.heap order).m_side = b.own (b.heap order).m_side := hx.own
    have hgone : ∀ p ∈ Levels.ptrs (b.opposite (b.heap order).m_side),
        p ∈ Levels.ptrs (r1.1.opposite (b.heap order).m_side) ∨
        (r1.1.heap p).m_remainingQuantity = 0 := hg
    have hside : ∀ p, (r1.1.heap p).m_side = (b.heap p).m_side := fun p => (hp.identity p).2.1
    have hold : ∀ e ∈ b.m_orders, 0 < (r1.1.heap e.2).m_remainingQuantity →
        e.2 ∈ Levels.ptrs (r1.1.own (r1.1.heap e.2).m_side) := by
      intro e he hpos
      have hq := h3 e he (lt_of_lt_of_le hpos (hmono e.2))
      rw [hside]
      by_cases hst : (b.heap e.2).m_side = (b.heap order).m_side
      · rw [hst] at hq ⊢
        rw [hown]
        exact hq
      · rw [OrderBook.own_eq_opposite _ hst] at hq ⊢
        rcases hgone e.2 hq with h0 | h0
        · exact h0
        · rw [h0] at hpos
          exact absurd hpos (lt_irrefl _)
    rcases h with ⟨e, he, h⟩ | ⟨hok, ⟨hfl, h⟩ | ⟨hnfl, h⟩⟩
    · rw [hx.ok] at he; cases he
    · rw [h]
      intro e he hpos
      rw [hreg] at he
      rcases List.mem_append.mp he with he | he
      · exact hold e he hpos
      · simp only [List.mem_singleton] at he
        subst he
        have h0 : (r1.1.heap order).m_remainingQuantity = 0 := by
          simpa [Order.isFilled] using hfl
        rw [h0] at hpos
        exact absurd hpos (lt_irrefl _)
    · rw [h]
      obtain ⟨hh, _, ho, _, _⟩ := addToAppropriateLevel_frame r1.1 order
      have hpr : 0 < (r1.1.heap order).m_price := by
        rw [(hp.identity order).2.2.1]
        exact hprice
      obtain ⟨hkeep, hnew⟩ := addToAppropriateLevel_ptrs r1.1 order hinv1 hpr
      intro e he hpos
      rw [hh] at hpos ⊢
      rw [ho, hreg] at he
      rcases List.mem_append.mp he with he | he
      · exact hkeep _ _ (hold e he hpos)
      · simp only [List.mem_singleton] at he
        subst he
        exact hnew


theorem submit_inv3 (b : OrderBook) (o : Order) (hinv : Inv b) (h2 : Inv2 b) (h3 : Inv3 b)
    (h0 : 0 ≤ o.m_remainingQuantity) (hprice : 0 < o.m_price) : Inv3 (b.submit o).1 := by
  have hbid : b.nextPtr ∉ Levels.ptrs b.m_bidLevels := by
    intro hm
    obtain ⟨y, hy, hmem⟩ := Levels.mem_ptrs.mp hm
    exact lt_irrefl _ (hinv.bids.ptr_lt y hy _ hmem)
  have hask : b.nextPtr ∉ Levels.ptrs b.m_askLevels := by
    intro hm
    obtain ⟨y, hy, hmem⟩ := Levels.mem_ptrs.mp hm
    exact lt_irrefl _ (hinv.asks.ptr_lt y hy _ hmem)
  have hheap : (b.alloc o).1.heap b.nextPtr = o := Function.update_same _ _ _
  have h3' : Inv3 (b.alloc o).1 := by
    intro e he hpos
    have hne : e.2 ≠ b.nextPtr := ne_of_lt (hinv.reg_ptr e he).1
    have hold : (b.alloc o).1.heap e.2 = b.heap e.2 := Function.update_noteq hne _ _
    rw [hold] at hpos ⊢
    exact h3 e he hpos
  unfold OrderBook.submit
  apply addOrder_inv3 (b.alloc o).1 b.nextPtr (alloc_inv b o hinv) (alloc_inv2 b o h2 h0) h3'
    (Nat.lt_succ_self _) hbid hask
  rw [hheap]
  exact hprice

theorem cancelOrder_inv3 (b : OrderBook) (orderId : OrderId) (h3 : Inv3 b) :
    Inv3 (b.cancelOrder orderId).1 := by
  cases hfind : b.m_orders.find orderId with
  | none =>
    rw [cancelOrder_none hfind]
    exact h3
  | some order =>
    rw [cancelOrder_some hfind]
    intro e he hpos
    have he' : e ∈ b.m_orders := (Registry.erase_sublist _ _).subset he
    by_cases hp : e.2 = order
    · have h0 : (Function.update b.heap order { b.heap order with m_remainingQuantity := 0 }
          e.2).m_remainingQuantity = 0 := by
        rw [hp, Function.update_same]
      have hpos' : 0 < (Function.update b.heap order
          { b.heap order with m_remainingQuantity := 0 } e.2).m_remainingQuantity := hpos
      rw [h0] at hpos'
      exact absurd hpos' (lt_irrefl _)
    · have hold : Function.update b.heap order { b.heap order with m_remainingQuantity := 0 }
          e.2 = b.heap e.2 := Function.update_noteq hp _ _
      have hpos' : 0 < (Function.update b.heap order
          { b.heap order with m_remainingQuantity := 0 } e.2).m_remainingQuantity := hpos
      rw [hold] at hpos'
      show e.2 ∈ Levels.ptrs (b.own (Function.update b.heap order
        { b.heap order with m_remainingQuantity := 0 } e.2).m_side)
      rw [hold]
      exact h3 e he' hpos'

/-- Every reachable book satisfies the third invariant. -/
theorem reachable_inv3 {b : OrderBook} (hr : Reachable b) : Inv3 b := by
  induction hr with
  | init symbol b h =>
    unfold OrderBook.new at h
    split_ifs at h
    simp only [Except.ok.injEq] at h
    subst h
    intro e he
    simp at he
  | submit b o hr hw ih =>
    exact submit_inv3 b o (reachable_inv hr) (reachable_inv2 hr) ih hw.2.2.2 hw.1
  | cancel b orderId _ ih => exact cancelOrder_inv3 b orderId ih

/-- Registered orders are queued once, for prices that are numbers (the
model's `Price`; NaN is outside the model).  In every reachable book, an order
that the registry holds and that has a positive remaining quantity occurs
exactly once in the queues of all levels of both indices taken together, and a
level stored under the order's price in the index of the order's side holds
it. -/
theorem registered_order_queued_once (b : OrderBook) (hr : Reachable b)
    (e : OrderId × OrderPtr) (he : e ∈ b.m_orders)
    (hpos : 0 < (b.heap e.2).m_remainingQuantity) :
    (Levels.ptrs b.m_bidLevels ++ Levels.ptrs b.m_askLevels).count e.2 = 1 ∧
    ∃ l, ((b.heap e.2).m_price, l) ∈ b.own (b.heap e.2).m_side ∧ e.2 ∈ l.m_orders ∧
      l.m_orders.count e.2 = 1 := by
  have hinv := reachable_inv hr
  have h2 := reachable_inv2 hr
  have hq := reachable_inv3 hr e he hpos
  have hone : ∀ y : Price × PriceLevel, ∀ ls : Levels, (Levels.ptrs ls).Nodup → y ∈ ls →
      e.2 ∈ y.2.m_orders → y.2.m_orders.count e.2 = 1 := by
    intro y ls hnd hy hmem
    obtain ⟨A, B, rfl⟩ := List.append_of_mem hy
    exact List.count_eq_one_of_mem (hnd.sublist (Levels.queue_sublist_ptrs A B y)) hmem
  rw [List.count_append]
  obtain ⟨y, hy, hmem⟩ := Levels.mem_ptrs.mp hq
  cases hs : (b.heap e.2).m_side with
  | BUY =>
    rw [hs] at hq hy
    simp only [OrderBook.own] at hq hy ⊢
    have hnot : e.2 ∉ Levels.ptrs b.m_askLevels := by
      intro hm
      obtain ⟨z, hz, hzm⟩ := Levels.mem_ptrs.mp hm
      have := hinv.asks.order_side z hz e.2 hzm
      rw [hs] at this
      cases this
    rw [List.count_eq_one_of_mem h2.bid_nodup hq, List.count_eq_zero_of_not_mem hnot]
    refine ⟨rfl, y.2, ?_, hmem, hone y _ h2.bid_nodup hy hmem⟩
    rw [hinv.bids.order_price y hy e.2 hmem]
    exact hy
  | SELL =>
    rw [hs] at hq hy
    simp only [OrderBook.own] at hq hy ⊢
    have hnot : e.2 ∉ Levels.ptrs b.m_bidLevels := by
      intro hm
      obtain ⟨z, hz, hzm⟩ := Levels.mem_ptrs.mp hm
      have := hinv.bids.order_side z hz e.2 hzm
      rw [hs] at this
      cases this
    rw [List.count_eq_one_of_mem h2.ask_nodup hq, List.count_eq_zero_of_not_mem hnot]
    refine ⟨rfl, y.2, ?_, hmem, hone y _ h2.ask_nodup hy hmem⟩
    rw [hinv.asks.order_price y hy e.2 hmem]
    exact hy

/-- The theorem `registered_order_queued_once` at the book of
`demonstrateOrderMatching` after the aggressive buy: `S2`, at address 3, is
registered with 400 remaining and occurs once. -/
theorem registered_order_queued_once_witness :
    Reachable boughtBook ∧ (("S2", 3) : OrderId × OrderPtr) ∈ boughtBook.m_orders ∧
    0 < (boughtBook.heap 3).m_remainingQuantity ∧
    (Levels.ptrs boughtBook.m_bidLevels ++ Levels.ptrs boughtBook.m_askLevels).count 3 = 1 :=
  ⟨boughtBook_reachable, by decide, by decide,
    (registered_order_queued_once boughtBook boughtBook_reachable ("S2", 3) (by decide)
      (by decide)).1⟩

theorem ghostBook_reachable : Reachable ghostBook :=
  Reachable.submit _ _ (Reachable.submit _ _ tslaBook_reachable (by decide)) (by decide)

/-- C22, the code at the failing input.  `C1` (500) and `B2` (300) rest at
`100.00`; `cancelOrder("C1")` returns `true`, removes `C1` from the registry and
sets its remaining quantity to 0, but leaves it at the head of its level.  The
later `addOrder` of `S1` (`SELL 100.00 x 200`), whose identifier is not `C1`,
succeeds and appends two trades: `PriceLevel::match` reports the cancelled
order as touched, so the first trade names `C1` as the buy order, with quantity
`min(quantityMatched, getQuantity()) = min(200, 500)`. -/
theorem cancelled_order_named_in_later_trade :
    Reachable ghostBook ∧
    (ghostBook.cancelOrder "C1").2 = .ok true ∧
    ghostCancelled.m_orders.find "C1" = none ∧
    (ghostCancelled.heap 0).m_orderId = "C1" ∧
    (ghostCancelled.heap 0).m_remainingQuantity = 0 ∧
    ghostCancelled.m_bidLevels = [(100000, ⟨100000, [0, 1], 800⟩)] ∧
    ghostCancelled.m_trades = [] ∧
    (ghostCancelled.submit ghostSell).2 = .ok () ∧
    (ghostCancelled.submit ghostSell).1.m_trades =
      [⟨"C1", "S1", 100000, 200⟩, ⟨"B2", "S1", 100000, 200⟩] :=
  ⟨ghostBook_reachable, by decide, by decide, by decide, by decide, by decide, by decide,
    by decide, by decide⟩


end OrderBookModel
